import Mathlib

/-!
# next-api-middleware: the middleware executor, `use`, `label` and validation

A shallow embedding of `src/lib/promises.js`, `src/lib/executor.js`,
`src/lib/validation.js`, `src/lib/use.js` and `src/lib/label.js`.

JavaScript runs the executor on one thread with a FIFO queue of promise jobs
(microtasks).  The embedding keeps that queue explicit: a `State` holds the
executor nodes, the job queue and a log of observable events; every method of
`Executor` is a function on states that performs the synchronous part of the
method, and every point where the source suspends (`await`, `.then`,
`queueMicrotask`, returning a promise from an `async` function) becomes a
`Reaction` or a `Job` whose body is the code that follows the suspension.

Middleware and the API route handler are inputs of the library.  They are
given as small scripts (`SyncStmt`, `AsyncStmt`, `HandlerStmt`) so that the
theorems can quantify over them.
-/

set_option autoImplicit false

namespace NextApiMiddleware

/-! ## JavaScript values that are thrown, rejected with, or passed to `next` -/

/-- The values a middleware or handler can throw, reject with, or pass to its continuation. -/
inductive Value where
  | undefined
  | null
  | bool (b : Bool)
  | num (n : Int)
  | str (s : String)
  | errorObj (ctor : String) (message : String)
  deriving DecidableEq, Repr

/-- JavaScript truthiness, as tested by `if (error)`. -/
def Value.truthy : Value → Bool
  | .undefined => false
  | .null => false
  | .bool b => b
  | .num n => n != 0
  | .str s => s != ""
  | .errorObj _ _ => true

/-- The error raised by `this.currentFn.name` when `currentFn` is `undefined`. -/
def typeErrorName : Value :=
  .errorObj "TypeError" "Cannot read properties of undefined (reading 'name')"

/-! ## Scripts for middleware and for the API route handler -/

/-- Statements of a middleware written as a plain (non-`async`) function. -/
inductive SyncStmt where
  /-- an observable effect of the middleware -/
  | log (msg : String)
  /-- the statement `next(error);`, the returned value being discarded -/
  | next (error : Value)
  /-- the statement `return next(error);` -/
  | returnNext (error : Value)
  /-- the statement `throw v;` -/
  | throw (v : Value)
  /-- the statement `queueMicrotask(() => next(error));`: the continuation is invoked from
  a later callback, outside the call of the middleware -/
  | defer (error : Value)
  deriving DecidableEq, Repr

/-- Statements of a middleware written as an `async` function. -/
inductive AsyncStmt where
  /-- an observable effect of the middleware -/
  | log (msg : String)
  /-- the statement `next(error);`, the returned promise being discarded -/
  | next (error : Value)
  /-- the statement `await next(error);` -/
  | awaitNext (error : Value)
  /-- the statement `try { await next(error); } catch (e) { }`, the caught value being recorded -/
  | tryAwaitNext (error : Value)
  /-- the statement `await undefined;` -/
  | awaitTick
  /-- the statement `return next(error);` -/
  | returnNext (error : Value)
  /-- the statement `throw v;` -/
  | throw (v : Value)
  /-- the statement `queueMicrotask(() => next(error));`: the continuation is invoked from
  a later callback, outside the call of the middleware -/
  | defer (error : Value)
  deriving DecidableEq, Repr

/-- The body of a middleware function. -/
inductive Body where
  | plain (code : List SyncStmt)
  | async (code : List AsyncStmt)
  deriving DecidableEq, Repr

/-- A function value used as middleware: its `name`, its `length` (the number of
declared parameters that JavaScript reports) and its body. -/
structure Middleware where
  name : String
  length : Nat
  body : Body
  deriving DecidableEq, Repr

/-- Statements of the API route handler. `awaitTick` only occurs in `async` handlers. -/
inductive HandlerStmt where
  | log (msg : String)
  | awaitTick
  | throw (v : Value)
  deriving DecidableEq, Repr

/-- Statements of an API route handler written as a plain function. -/
inductive PlainHandlerStmt where
  | log (msg : String)
  | throw (v : Value)
  deriving DecidableEq, Repr

/-- The API route handler `apiRouteFn`. -/
inductive Handler where
  | plain (code : List PlainHandlerStmt)
  | async (code : List HandlerStmt)
  deriving DecidableEq, Repr

/-! ## Promises (`src/lib/promises.js`) -/

/-- The code that runs when a promise settles: one constructor for every place
where the source waits on a promise. -/
inductive Reaction where
  /-- `run()` continues after `await cleanupPromise.promise` -/
  | runCont (pos : Nat)
  /-- an `async` middleware continues after one of its own `await`s -/
  | mwResume (pos : Nat)
  /-- the two handlers passed to `this.result.then(...)` in `run()` -/
  | asyncDone (pos : Nat)
  /-- the promise returned by `run()` follows `internalPromise.promise` -/
  | settleRun (pos : Nat)
  /-- the promise of an `async` middleware follows the promise it returned -/
  | settleResult (pos : Nat)
  /-- `runRemaining()` continues after its `await` -/
  | runRemainingCont (pos : Nat)
  /-- an `async` API route handler continues after `await undefined` -/
  | handlerResume
  /-- `finalRouteHandler` continues after `await ... .run()` -/
  | routeCont
  deriving DecidableEq, Repr

/-- How a promise settled. -/
inductive Settled where
  | fulfilled
  | rejected (reason : Value)
  deriving DecidableEq, Repr

/-- A job of the microtask queue. -/
inductive Job where
  /-- a promise reaction job -/
  | react (r : Reaction) (o : Settled)
  /-- the callback given to `queueMicrotask` in `run()` -/
  | checkFlag (pos : Nat)
  /-- the job by which the promise of `run()` adopts `internalPromise.promise` -/
  | adopt (pos : Nat)
  /-- the job by which the promise of an `async` middleware adopts `teardownPromise.promise` -/
  | adoptResult (pos : Nat)
  /-- the callback `() => next(error)` that the middleware at `pos` gave to `queueMicrotask`.
  What the continuation throws there is caught by no `try` of the executor: it goes to the
  host as an uncaught exception, and the host is taken to go on with the jobs -/
  | deferred (pos : Nat) (error : Value)
  deriving DecidableEq, Repr

/-- The state of a promise. -/
inductive PStatus where
  | pending
  | fulfilled
  | rejected (reason : Value)
  deriving DecidableEq, Repr

/-- A promise together with its `resolve` and `reject` functions: the object
returned by `controlledPromise()`. The reactions are those registered while it was pending. -/
structure ControlledPromise where
  status : PStatus
  reactions : List Reaction
  deriving DecidableEq, Repr

/-- The function `controlledPromise()`: a new pending promise. -/
def controlledPromise : ControlledPromise := ⟨.pending, []⟩

namespace ControlledPromise

/-- The call `resolve()`: settles a pending promise and schedules its reactions; no effect otherwise. -/
def resolve (c : ControlledPromise) : ControlledPromise × List Job :=
  match c.status with
  | .pending => (⟨.fulfilled, []⟩, c.reactions.map (fun r => Job.react r .fulfilled))
  | _ => (c, [])

/-- The call `reject(err)`: settles a pending promise and schedules its reactions; no effect otherwise. -/
def reject (c : ControlledPromise) (err : Value) : ControlledPromise × List Job :=
  match c.status with
  | .pending => (⟨.rejected err, []⟩, c.reactions.map (fun r => Job.react r (.rejected err)))
  | _ => (c, [])

/-- Registering a reaction (`promise.then(...)` or `await promise`): kept while the
promise is pending, scheduled at once when it is settled. -/
def subscribe (c : ControlledPromise) (r : Reaction) : ControlledPromise × List Job :=
  match c.status with
  | .pending => ({ c with reactions := c.reactions ++ [r] }, [])
  | .fulfilled => (c, [Job.react r .fulfilled])
  | .rejected e => (c, [Job.react r (.rejected e)])

end ControlledPromise

/-- What a middleware call returned: `undefined` or a promise. -/
inductive Result where
  | undefined
  /-- the promise of the `async` middleware function itself -/
  | ownPromise
  /-- the value of `next()`, that is `teardownPromise.promise` -/
  | teardown
  deriving DecidableEq, Repr

/-- The function `isPromise(input)`. -/
def isPromise : Result → Bool
  | .undefined => false
  | .ownPromise => true
  | .teardown => true

/-! ## Executor nodes and the state of one request -/

/-- An instance of the class `Executor`: its fields, the locals of its `run()`
call (`cleanupPromise`, `asyncMiddlewareFailed`), the promise its `run()` call
returned, and the suspended call of its `async` middleware. -/
structure Executor where
  currentFn : Option Middleware
  remaining : List Middleware
  apiRouteFn : Handler
  req : Nat
  res : Nat
  stackPosition : Nat
  internalPromise : ControlledPromise
  teardownPromise : ControlledPromise
  result : Result
  cleanupPromise : ControlledPromise
  asyncMiddlewareFailed : Bool
  /-- the promise returned by the `async` method `run()` -/
  runPromise : ControlledPromise
  /-- the promise returned by the call of an `async` middleware -/
  ownPromise : ControlledPromise
  /-- the statements an `async` middleware still has to run when its `await` returns -/
  mwCode : List AsyncStmt
  /-- whether that `await` stands inside `try { } catch (e) { }` -/
  mwInTry : Bool
  deriving DecidableEq, Repr

/-- The constructor of `Executor`, with the field initialisers of the class. -/
def Executor.new (middleware : List Middleware) (apiRouteFn : Handler) (req res : Nat)
    (previousStackPosition : Option Nat) : Executor :=
  { currentFn := middleware.head?
    remaining := middleware.tail
    apiRouteFn := apiRouteFn
    req := req
    res := res
    stackPosition := 1 + previousStackPosition.getD 0
    internalPromise := controlledPromise
    teardownPromise := controlledPromise
    result := .undefined
    cleanupPromise := controlledPromise
    asyncMiddlewareFailed := false
    runPromise := controlledPromise
    ownPromise := controlledPromise
    mwCode := []
    mwInTry := false }

/-- What an observer of one request sees. -/
inductive Event where
  /-- the executor at `pos` called its middleware with `(req, res, next)` -/
  | mwCalled (pos : Nat) (name : String) (req res : Nat)
  /-- a `log` statement of a middleware or of the handler ran -/
  | log (msg : String)
  /-- the continuation of the middleware at `pos` was invoked with `error` -/
  | nextCalled (pos : Nat) (error : Value)
  /-- the `catch` clause around `await next()` of the middleware at `pos` received `e` -/
  | caught (pos : Nat) (e : Value)
  /-- the API route handler was called with `(req, res)` -/
  | handlerCalled (req res : Nat)
  deriving DecidableEq, Repr

/-- The state of one request: the executors by stack position, the microtask
queue, the events so far, the promise and the suspended code of an `async`
handler, and the promise returned by `finalRouteHandler`. -/
structure State where
  nodes : Nat → Executor
  queue : List Job
  log : List Event
  handlerPromise : ControlledPromise
  handlerCode : List HandlerStmt
  routePromise : ControlledPromise

/-- The promises of a request. -/
inductive PromiseRef where
  | internal (pos : Nat)
  | teardown (pos : Nat)
  | cleanup (pos : Nat)
  | own (pos : Nat)
  | run (pos : Nat)
  | handler
  | route
  deriving DecidableEq, Repr

namespace State

/-- Replace the executor at `pos`. -/
def setNode (s : State) (pos : Nat) (e : Executor) : State :=
  { s with nodes := Function.update s.nodes pos e }

/-- Append jobs to the microtask queue. -/
def enqueue (s : State) (js : List Job) : State :=
  { s with queue := s.queue ++ js }

/-- Record an event. -/
def emit (s : State) (e : Event) : State :=
  { s with log := s.log ++ [e] }

/-- Read a promise. -/
def getP (s : State) : PromiseRef → ControlledPromise
  | .internal p => (s.nodes p).internalPromise
  | .teardown p => (s.nodes p).teardownPromise
  | .cleanup p => (s.nodes p).cleanupPromise
  | .own p => (s.nodes p).ownPromise
  | .run p => (s.nodes p).runPromise
  | .handler => s.handlerPromise
  | .route => s.routePromise

/-- Write a promise. -/
def setP (s : State) : PromiseRef → ControlledPromise → State
  | .internal p, c => s.setNode p { s.nodes p with internalPromise := c }
  | .teardown p, c => s.setNode p { s.nodes p with teardownPromise := c }
  | .cleanup p, c => s.setNode p { s.nodes p with cleanupPromise := c }
  | .own p, c => s.setNode p { s.nodes p with ownPromise := c }
  | .run p, c => s.setNode p { s.nodes p with runPromise := c }
  | .handler, c => { s with handlerPromise := c }
  | .route, c => { s with routePromise := c }

/-- Call the `resolve` function of a promise. -/
def resolve (s : State) (r : PromiseRef) : State :=
  ((s.setP r (s.getP r).resolve.1)).enqueue (s.getP r).resolve.2

/-- Call the `reject` function of a promise. -/
def reject (s : State) (r : PromiseRef) (err : Value) : State :=
  ((s.setP r ((s.getP r).reject err).1)).enqueue ((s.getP r).reject err).2

/-- Register a reaction on a promise (`await` it, or call its `then`). -/
def subscribe (s : State) (r : PromiseRef) (k : Reaction) : State :=
  ((s.setP r ((s.getP r).subscribe k).1)).enqueue ((s.getP r).subscribe k).2

end State

/-- The default value of the parameter in `(error = null) => ...`: it replaces `undefined`. -/
def defaultNull (error : Value) : Value := if error = .undefined then .null else error

namespace Executor

/-- The field `succeed`, that is `internalPromise.resolve`. -/
def succeed (pos : Nat) (s : State) : State := s.resolve (.internal pos)

/-- The field `fail`, that is `internalPromise.reject`. -/
def fail (pos : Nat) (err : Value) (s : State) : State := s.reject (.internal pos) err

/-- The continuation `(error = null) => { ... }` that `run()` passes to the
middleware. It resolves `cleanupPromise`; it throws `error` when `error` is
truthy (the second component is the thrown value) and returns
`teardownPromise.promise` otherwise. -/
def next (pos : Nat) (error : Value) (s : State) : State × Option Value :=
  let error := defaultNull error
  let s := (s.emit (.nextCalled pos error)).resolve (.cleanup pos)
  if error.truthy then (s, some error) else (s, none)

/-- The method `finish(error)`. -/
def finish (pos : Nat) (error : Value) (s : State) : State :=
  if isPromise (s.nodes pos).result then
    if error.truthy then s.reject (.teardown pos) error
    else s.resolve (.teardown pos)
  else
    if error.truthy then fail pos error s
    else succeed pos s

end Executor

/-! ## Calling middleware and the handler -/

/-- How a call of a plain function ended. -/
inductive Completion where
  | returned (r : Result)
  | thrown (e : Value)
  deriving DecidableEq, Repr

/-- The call `currentFn(req, res, next)` of a plain middleware at `pos`. -/
def callSync (pos : Nat) : List SyncStmt → State → State × Completion
  | [], s => (s, .returned .undefined)
  | .log m :: k, s => callSync pos k (s.emit (.log m))
  | .next e :: k, s =>
    match (Executor.next pos e s).2 with
    | some v => ((Executor.next pos e s).1, .thrown v)
    | none => callSync pos k (Executor.next pos e s).1
  | .returnNext e :: _, s =>
    match (Executor.next pos e s).2 with
    | some v => ((Executor.next pos e s).1, .thrown v)
    | none => ((Executor.next pos e s).1, .returned .teardown)
  | .throw v :: _, s => (s, .thrown v)
  | .defer e :: k, s => callSync pos k (s.enqueue [.deferred pos e])

/-- Suspend the `async` middleware at `pos` at an `await`, keeping the rest of its body. -/
def suspend (pos : Nat) (k : List AsyncStmt) (inTry : Bool) (s : State) : State :=
  s.setNode pos { s.nodes pos with mwCode := k, mwInTry := inTry }

/-- Run the body of the `async` middleware at `pos` up to its next `await` or to
its end. A normal end resolves the promise of the call, a `throw` rejects it. -/
def runAsync (pos : Nat) : List AsyncStmt → State → State
  | [], s => s.resolve (.own pos)
  | .log m :: k, s => runAsync pos k (s.emit (.log m))
  | .next e :: k, s =>
    match (Executor.next pos e s).2 with
    | some v => (Executor.next pos e s).1.reject (.own pos) v
    | none => runAsync pos k (Executor.next pos e s).1
  | .awaitNext e :: k, s =>
    match (Executor.next pos e s).2 with
    | some v => (Executor.next pos e s).1.reject (.own pos) v
    | none => (suspend pos k false (Executor.next pos e s).1).subscribe (.teardown pos) (.mwResume pos)
  | .tryAwaitNext e :: k, s =>
    match (Executor.next pos e s).2 with
    | some v => runAsync pos k ((Executor.next pos e s).1.emit (.caught pos v))
    | none => (suspend pos k true (Executor.next pos e s).1).subscribe (.teardown pos) (.mwResume pos)
  | .awaitTick :: k, s => (suspend pos k false s).enqueue [.react (.mwResume pos) .fulfilled]
  | .returnNext e :: _, s =>
    match (Executor.next pos e s).2 with
    | some v => (Executor.next pos e s).1.reject (.own pos) v
    | none => (Executor.next pos e s).1.enqueue [.adoptResult pos]
  | .throw v :: _, s => s.reject (.own pos) v
  | .defer e :: k, s => runAsync pos k (s.enqueue [.deferred pos e])

/-- The `async` middleware at `pos` continues after the promise it awaited settled. -/
def resumeAsync (pos : Nat) (o : Settled) (s : State) : State :=
  match o with
  | .fulfilled => runAsync pos (s.nodes pos).mwCode s
  | .rejected e =>
    if (s.nodes pos).mwInTry then runAsync pos (s.nodes pos).mwCode (s.emit (.caught pos e))
    else s.reject (.own pos) e

/-- The call `apiRouteFn(req, res)` of a plain handler: the thrown value, if any. -/
def callHandler : List PlainHandlerStmt → State → State × Option Value
  | [], s => (s, none)
  | .log m :: k, s => callHandler k (s.emit (.log m))
  | .throw v :: _, s => (s, some v)

/-- Run the body of an `async` handler up to its next `await` or to its end. -/
def runHandler : List HandlerStmt → State → State
  | [], s => s.resolve .handler
  | .log m :: k, s => runHandler k (s.emit (.log m))
  | .awaitTick :: k, s => { s with handlerCode := k }.enqueue [.react .handlerResume .fulfilled]
  | .throw v :: _, s => s.reject .handler v

namespace Executor

/-- The statement `return this.internalPromise.promise` of the `async` method
`run()`: the promise of the call is resolved with a promise, which schedules
the job that makes it follow that promise. -/
def returnInternal (pos : Nat) (s : State) : State := s.enqueue [.adopt pos]

/-- The part of `run()` after the middleware returned `r`: the result is stored,
the two handlers are attached to it when it is a promise, and the method
awaits `cleanupPromise.promise`. -/
def afterCall (pos : Nat) (r : Result) (s : State) : State :=
  let s := s.setNode pos { s.nodes pos with result := r, asyncMiddlewareFailed := false }
  let s := match r with
    | .undefined => s
    | .ownPromise => s.subscribe (.own pos) (.asyncDone pos)
    | .teardown => s.subscribe (.teardown pos) (.asyncDone pos)
  s.subscribe (.cleanup pos) (.runCont pos)

/-- The method `run()` of the executor at `pos`, up to its first suspension.
Reading `this.currentFn.name` throws when the list of middleware was empty;
whatever is thrown inside `try` is passed to `fail`. -/
def run (pos : Nat) (s : State) : State :=
  let s := s.setNode pos { s.nodes pos with cleanupPromise := controlledPromise }
  match (s.nodes pos).currentFn with
  | none => returnInternal pos (fail pos typeErrorName s)
  | some fn =>
    let s := s.emit (.mwCalled pos fn.name (s.nodes pos).req (s.nodes pos).res)
    match fn.body with
    | .plain code =>
      match (callSync pos code s).2 with
      | .thrown e => returnInternal pos (fail pos e (callSync pos code s).1)
      | .returned r => afterCall pos r (callSync pos code s).1
    | .async code => afterCall pos .ownPromise (runAsync pos code s)

/-- The method `runRemaining()` of the executor at `pos`, up to its first suspension. -/
def runRemaining (pos : Nat) (s : State) : State :=
  let self := s.nodes pos
  if self.remaining.length = 0 then
    let s := s.emit (.handlerCalled self.req self.res)
    match self.apiRouteFn with
    | .plain code =>
      match (callHandler code s).2 with
      | some e => finish pos e (callHandler code s).1
      | none => (callHandler code s).1.enqueue [.react (.runRemainingCont pos) .fulfilled]
    | .async code =>
      (runHandler code { s with handlerPromise := controlledPromise }).subscribe
        .handler (.runRemainingCont pos)
  else
    let remainingExecutor :=
      Executor.new self.remaining self.apiRouteFn self.req self.res (some self.stackPosition)
    let s := s.setNode remainingExecutor.stackPosition remainingExecutor
    let s := run remainingExecutor.stackPosition s
    s.subscribe (.run remainingExecutor.stackPosition) (.runRemainingCont pos)

end Executor

/-! ## The microtask queue -/

/-- Run one promise reaction. -/
def runReaction (r : Reaction) (o : Settled) (s : State) : State :=
  match r with
  | .runCont pos =>
    -- queueMicrotask(...), then `return this.internalPromise.promise`
    Executor.returnInternal pos (s.enqueue [.checkFlag pos])
  | .mwResume pos => resumeAsync pos o s
  | .asyncDone pos =>
    match o with
    | .fulfilled => Executor.succeed pos s
    | .rejected err =>
      let s := s.setNode pos { s.nodes pos with asyncMiddlewareFailed := true }
      Executor.fail pos err (s.resolve (.cleanup pos))
  | .settleRun pos =>
    match o with
    | .fulfilled => s.resolve (.run pos)
    | .rejected err => s.reject (.run pos) err
  | .settleResult pos =>
    match o with
    | .fulfilled => s.resolve (.own pos)
    | .rejected err => s.reject (.own pos) err
  | .runRemainingCont pos =>
    match o with
    | .fulfilled => Executor.finish pos .undefined s
    | .rejected err => Executor.finish pos err s
  | .handlerResume => runHandler s.handlerCode s
  | .routeCont =>
    match o with
    | .fulfilled => s.resolve .route
    | .rejected err => s.reject .route err

/-- Run one job. -/
def runJob (j : Job) (s : State) : State :=
  match j with
  | .react r o => runReaction r o s
  | .checkFlag pos =>
    if (s.nodes pos).asyncMiddlewareFailed then s else Executor.runRemaining pos s
  | .adopt pos => s.subscribe (.internal pos) (.settleRun pos)
  | .adoptResult pos => s.subscribe (.teardown pos) (.settleResult pos)
  -- what the continuation throws in the callback is not caught by the executor
  | .deferred pos error => (Executor.next pos error s).1

/-- Take the first job off the queue and run it; nothing happens when the queue is empty. -/
def step (s : State) : State :=
  match s.queue with
  | [] => s
  | j :: q => runJob j { s with queue := q }

/-- Run `n` jobs. -/
def runJobs : Nat → State → State
  | 0, s => s
  | n + 1, s => runJobs n (step s)

/-! ## The executor factory (`makeMiddlewareExecutor`) -/

/-- The state of a request before anything ran. -/
def State.init (root : Executor) : State :=
  { nodes := fun _ => root
    queue := []
    log := []
    handlerPromise := controlledPromise
    handlerCode := []
    routePromise := controlledPromise }

/-- The call `makeMiddlewareExecutor(middlewareFns)(apiRouteFn)(req, res)`, that is
`finalRouteHandler(req, res)`, up to its `await`. -/
def makeMiddlewareExecutor (middlewareFns : List Middleware) (apiRouteFn : Handler)
    (req res : Nat) : State :=
  let root := Executor.new middlewareFns apiRouteFn req res none
  let s := State.init root
  let s := Executor.run root.stackPosition s
  s.subscribe (.run root.stackPosition) .routeCont

/-- The request after `n` jobs of the microtask queue. -/
def runRoute (n : Nat) (middlewareFns : List Middleware) (apiRouteFn : Handler)
    (req res : Nat) : State :=
  runJobs n (makeMiddlewareExecutor middlewareFns apiRouteFn req res)

/-! ## Validation and `use` (`src/lib/validation.js`, `src/lib/use.js`) -/

/-- A value given to `use` or to `label`: a function, an array, an object that is neither,
or a value that is no object. -/
inductive Arg where
  | fn (f : Middleware)
  | array (items : List Arg)
  | other (v : Value)
  /-- an object that is neither a function nor an array, such as `Object.prototype` -/
  | object (description : String)

/-- The error `new Error("Invalid middleware")`. -/
def invalidMiddleware : Value := .errorObj "Error" "Invalid middleware"

/-- The test `typeof input === "function" && input.length === 3`. -/
def Arg.valid : Arg → Bool
  | .fn f => f.length == 3
  | _ => false

/-- The function `isValidMiddleware(input, throwOnFailure)`; the default `false` of
`throwOnFailure` is written out by the callers. -/
def isValidMiddleware (input : Arg) (throwOnFailure : Bool) : Except Value Bool :=
  let valid := input.valid
  if !valid && throwOnFailure then .error invalidMiddleware
  else .ok valid

/-- The function `isValidMiddlewareArray(input, throwOnFailure)`: `input.every(...)`
calls the test on the items in order and stops at the first that is not valid. -/
def isValidMiddlewareArray (input : List Arg) (throwOnFailure : Bool) :
    Except Value Bool :=
  match input with
  | [] => .ok true
  | item :: rest =>
    match isValidMiddleware item throwOnFailure with
    | .error e => .error e
    | .ok false => .ok false
    | .ok true => isValidMiddlewareArray rest throwOnFailure

/-- The method `flat()` of arrays, with its default depth 1. -/
def flat : List Arg → List Arg
  | [] => []
  | .array items :: rest => items ++ flat rest
  | a :: rest => a :: flat rest

/-- The function `use(...middleware)`. The value is the list it hands to
`makeMiddlewareExecutor`; an error is what it throws, in which case
`makeMiddlewareExecutor` is not called. -/
def use (middleware : List Arg) : Except Value (List Arg) :=
  let middlewareFns := flat middleware
  match isValidMiddlewareArray middlewareFns true with
  | .error e => .error e
  | .ok _ => .ok middlewareFns

/-! ## `label` (`src/lib/label.js`) -/

/-- JavaScript truthiness of a value given as a choice or stored in the registry: functions
and arrays are objects, hence truthy. -/
def Arg.truthy : Arg → Bool
  | .fn _ => true
  | .array _ => true
  | .other v => v.truthy
  | .object _ => true

/-- The object given to `label` as `middleware`: its own enumerable properties, in the
order of `Object.values`, and the properties it inherits from its prototype chain. -/
structure Registry where
  own : List (String × Arg)
  inherited : List (String × Arg)

/-- The properties that an object literal inherits from `Object.prototype`: its
functions, with the `length` that ECMAScript gives each of them, none of which calls its
third argument, and the accessor `__proto__`, whose value is `Object.prototype` itself. -/
def objectPrototype : List (String × Arg) :=
  [("constructor", .fn ⟨"Object", 1, .plain []⟩),
   ("hasOwnProperty", .fn ⟨"hasOwnProperty", 1, .plain []⟩),
   ("isPrototypeOf", .fn ⟨"isPrototypeOf", 1, .plain []⟩),
   ("propertyIsEnumerable", .fn ⟨"propertyIsEnumerable", 1, .plain []⟩),
   ("toLocaleString", .fn ⟨"toLocaleString", 0, .plain []⟩),
   ("toString", .fn ⟨"toString", 0, .plain []⟩),
   ("valueOf", .fn ⟨"valueOf", 0, .plain []⟩),
   ("__defineGetter__", .fn ⟨"__defineGetter__", 2, .plain []⟩),
   ("__defineSetter__", .fn ⟨"__defineSetter__", 2, .plain []⟩),
   ("__lookupGetter__", .fn ⟨"__lookupGetter__", 1, .plain []⟩),
   ("__lookupSetter__", .fn ⟨"__lookupSetter__", 1, .plain []⟩),
   ("__proto__", .object "Object.prototype")]

/-- The object literal `{ k1: v1, ... }`. -/
def objectLiteral (props : List (String × Arg)) : Registry := ⟨props, objectPrototype⟩

namespace Registry

/-- The call `Object.values(middleware)`. -/
def values (r : Registry) : List Arg := r.own.map Prod.snd

/-- The expression `middleware[choice]`: the own property of that name, else the
inherited one, else `undefined`. -/
def get (r : Registry) (choice : String) : Arg :=
  match r.own.lookup choice with
  | some v => v
  | none =>
    match r.inherited.lookup choice with
    | some v => v
    | none => .other .undefined

end Registry

/-- The error `new Error("Middleware \"<choice>\" not available")`. -/
def notAvailable (choice : String) : Value :=
  .errorObj "Error" ("Middleware \"" ++ choice ++ "\" not available")

/-- The loop of `curryMiddlewareChoices` over the choices still to load, `middlewareFns`
holding what was pushed so far. The value is the list handed to `makeMiddlewareExecutor`. -/
def loadChoices (middleware : Registry) : List Arg → List Arg → Except Value (List Arg)
  | [], middlewareFns => .ok middlewareFns
  | .other (.str choice) :: rest, middlewareFns =>
    let fn := middleware.get choice
    if !fn.truthy then .error (notAvailable choice)
    else
      match fn with
      | .array items => loadChoices middleware rest (middlewareFns ++ items)
      | _ => loadChoices middleware rest (middlewareFns ++ [fn])
  | .array items :: rest, middlewareFns =>
    match isValidMiddlewareArray items true with
    | .error e => .error e
    | .ok true => loadChoices middleware rest (middlewareFns ++ items)
    | .ok false =>
      match isValidMiddleware (.array items) true with
      | .error e => .error e
      | .ok true => loadChoices middleware rest (middlewareFns ++ [.array items])
      | .ok false => loadChoices middleware rest middlewareFns
  | choice :: rest, middlewareFns =>
    match isValidMiddleware choice true with
    | .error e => .error e
    | .ok true => loadChoices middleware rest (middlewareFns ++ [choice])
    | .ok false => loadChoices middleware rest middlewareFns

/-- The function `curryMiddlewareChoices(...chosenMiddleware)` that `label` returns. -/
def curryMiddlewareChoices (middleware : Registry) (defaults : List Arg)
    (chosenMiddleware : List Arg) : Except Value (List Arg) :=
  loadChoices middleware (defaults ++ chosenMiddleware) []

/-- The function `label(middleware, defaults)`; the default `[]` of `defaults` is written
out by the callers. It throws when a registered value is not valid. -/
def label (middleware : Registry) (defaults : List Arg) :
    Except Value (List Arg → Except Value (List Arg)) :=
  match isValidMiddlewareArray (flat middleware.values) true with
  | .error e => .error e
  | .ok _ => .ok (curryMiddlewareChoices middleware defaults)

/-- The expression `label(middleware, defaults)(...chosenMiddleware)`. -/
def labelled (middleware : Registry) (defaults chosenMiddleware : List Arg) :
    Except Value (List Arg) :=
  match label middleware defaults with
  | .error e => .error e
  | .ok choose => choose chosenMiddleware


/-- What a choice stands for, in the words of the specification: a name stands for the
elements of its entry when that is an array and for the entry itself otherwise, an array
for its elements, a function for itself. -/
def expansion (R : Registry) : Arg → List Arg
  | .other (.str s) =>
    match R.own.lookup s with
    | some (.array items) => items
    | some v => [v]
    | none => []
  | .array items => items
  | a => [a]

/-- The concatenation of the expansions of the choices, in order. -/
def expansions (R : Registry) : List Arg → List Arg
  | [] => []
  | c :: cs => expansion R c ++ expansions R cs

/-- A choice of one of the kinds the specification names: a name, an array of valid
middleware, or a valid middleware. -/
def IsChoice : Arg → Prop
  | .other (.str _) => True
  | .array items => ∀ x ∈ items, x.valid = true
  | a => a.valid = true

/-! ## Outcomes and the families of middleware the theorems speak about -/

/-- How `finish(error)` reads its argument: a truthy argument is an error, any other is none. -/
def Value.outcome (v : Value) : Settled := if v.truthy then .rejected v else .fulfilled

/-- The argument that `runRemaining()` gives to `finish`: nothing after a fulfilled
`await`, the caught value after a rejected one. -/
def Settled.value : Settled → Value
  | .fulfilled => .undefined
  | .rejected e => e

/-- The status of a promise that settled. -/
def Settled.status : Settled → PStatus
  | .fulfilled => .fulfilled
  | .rejected e => .rejected e

/-- The outcome of the rest of the chain as `finish` sees it. -/
def Settled.seen (o : Settled) : Settled := o.value.outcome

/-- The events of a plain handler. -/
def plainLog : List PlainHandlerStmt → List Event
  | [] => []
  | .log m :: k => .log m :: plainLog k
  | .throw _ :: _ => []

/-- The value a plain handler throws, if it throws. -/
def plainThrown : List PlainHandlerStmt → Option Value
  | [] => none
  | .log _ :: k => plainThrown k
  | .throw v :: _ => some v

/-- The events of an `async` handler. -/
def handlerLog : List HandlerStmt → List Event
  | [] => []
  | .log m :: k => .log m :: handlerLog k
  | .awaitTick :: k => handlerLog k
  | .throw _ :: _ => []

/-- How the promise of an `async` handler settles. -/
def handlerOutcome : List HandlerStmt → Settled
  | [] => .fulfilled
  | .log _ :: k => handlerOutcome k
  | .awaitTick :: k => handlerOutcome k
  | .throw v :: _ => .rejected v

/-- The events of a call of the handler, after `handlerCalled`. -/
def Handler.events : Handler → List Event
  | .plain code => plainLog code
  | .async code => handlerLog code

/-- How the call of the handler ends: it throws or its promise rejects, or neither. -/
def Handler.outcome : Handler → Settled
  | .plain code =>
    match plainThrown code with
    | some v => .rejected v
    | none => .fulfilled
  | .async code => handlerOutcome code

/-- Statements of an `async` middleware that do not touch the continuation. -/
def AsyncStmt.isPlain : AsyncStmt → Bool
  | .log _ => true
  | .awaitTick => true
  | .throw _ => true
  | _ => false

/-- Statements of an `async` middleware that neither touch the continuation nor throw. -/
def AsyncStmt.isQuiet : AsyncStmt → Bool
  | .log _ => true
  | .awaitTick => true
  | _ => false

/-- The events of statements up to their first `await`. -/
def untilTick : List AsyncStmt → List Event
  | .log m :: k => .log m :: untilTick k
  | _ => []

/-- What follows the first `await undefined` among statements that log. -/
def afterTick : List AsyncStmt → Option (List AsyncStmt)
  | .log _ :: k => afterTick k
  | .awaitTick :: k => some k
  | _ => none

/-- The events of statements that do not touch the continuation. -/
def tailLog : List AsyncStmt → List Event
  | .log m :: k => .log m :: tailLog k
  | .awaitTick :: k => tailLog k
  | _ => []

/-- How an `async` function ends that runs statements which do not touch the continuation. -/
def tailOutcome : List AsyncStmt → Settled
  | .log _ :: k => tailOutcome k
  | .awaitTick :: k => tailOutcome k
  | .throw v :: _ => .rejected v
  | _ => .fulfilled

/-- How an `async` middleware ends once its `await next()` settled as `o`: inside
`try`/`catch` (`catches`) it goes on with `post` either way, outside it rethrows. -/
def resumeOutcome (catches : Bool) (post : List AsyncStmt) : Settled → Settled
  | .fulfilled => tailOutcome post
  | .rejected e => if catches then tailOutcome post else .rejected e

/-- The events of an `async` middleware once its `await next()` settled as `o`. -/
def resumeLog (q : Nat) (catches : Bool) (post : List AsyncStmt) : Settled → List Event
  | .fulfilled => tailLog post
  | .rejected e => if catches then .caught q e :: tailLog post else []

/-- The statement by which an asynchronous-style middleware awaits its continuation. -/
def awaitStmt (catches : Bool) (u : Value) : AsyncStmt :=
  match catches with
  | true => .tryAwaitNext u
  | false => .awaitNext u

/-- The statement `await next(e);` or `next(e);`. -/
def callStmt (awaited : Bool) (e : Value) : AsyncStmt :=
  match awaited with
  | true => .awaitNext e
  | false => .next e

/-- A synchronous-style middleware: it logs `pre`, calls `next(u)`, logs `post`, and
returns nothing. -/
def syncMw (name : String) (len : Nat) (pre : List String) (u : Value) (post : List String) :
    Middleware :=
  ⟨name, len, .plain (pre.map .log ++ .next u :: post.map .log)⟩

/-- An asynchronous-style middleware: it runs `pre`, awaits `next(u)` (inside
`try`/`catch` when `catches`), and then runs `post`. -/
def asyncMw (name : String) (len : Nat) (pre : List AsyncStmt) (catches : Bool) (u : Value)
    (post : List AsyncStmt) : Middleware :=
  ⟨name, len, .async (pre ++ awaitStmt catches u :: post)⟩

/-- A plain middleware that logs and then calls `next(e)`. -/
def syncNextErrMw (name : String) (len : Nat) (pre : List String) (e : Value)
    (rest : List SyncStmt) : Middleware :=
  ⟨name, len, .plain (pre.map .log ++ .next e :: rest)⟩

/-- A plain middleware that logs and then throws `e`. -/
def syncThrowMw (name : String) (len : Nat) (pre : List String) (e : Value)
    (rest : List SyncStmt) : Middleware :=
  ⟨name, len, .plain (pre.map .log ++ .throw e :: rest)⟩

/-- An `async` middleware that runs `pre` and then throws `e`, never having called `next`. -/
def asyncThrowMw (name : String) (len : Nat) (pre : List AsyncStmt) (e : Value)
    (rest : List AsyncStmt) : Middleware :=
  ⟨name, len, .async (pre ++ .throw e :: rest)⟩

/-- An `async` middleware that runs `pre` and then calls `next(e)` outside `try`, awaited
or not. -/
def asyncNextErrMw (name : String) (len : Nat) (pre : List AsyncStmt) (awaited : Bool)
    (e : Value) (rest : List AsyncStmt) : Middleware :=
  ⟨name, len, .async (pre ++ callStmt awaited e :: rest)⟩

/-- An `async` middleware that runs `pre`, calls `next(u)` without awaiting it, runs `mid`
and then throws `e`. -/
def asyncNextThrowMw (name : String) (len : Nat) (pre : List AsyncStmt) (u : Value)
    (mid : List AsyncStmt) (e : Value) (rest : List AsyncStmt) : Middleware :=
  ⟨name, len, .async (pre ++ .next u :: (mid ++ .throw e :: rest))⟩

/-- The number of statements `await undefined;` among the statements. -/
def awaits : List AsyncStmt → Nat
  | [] => 0
  | .awaitTick :: k => 1 + awaits k
  | _ :: k => awaits k

/-- The throw of `asyncNextThrowMw` comes before the microtask in which `run()` looks
whether the middleware failed: the middleware awaits nothing between the call of its
continuation and the throw, or it awaits once there and awaited nothing before the call. -/
def InTime (pre mid : List AsyncStmt) : Prop :=
  awaits mid = 0 ∨ (awaits pre = 0 ∧ awaits mid = 1)

/-- A plain middleware that logs and then returns the value of its continuation call:
`return next(u);`. -/
def returnNextMw (name : String) (len : Nat) (pre : List String) (u : Value)
    (rest : List SyncStmt) : Middleware :=
  ⟨name, len, .plain (pre.map .log ++ .returnNext u :: rest)⟩

/-- A middleware that hands over to the rest of the chain: synchronous style or
asynchronous style. -/
inductive Link where
  | sync (name : String) (len : Nat) (pre : List String) (u : Value) (post : List String)
  | async (name : String) (len : Nat) (pre : List AsyncStmt) (catches : Bool) (u : Value)
      (post : List AsyncStmt)
  deriving DecidableEq, Repr

namespace Link

/-- The middleware function a link describes. -/
def mw : Link → Middleware
  | .sync name len pre u post => syncMw name len pre u post
  | .async name len pre catches u post => asyncMw name len pre catches u post

/-- The link calls its continuation with no error; before `await next()` an asynchronous
link only logs and awaits, and what follows does not touch the continuation again. -/
def Ok : Link → Prop
  | .sync _ _ _ u _ => u.truthy = false
  | .async _ _ pre _ u post =>
    u.truthy = false ∧ (∀ st ∈ pre, st.isQuiet = true) ∧ ∀ st ∈ post, st.isPlain = true

/-- The events of the link at position `q` up to the moment `run()` queues the rest
of the chain. A synchronous-style link has run all its statements by then. -/
def before (req res : Nat) (q : Nat) : Link → List Event
  | .sync name _ pre u post =>
    .mwCalled q name req res :: pre.map Event.log ++ .nextCalled q (defaultNull u) :: post.map Event.log
  | .async name _ pre _ u _ =>
    .mwCalled q name req res :: tailLog pre ++ [.nextCalled q (defaultNull u)]

/-- The events of the link at position `q` after the rest of the chain ended as `o`. -/
def after (q : Nat) (o : Settled) : Link → List Event
  | .sync _ _ _ _ _ => []
  | .async _ _ _ catches _ post => resumeLog q catches post o.seen

/-- How `internalPromise` of the link settles when the rest of the chain ended as `o`. -/
def out (o : Settled) : Link → Settled
  | .sync _ _ _ _ _ => o.seen
  | .async _ _ _ catches _ post => resumeOutcome catches post o.seen

end Link

/-- How the chain `links` followed by a tail that ends as `o` ends. -/
def linksOutcome : List Link → Settled → Settled
  | [], o => o
  | l :: ls, o => l.out (linksOutcome ls o)

/-- The events of `links` at positions `p + 1, p + 2, ...` around the events `tail` of
what follows them, which ends as `o`. -/
def linksLog (req res : Nat) : List Link → (Nat → List Event) → Settled → Nat → List Event
  | [], tail, _, p => tail p
  | l :: ls, tail, o, p =>
    l.before req res (1 + p) ++
      (linksLog req res ls tail o (1 + p) ++ l.after (1 + p) (linksOutcome ls o))

/-- A middleware that fails in its own call, before anything it awaits. -/
inductive Failing where
  | syncNext (name : String) (len : Nat) (pre : List String) (e : Value) (rest : List SyncStmt)
  | syncThrow (name : String) (len : Nat) (pre : List String) (e : Value) (rest : List SyncStmt)
  | asyncThrow (name : String) (len : Nat) (pre : List AsyncStmt) (e : Value)
      (rest : List AsyncStmt)
  | asyncNext (name : String) (len : Nat) (pre : List AsyncStmt) (awaited : Bool) (e : Value)
      (rest : List AsyncStmt)
  deriving DecidableEq, Repr

namespace Failing

/-- The middleware function. -/
def mw : Failing → Middleware
  | .syncNext name len pre e rest => syncNextErrMw name len pre e rest
  | .syncThrow name len pre e rest => syncThrowMw name len pre e rest
  | .asyncThrow name len pre e rest => asyncThrowMw name len pre e rest
  | .asyncNext name len pre awaited e rest => asyncNextErrMw name len pre awaited e rest

/-- The value it fails with. -/
def error : Failing → Value
  | .syncNext _ _ _ e _ => e
  | .syncThrow _ _ _ e _ => e
  | .asyncThrow _ _ _ e _ => e
  | .asyncNext _ _ _ _ e _ => e

/-- An error passed to the continuation is truthy, and an `async` middleware only logs
and awaits before it fails. -/
def Ok : Failing → Prop
  | .syncNext _ _ _ e _ => e.truthy = true
  | .syncThrow _ _ _ _ _ => True
  | .asyncThrow _ _ pre _ _ => ∀ st ∈ pre, st.isQuiet = true
  | .asyncNext _ _ pre _ e _ => e.truthy = true ∧ ∀ st ∈ pre, st.isQuiet = true

/-- Whether it invokes its continuation. -/
def callsNext : Failing → Bool
  | .syncNext _ _ _ _ _ => true
  | .syncThrow _ _ _ _ _ => false
  | .asyncThrow _ _ _ _ _ => false
  | .asyncNext _ _ _ _ _ _ => true

/-- The name of the middleware and the events of what it does before it fails. -/
def descr : Failing → String × List Event
  | .syncNext name _ pre _ _ => (name, pre.map Event.log)
  | .syncThrow name _ pre _ _ => (name, pre.map Event.log)
  | .asyncThrow name _ pre _ _ => (name, tailLog pre)
  | .asyncNext name _ pre _ _ _ => (name, tailLog pre)

/-- The events of the middleware at position `q`. -/
def before (req res : Nat) (q : Nat) (f : Failing) : List Event :=
  .mwCalled q f.descr.1 req res :: f.descr.2 ++
    (if f.callsNext then [.nextCalled q f.error] else [])

end Failing

/-! ## Reading the events of a request -/

/-- The name of the middleware function of a link. -/
def Link.name : Link → String
  | .sync name _ _ _ _ => name
  | .async name _ _ _ _ _ => name

/-- The link resolves when the rest of the chain did: what follows `await next()` does not throw. -/
def Link.Resolves : Link → Prop
  | .sync _ _ _ _ _ => True
  | .async _ _ _ _ _ post => tailOutcome post = .fulfilled

/-- The link does not catch what its continuation rejects with. -/
def Link.Rethrows : Link → Prop
  | .sync _ _ _ _ _ => True
  | .async _ _ _ catches _ _ => catches = false

/-- The events of the links at positions `p + 1, ...` before the rest of the chain runs. -/
def befores (req res : Nat) : Nat → List Link → List Event
  | _, [] => []
  | p, l :: ls => l.before req res (1 + p) ++ befores req res (1 + p) ls

/-- The events of the links at positions `p + 1, ...` after what follows them ended as `o`. -/
def afters : Nat → List Link → Settled → List Event
  | _, [], _ => []
  | p, l :: ls, o => afters (1 + p) ls o ++ l.after (1 + p) (linksOutcome ls o)

/-- The calls of middleware among the events. -/
def calls : List Event → List Event
  | [] => []
  | .mwCalled q name req res :: k => .mwCalled q name req res :: calls k
  | _ :: k => calls k

/-- The calls of the middleware of `links` at positions `p + 1, ...`, in order. -/
def expectedCalls (req res : Nat) : Nat → List Link → List Event
  | _, [] => []
  | p, l :: ls => .mwCalled (1 + p) l.name req res :: expectedCalls req res (1 + p) ls

/-- The number of calls of the handler among the events. -/
def handlerCalls : List Event → Nat
  | [] => 0
  | .handlerCalled _ _ :: k => 1 + handlerCalls k
  | _ :: k => handlerCalls k

/-- The event is a call of the handler or of a middleware at a position after `k`. -/
def Event.isLate (k : Nat) : Event → Bool
  | .handlerCalled _ _ => true
  | .mwCalled q _ _ _ => decide (k < q)
  | _ => false

/-- The link is synchronous-style. -/
def Link.IsSync : Link → Prop
  | .sync _ _ _ _ _ => True
  | .async _ _ _ _ _ _ => False

/-- An asynchronous middleware given by its name and two messages: it logs the first,
awaits its continuation, and logs the second. -/
def teardownLink (t : String × String × String) : Link :=
  .async t.1 3 [.log t.2.1] false .undefined [.log t.2.2]

/-! ## What the proofs keep track of -/

/-- The executor at `pos` is about to run the rest of the chain: its `run()` has
queued the microtask that calls `runRemaining()` and has returned
`internalPromise.promise`, which is still pending. -/
structure Armed (s : State) (pos : Nat) (ms : List Middleware) (h : Handler)
    (req res : Nat) : Prop where
  queue : s.queue = [.checkFlag pos, .adopt pos]
  flag : (s.nodes pos).asyncMiddlewareFailed = false
  remaining : (s.nodes pos).remaining = ms
  apiRouteFn : (s.nodes pos).apiRouteFn = h
  req : (s.nodes pos).req = req
  res : (s.nodes pos).res = res
  stackPosition : (s.nodes pos).stackPosition = pos
  internal : (s.nodes pos).internalPromise.status = .pending

/-- The executor at `pos` after the job `adopt pos`: the promise of `run()` follows
`internalPromise.promise`. -/
def adopted (e : Executor) (pos : Nat) : Executor :=
  { e with internalPromise :=
      { e.internalPromise with reactions := e.internalPromise.reactions ++ [.settleRun pos] } }

/-- The rest `ms` of the chain of the executor at `pos` runs to its end: from a state
where that executor is armed, some number of jobs leads to the call `finish(v)` of
that executor, with the events `L` added, the queue empty, and no executor at a
position up to `pos` touched but for the job `adopt pos`. -/
def Settles (pos : Nat) (ms : List Middleware) (h : Handler) (req res : Nat) (L : List Event)
    (v : Value) : Prop :=
  ∀ s : State, Armed s pos ms h req res →
    ∃ n s₁, runJobs n s = Executor.finish pos v s₁ ∧ s₁.queue = [] ∧ s₁.log = s.log ++ L ∧
      s₁.routePromise = s.routePromise ∧ (∀ j, j < pos → s₁.nodes j = s.nodes j) ∧
      s₁.nodes pos = adopted (s.nodes pos) pos

/-- The list `ms` settles as `o` after an executor at any position. -/
def Remainder (ms : List Middleware) (h : Handler) (req res : Nat) (L : Nat → List Event)
    (o : Settled) : Prop :=
  ∀ p, Settles p ms h req res (L p) o.value

/-- The synchronous part of `run()` for the middleware `m` at the head of its list:
the executor becomes `nd`, the jobs `J` and the events `startLog` are added. -/
def NodeRuns (m : Middleware) (ms : List Middleware) (h : Handler) (req res : Nat)
    (prev : Option Nat) (q : Nat) (nd : Executor) (J : List Job) (startLog : List Event) : Prop :=
  ∀ s0 : State, s0.nodes q = Executor.new (m :: ms) h req res prev →
    Executor.run q s0 =
      { s0 with nodes := Function.update s0.nodes q nd, queue := s0.queue ++ J,
                log := s0.log ++ startLog }

/-- From the jobs `J` on, the executor `nd` at `q` settles the promise of its `run()`
as `o`: whoever awaits that promise is resumed with `o`, with the events `L` added. -/
def NodeCompletes (q : Nat) (nd : Executor) (J : List Job) (L : List Event) (o : Settled) :
    Prop :=
  ∀ (s : State) (k : Reaction), s.queue = J →
    s.nodes q = { nd with runPromise := ⟨.pending, [k]⟩ } →
    ∃ n, (runJobs n s).queue = [.react k o] ∧ (runJobs n s).log = s.log ++ L ∧
      (runJobs n s).routePromise = s.routePromise ∧
      ∀ j, j < q → (runJobs n s).nodes j = s.nodes j

/-- The executor of the middleware `m` followed by `ms`, at any position `q`: from its
`run()` to the moment the promise of `run()` settles, as `o`, the events `E q` are added. -/
def NodeSem (m : Middleware) (ms : List Middleware) (h : Handler) (req res : Nat)
    (E : Nat → List Event) (o : Settled) : Prop :=
  ∀ (prev : Option Nat) (q : Nat), 1 + prev.getD 0 = q →
    ∃ nd J A B, NodeRuns m ms h req res prev q nd J A ∧ nd.runPromise = controlledPromise ∧
      NodeCompletes q nd J B o ∧ A ++ B = E q

/-- The executor of an asynchronous-style middleware once `run()` awaits
`cleanupPromise.promise`. -/
def asyncNode (m : Middleware) (ms : List Middleware) (h : Handler) (req res : Nat)
    (prev : Option Nat) (q : Nat) (catches : Bool) (post : List AsyncStmt) : Executor :=
  { Executor.new (m :: ms) h req res prev with
    cleanupPromise := ⟨.fulfilled, []⟩
    teardownPromise := ⟨.pending, [.mwResume q]⟩
    result := .ownPromise
    ownPromise := ⟨.pending, [.asyncDone q]⟩
    mwCode := post
    mwInTry := catches }

/-- The executor of an `async` middleware that is suspended at an `await` of its own,
before it called its continuation, with `code` left to run. -/
def pausedNode (m : Middleware) (ms : List Middleware) (h : Handler) (req res : Nat)
    (prev : Option Nat) (q : Nat) (code : List AsyncStmt) : Executor :=
  { Executor.new (m :: ms) h req res prev with
    cleanupPromise := ⟨.pending, [.runCont q]⟩
    result := .ownPromise
    ownPromise := ⟨.pending, [.asyncDone q]⟩
    mwCode := code
    mwInTry := false }

/-- The executor of a plain middleware that returned the value of `next()`, once `run()`
awaits `cleanupPromise.promise`. -/
def returningNode (m : Middleware) (ms : List Middleware) (h : Handler) (req res : Nat)
    (prev : Option Nat) (q : Nat) : Executor :=
  { Executor.new (m :: ms) h req res prev with
    cleanupPromise := ⟨.fulfilled, []⟩
    teardownPromise := ⟨.pending, [.asyncDone q]⟩
    result := .teardown }

/-- The messages of the `log` statements among the events. -/
def messages : List Event → List String
  | [] => []
  | .log m :: k => m :: messages k
  | _ :: k => messages k

/-- The log only grows, and a settled route promise stays as it is. -/
def Ext (s t : State) : Prop :=
  (∃ l, t.log = s.log ++ l) ∧ (s.routePromise.status ≠ .pending → t.routePromise = s.routePromise)

/-- The request ends: after some number of jobs the queue is empty, the events are `L`
and the promise of the route function has settled as `o`; one job earlier the events
were the same and that promise was pending. -/
def RouteEnds (chain : List Middleware) (h : Handler) (req res : Nat) (L : List Event)
    (o : Settled) : Prop :=
  ∃ n, (runRoute (n + 1) chain h req res).queue = [] ∧
    (runRoute (n + 1) chain h req res).log = L ∧
    (runRoute (n + 1) chain h req res).routePromise = ⟨o.status, []⟩ ∧
    (runRoute n chain h req res).log = L ∧
    (runRoute n chain h req res).routePromise.status = .pending

/-! ## The executors created so far, and settled promises -/

/-- The position of the executor a reaction belongs to, if any. -/
def Reaction.pos : Reaction → Option Nat
  | .runCont p => some p
  | .mwResume p => some p
  | .asyncDone p => some p
  | .settleRun p => some p
  | .settleResult p => some p
  | .runRemainingCont p => some p
  | .handlerResume => none
  | .routeCont => none

/-- The reaction is the continuation of `run()` after `await cleanupPromise.promise`. -/
def Reaction.isRunCont : Reaction → Bool
  | .runCont _ => true
  | _ => false

/-- The position of the executor a job belongs to, if any. -/
def Job.pos : Job → Option Nat
  | .react r _ => r.pos
  | .checkFlag p => some p
  | .adopt p => some p
  | .adoptResult p => some p
  | .deferred p _ => some p

/-- The job leads to a call of `runRemaining()`: it resumes `run()` after
`await cleanupPromise.promise`, or it is the microtask that `run()` queued. -/
def Job.isToken : Job → Bool
  | .react r _ => r.isRunCont
  | .checkFlag _ => true
  | _ => false

/-- The position of the executor a promise belongs to, if any. -/
def PromiseRef.pos : PromiseRef → Option Nat
  | .internal p => some p
  | .teardown p => some p
  | .cleanup p => some p
  | .own p => some p
  | .run p => some p
  | .handler => none
  | .route => none

/-- A job belongs to an executor that exists, and leads to `runRemaining()` only for the
last executor created, the one at position `F`. -/
def JobOk (F : Nat) (j : Job) : Prop :=
  (∀ p, j.pos = some p → p ≤ F) ∧ (j.isToken = true → j.pos = some F)

/-- A reaction registered on the promise `r` belongs to an executor that exists, and it
resumes `run()` only when `r` is `cleanupPromise` of the last executor created. -/
def ReactOk (F : Nat) (r : PromiseRef) (x : Reaction) : Prop :=
  (∀ p, x.pos = some p → p ≤ F) ∧ (x.isRunCont = true → r = .cleanup F ∧ x = .runCont F)

/-- The executors at positions up to `F` have been created and no other: the last one
carries its position, the executors beyond it are untouched, and every job and every
registered reaction belongs to an executor that exists. -/
structure Frontier (F : Nat) (s : State) : Prop where
  pos : (s.nodes F).stackPosition = F
  fresh : ∀ q, F < q → (s.getP (.internal q)).status = .pending
  jobs : ∀ j ∈ s.queue, JobOk F j
  reactions : ∀ r, ∀ x ∈ (s.getP r).reactions, ReactOk F r x

/-- The number of pending calls of `runRemaining()` of the executor at `F`: jobs that lead
to one, and reactions on `cleanupPromise` that lead to one. -/
def tokens (F : Nat) (s : State) : Nat :=
  s.queue.countP Job.isToken + (s.getP (.cleanup F)).reactions.countP Reaction.isRunCont

/-- A settled `internalPromise` stays as it is. -/
def Stable (s t : State) : Prop :=
  ∀ q, (s.getP (.internal q)).status ≠ .pending →
    (t.getP (.internal q)).status = (s.getP (.internal q)).status

/-- The state `t` is reached from `s` with every settled `internalPromise` kept, and the
executors up to `F` are the ones created in `t`, with at most `c` pending calls of
`runRemaining()`. -/
def Leads (F c : Nat) (s t : State) : Prop :=
  Stable s t ∧ Frontier F t ∧ tokens F t ≤ c

/-- A call of one of the two functions of a controlled promise. -/
inductive Settlement where
  | resolve
  | reject (err : Value)
  deriving DecidableEq, Repr

/-- The promise after a call of `resolve` or `reject`, and the jobs the call queued. -/
def ControlledPromise.call (c : ControlledPromise) : Settlement → ControlledPromise × List Job
  | .resolve => c.resolve
  | .reject err => c.reject err

/-- The promise after a sequence of calls of `resolve` and `reject`. -/
def ControlledPromise.calls (c : ControlledPromise) : List Settlement → ControlledPromise
  | [] => c
  | x :: xs => ControlledPromise.calls (c.call x).1 xs

/-- The outcome a call gives to a pending promise. -/
def Settlement.status : Settlement → PStatus
  | .resolve => .fulfilled
  | .reject err => .rejected err

/-- A call of `succeed` or `fail` of the executor at `pos`. -/
def Executor.settle (pos : Nat) : Settlement → State → State
  | .resolve => Executor.succeed pos
  | .reject err => Executor.fail pos err

/-- The state after a sequence of calls of `succeed` and `fail` of the executor at `pos`. -/
def Executor.settles (pos : Nat) : List Settlement → State → State
  | [], s => s
  | x :: xs, s => Executor.settles pos xs (Executor.settle pos x s)

/-! ## What an executor is given, and positions moved on -/

/-- The executor holds the request, the response and the handler of the route, and the
part of the chain that belongs to its position: its middleware is the one at that
position, counted from 1, and `remaining` is what follows it. -/
def Executor.Carries (chain : List Middleware) (h : Handler) (req res : Nat) (e : Executor) :
    Prop :=
  e.req = req ∧ e.res = res ∧ e.apiRouteFn = h ∧ 1 ≤ e.stackPosition ∧
    e.currentFn = chain[e.stackPosition - 1]? ∧ e.remaining = chain.drop e.stackPosition

/-- A call recorded in the events passed the request and the response of the route, and
a call of a middleware was made by the executor at the position of that middleware in the
chain. -/
def Event.Genuine (chain : List Middleware) (req res : Nat) : Event → Prop
  | .mwCalled q name r1 r2 =>
    r1 = req ∧ r2 = res ∧ 1 ≤ q ∧ ∃ m, chain[q - 1]? = some m ∧ m.name = name
  | .handlerCalled r1 r2 => r1 = req ∧ r2 = res
  | _ => True

/-- Every executor carries what it was given, and every call among the events is genuine. -/
structure Kept (chain : List Middleware) (h : Handler) (req res : Nat) (s : State) : Prop where
  nodes : ∀ q, (s.nodes q).Carries chain h req res
  log : ∀ ev ∈ s.log, ev.Genuine chain req res

/-- The reaction of the executor `d` positions further on. -/
def Reaction.shift (d : Nat) : Reaction → Reaction
  | .runCont p => .runCont (p + d)
  | .mwResume p => .mwResume (p + d)
  | .asyncDone p => .asyncDone (p + d)
  | .settleRun p => .settleRun (p + d)
  | .settleResult p => .settleResult (p + d)
  | .runRemainingCont p => .runRemainingCont (p + d)
  | .handlerResume => .handlerResume
  | .routeCont => .routeCont

/-- The job of the executor `d` positions further on. -/
def Job.shift (d : Nat) : Job → Job
  | .react r o => .react (r.shift d) o
  | .checkFlag p => .checkFlag (p + d)
  | .adopt p => .adopt (p + d)
  | .adoptResult p => .adoptResult (p + d)
  | .deferred p e => .deferred (p + d) e

/-- The event with the position in it moved on by `d`. -/
def Event.shift (d : Nat) : Event → Event
  | .mwCalled p name req res => .mwCalled (p + d) name req res
  | .log m => .log m
  | .nextCalled p e => .nextCalled (p + d) e
  | .caught p e => .caught (p + d) e
  | .handlerCalled req res => .handlerCalled req res

/-- The promise with the positions in its reactions moved on by `d`. -/
def ControlledPromise.shift (d : Nat) (c : ControlledPromise) : ControlledPromise :=
  ⟨c.status, c.reactions.map (Reaction.shift d)⟩

/-- The promise of the executor `d` positions further on. -/
def PromiseRef.shift (d : Nat) : PromiseRef → PromiseRef
  | .internal p => .internal (p + d)
  | .teardown p => .teardown (p + d)
  | .cleanup p => .cleanup (p + d)
  | .own p => .own (p + d)
  | .run p => .run (p + d)
  | .handler => .handler
  | .route => .route

/-- The executor with its position, and the positions in its promises, moved on by `d`. -/
def Executor.shift (d : Nat) (e : Executor) : Executor :=
  { e with
    stackPosition := e.stackPosition + d
    internalPromise := e.internalPromise.shift d
    teardownPromise := e.teardownPromise.shift d
    cleanupPromise := e.cleanupPromise.shift d
    runPromise := e.runPromise.shift d
    ownPromise := e.ownPromise.shift d }

/-- The state `t` is the state `s` with every position moved on by `d`. -/
structure Sim (d : Nat) (s t : State) : Prop where
  nodes : ∀ q, t.nodes (q + d) = (s.nodes q).shift d
  queue : t.queue = s.queue.map (Job.shift d)
  log : t.log = s.log.map (Event.shift d)
  handlerPromise : t.handlerPromise = s.handlerPromise.shift d
  handlerCode : t.handlerCode = s.handlerCode
  routePromise : t.routePromise = s.routePromise.shift d

/-- The statement `await new Executor(middlewareFns, apiRouteFn, req, res,
previousStackPosition).run()`, up to its `await`: the statement of `finalRouteHandler`
with a fifth argument given to the constructor. -/
def startExecutor (previousStackPosition : Option Nat) (middlewareFns : List Middleware)
    (apiRouteFn : Handler) (req res : Nat) : State :=
  let root := Executor.new middlewareFns apiRouteFn req res previousStackPosition
  let s := State.init root
  let s := Executor.run root.stackPosition s
  s.subscribe (.run root.stackPosition) .routeCont

/-! ## Running jobs -/

theorem runJobs_add (a b : Nat) (s : State) : runJobs (a + b) s = runJobs b (runJobs a s) := by
  induction a generalizing s with
  | zero => simp [runJobs]
  | succ a ih => rw [Nat.succ_add]; simp only [runJobs]; exact ih (step s)

theorem runJobs_succ (n : Nat) (s : State) : runJobs (n + 1) s = runJobs n (step s) := rfl

theorem runJobs_succ_right (n : Nat) (s : State) : runJobs (n + 1) s = step (runJobs n s) := by
  rw [runJobs_add]; rfl

theorem step_cons {s : State} {j : Job} {q : List Job} (h : s.queue = j :: q) :
    step s = runJob j { s with queue := q } := by
  simp [step, h]

theorem step_idle {s : State} (h : s.queue = []) : step s = s := by
  simp [step, h]

theorem runJobs_idle {s : State} (h : s.queue = []) (n : Nat) : runJobs n s = s := by
  induction n with
  | zero => rfl
  | succ n ih => rw [runJobs_succ, step_idle h, ih]

/-- Once the queue is empty nothing changes any more. -/
theorem runJobs_stable {s : State} {n : Nat} (h : (runJobs n s).queue = []) (m : Nat)
    (hm : n ≤ m) : runJobs m s = runJobs n s := by
  obtain ⟨d, rfl⟩ := Nat.exists_eq_add_of_le hm
  rw [runJobs_add, runJobs_idle h]

/-! ## The API route handler -/

theorem callHandler_eq (code : List PlainHandlerStmt) (s : State) :
    callHandler code s = ({ s with log := s.log ++ plainLog code }, plainThrown code) := by
  induction code generalizing s with
  | nil => simp [callHandler, plainLog, plainThrown]
  | cons st k ih =>
    cases st with
    | log m => simp [callHandler, plainLog, plainThrown, ih, State.emit]
    | throw v => simp [callHandler, plainLog, plainThrown]

/-- The job `adopt pos` after `finish` has the effect of `finish` after that job. -/
theorem step_finish_adopt (pos : Nat) (v : Value) (σ : Nat → Executor) (L : List Event)
    (hp : ControlledPromise) (hc : List HandlerStmt) (rp : ControlledPromise)
    (hint : (σ pos).internalPromise.status = .pending) :
    step (Executor.finish pos v ⟨σ, [.adopt pos], L, hp, hc, rp⟩) =
      Executor.finish pos v
        ⟨Function.update σ pos (adopted (σ pos) pos), [], L, hp, hc, rp⟩ := by
  unfold Executor.finish
  by_cases hr : isPromise (σ pos).result = true <;> by_cases hv : v.truthy = true <;>
    cases ht : (σ pos).teardownPromise.status <;>
    simp [hr, hv, ht, hint, step, runJob, adopted, Executor.fail, Executor.succeed,
      State.reject, State.resolve, State.subscribe, State.getP, State.setP, State.setNode,
      State.enqueue, ControlledPromise.reject, ControlledPromise.resolve,
      ControlledPromise.subscribe]

theorem settles_plain (pos : Nat) (code : List PlainHandlerStmt) (req res : Nat) :
    Settles pos [] (.plain code) req res (.handlerCalled req res :: plainLog code)
      (Handler.outcome (.plain code)).value := by
  intro s hs
  obtain ⟨σ, q, L, hp, hc, rp⟩ := s
  obtain ⟨hq, hflag, hrem, hh, hreq, hres, hpos, hint⟩ := hs
  simp only at hq hflag hrem hh hreq hres hpos hint
  subst hq
  simp only [Handler.outcome]
  cases hthrow : plainThrown code with
  | none =>
    refine ⟨3, ?_⟩
    simp [runJobs, step, runJob, Executor.runRemaining, hflag, hrem, hh, hreq, hres,
      callHandler_eq, hthrow, State.emit, State.enqueue, State.subscribe, State.getP,
      State.setP, State.setNode, ControlledPromise.subscribe, hint, runReaction,
      Settled.value]
    refine ⟨_, rfl, ?_, ?_, ?_, ?_, ?_⟩ <;> try simp
    · intro j hj; simp [Nat.ne_of_lt hj]
    · simp [adopted, hrem, hh, hreq, hres, hflag, hint]
  | some v =>
    refine ⟨2, ⟨Function.update σ pos (adopted (σ pos) pos), [],
      L ++ .handlerCalled req res :: plainLog code, hp, hc, rp⟩, ?_, rfl, ?_, ?_, ?_, ?_⟩
    · simp only [runJobs, Settled.value]
      have h1 : step ⟨σ, [.checkFlag pos, .adopt pos], L, hp, hc, rp⟩ =
          Executor.finish pos v ⟨σ, [.adopt pos],
            L ++ .handlerCalled req res :: plainLog code, hp, hc, rp⟩ := by
        simp [step, runJob, Executor.runRemaining, hflag, hrem, hh, hreq, hres, callHandler_eq,
          hthrow, State.emit]
      rw [h1, step_finish_adopt _ _ _ _ _ _ _ hint]
    · simp
    · simp
    · intro j hj; simp [Nat.ne_of_lt hj]
    · simp

theorem runHandler_drain (k : Reaction) (code : List HandlerStmt) :
    ∀ (σ : Nat → Executor) (L : List Event) (hc : List HandlerStmt) (rp : ControlledPromise),
    ∃ n c hp, runJobs n (runHandler code ⟨σ, [], L, ⟨.pending, [k]⟩, hc, rp⟩) =
      ⟨σ, [.react k (handlerOutcome code)], L ++ handlerLog code, hp, c, rp⟩ := by
  induction code with
  | nil =>
    intro σ L hc rp
    exact ⟨0, hc, ⟨.fulfilled, []⟩, by simp [runJobs, runHandler, State.resolve, State.getP,
      State.setP, State.enqueue, ControlledPromise.resolve, handlerLog, handlerOutcome]⟩
  | cons st code ih =>
    intro σ L hc rp
    cases st with
    | log m =>
      obtain ⟨n, c, hp, h⟩ := ih σ (L ++ [.log m]) hc rp
      exact ⟨n, c, hp, by simpa [runHandler, State.emit, handlerLog, handlerOutcome] using h⟩
    | awaitTick =>
      obtain ⟨n, c, hp, h⟩ := ih σ L code rp
      refine ⟨n + 1, c, hp, ?_⟩
      simpa [runJobs, runHandler, State.enqueue, step, runJob, runReaction, handlerLog,
        handlerOutcome] using h
    | throw v =>
      exact ⟨0, hc, ⟨.rejected v, []⟩, by simp [runJobs, runHandler, State.reject, State.getP,
        State.setP, State.enqueue, ControlledPromise.reject, handlerLog, handlerOutcome]⟩

theorem handler_first (pos : Nat) (code : List HandlerStmt) :
    ∀ (σ : Nat → Executor) (L : List Event) (hc : List HandlerStmt) (rp : ControlledPromise),
    (σ pos).internalPromise.status = .pending →
    ∃ n c hp, runJobs n ((runHandler code ⟨σ, [.adopt pos], L, ⟨.pending, []⟩, hc, rp⟩).subscribe
        .handler (.runRemainingCont pos)) =
      Executor.finish pos (handlerOutcome code).value
        ⟨Function.update σ pos (adopted (σ pos) pos), [], L ++ handlerLog code, hp, c, rp⟩ := by
  induction code with
  | nil =>
    intro σ L hc rp hint
    exact ⟨2, hc, ⟨.fulfilled, []⟩, by
      simp [runJobs, runHandler, State.resolve, State.getP, State.setP, State.enqueue,
        ControlledPromise.resolve, handlerLog, handlerOutcome, State.subscribe,
        ControlledPromise.subscribe, step, runJob, runReaction, hint, State.setNode, adopted,
        Settled.value]⟩
  | cons st code ih =>
    intro σ L hc rp hint
    cases st with
    | log m =>
      obtain ⟨n, c, hp, h⟩ := ih σ (L ++ [.log m]) hc rp hint
      exact ⟨n, c, hp, by simpa [runHandler, State.emit, handlerLog, handlerOutcome] using h⟩
    | awaitTick =>
      obtain ⟨n, c, hp, h⟩ := runHandler_drain (.runRemainingCont pos) code
        (Function.update σ pos (adopted (σ pos) pos)) L code rp
      refine ⟨2 + n + 1, c, hp, ?_⟩
      rw [runJobs_succ_right, runJobs_add]
      have h2 : runJobs 2 ((runHandler (.awaitTick :: code)
          ⟨σ, [.adopt pos], L, ⟨.pending, []⟩, hc, rp⟩).subscribe .handler
            (.runRemainingCont pos)) =
          runHandler code ⟨Function.update σ pos (adopted (σ pos) pos), [], L,
            ⟨.pending, [.runRemainingCont pos]⟩, code, rp⟩ := by
        simp [runJobs, runHandler, State.enqueue, State.subscribe, State.getP, State.setP,
          ControlledPromise.subscribe, step, runJob, runReaction, hint, State.setNode, adopted]
      rw [h2, h]
      cases ho : handlerOutcome code <;>
        simp [step, runJob, runReaction, handlerLog, handlerOutcome, ho, Settled.value]
    | throw v =>
      exact ⟨2, hc, ⟨.rejected v, []⟩, by
        simp [runJobs, runHandler, State.reject, State.getP, State.setP, State.enqueue,
          ControlledPromise.reject, handlerLog, handlerOutcome, State.subscribe,
          ControlledPromise.subscribe, step, runJob, runReaction, hint, State.setNode, adopted,
          Settled.value]⟩

theorem settles_async (pos : Nat) (code : List HandlerStmt) (req res : Nat) :
    Settles pos [] (.async code) req res (.handlerCalled req res :: handlerLog code)
      (Handler.outcome (.async code)).value := by
  intro s hs
  obtain ⟨σ, q, L, hp, hc, rp⟩ := s
  obtain ⟨hq, hflag, hrem, hh, hreq, hres, hpos, hint⟩ := hs
  simp only at hq hflag hrem hh hreq hres hpos hint
  subst hq
  obtain ⟨n, c, hp1, h⟩ := handler_first pos code σ (L ++ [.handlerCalled req res]) hc rp hint
  refine ⟨n + 1, ⟨Function.update σ pos (adopted (σ pos) pos), [],
    (L ++ [.handlerCalled req res]) ++ handlerLog code, hp1, c, rp⟩, ?_, rfl, ?_, ?_, ?_, ?_⟩
  · rw [runJobs_succ, Handler.outcome, ← h]
    simp [step, runJob, Executor.runRemaining, hflag, hrem, hh, hreq, hres, State.emit,
      controlledPromise]
  · simp
  · simp
  · intro j hj; simp [Nat.ne_of_lt hj]
  · simp

/-- With no middleware left, the handler is called and `finish` gets what it threw or
rejected with. -/
theorem remainder_nil (h : Handler) (req res : Nat) :
    Remainder [] h req res (fun _ => .handlerCalled req res :: h.events) h.outcome := by
  intro p
  cases h with
  | plain code => exact settles_plain p code req res
  | async code => exact settles_async p code req res

/-! ## One executor in its chain -/

theorem runRemaining_cons (p : Nat) (s : State) (m : Middleware) (ms : List Middleware)
    (h : Handler) (req res : Nat) (hrem : (s.nodes p).remaining = m :: ms)
    (hh : (s.nodes p).apiRouteFn = h) (hreq : (s.nodes p).req = req)
    (hres : (s.nodes p).res = res) (hpos : (s.nodes p).stackPosition = p) :
    Executor.runRemaining p s =
      (Executor.run (1 + p) (s.setNode (1 + p) (Executor.new (m :: ms) h req res (some p)))).subscribe
        (.run (1 + p)) (.runRemainingCont p) := by
  simp [Executor.runRemaining, hrem, hh, hreq, hres, hpos, Executor.new]

/-- An executor that settles the promise of its `run()` makes the list it heads a
remainder of the executor before it. -/
theorem lift_node {m : Middleware} {ms : List Middleware} {h : Handler} {req res p : Nat}
    {nd : Executor} {J : List Job} {startLog L : List Event} {o : Settled}
    (hrun : NodeRuns m ms h req res (some p) (1 + p) nd J startLog)
    (hnd : nd.runPromise = controlledPromise)
    (hcomp : NodeCompletes (1 + p) nd J L o) :
    Settles p (m :: ms) h req res (startLog ++ L) o.value := by
  intro s hs
  obtain ⟨σ, q, L0, hp, hc, rp⟩ := s
  obtain ⟨hq, hflag, hrem, hh, hreq, hres, hpos, hint⟩ := hs
  simp only at hq hflag hrem hh hreq hres hpos hint
  subst hq
  have hne : p ≠ 1 + p := by omega
  have h2 : runJobs 2 ⟨σ, [.checkFlag p, .adopt p], L0, hp, hc, rp⟩ =
      ⟨Function.update (Function.update σ (1 + p)
          { nd with runPromise := ⟨.pending, [.runRemainingCont p]⟩ })
          p (adopted (σ p) p), J, L0 ++ startLog, hp, hc, rp⟩ := by
    simp only [runJobs, step, runJob, hflag]
    rw [if_neg (by simp), runRemaining_cons p _ m ms h req res hrem hh hreq hres hpos,
      hrun _ (by simp [State.setNode])]
    simp [State.setNode, State.subscribe, State.getP, State.setP, hnd, controlledPromise,
      ControlledPromise.subscribe, State.enqueue, step, runJob, hne, hint, adopted]
  generalize hB : (State.mk (Function.update (Function.update σ (1 + p)
    { nd with runPromise := ⟨.pending, [.runRemainingCont p]⟩ }) p (adopted (σ p) p)) J
    (L0 ++ startLog) hp hc rp) = B at h2
  have hBq : B.queue = J := by rw [← hB]
  have hBn : B.nodes (1 + p) = { nd with runPromise := ⟨.pending, [.runRemainingCont p]⟩ } := by
    rw [← hB]; simp [hne.symm]
  have hBl : B.log = L0 ++ startLog := by rw [← hB]
  have hBr : B.routePromise = rp := by rw [← hB]
  have hBp : B.nodes p = adopted (σ p) p := by rw [← hB]; simp
  have hBj : ∀ j, j < p → B.nodes j = σ j := by
    intro j hj; rw [← hB]; simp [Nat.ne_of_lt hj, show j ≠ 1 + p by omega]
  clear hB
  obtain ⟨n, hq1, hl1, hr1, hn1⟩ := hcomp B (.runRemainingCont p) hBq hBn
  refine ⟨2 + n + 1, { runJobs n B with queue := [] }, ?_, rfl, ?_, ?_, ?_, ?_⟩
  · rw [runJobs_succ_right, runJobs_add, h2, step_cons hq1]
    cases o <;> simp [runJob, runReaction, Settled.value]
  · simp [hl1, hBl]
  · simp [hr1, hBr]
  · intro j hj
    simp only
    rw [hn1 j (by omega), hBj j hj]
  · simp only
    rw [hn1 p (by omega), hBp]

/-- The first executor of a chain: when the promise of its `run()` settles as `o`, the
promise of the route function settles as `o`, and it was pending one job earlier. -/
theorem root_node {m : Middleware} {ms : List Middleware} {h : Handler} {req res : Nat}
    {nd : Executor} {J : List Job} {startLog L : List Event} {o : Settled}
    (hrun : NodeRuns m ms h req res none 1 nd J startLog)
    (hnd : nd.runPromise = controlledPromise)
    (hcomp : NodeCompletes 1 nd J L o) :
    ∃ n, (runRoute (n + 1) (m :: ms) h req res).queue = [] ∧
      (runRoute (n + 1) (m :: ms) h req res).log = startLog ++ L ∧
      (runRoute (n + 1) (m :: ms) h req res).routePromise = ⟨o.status, []⟩ ∧
      (runRoute n (m :: ms) h req res).log = startLog ++ L ∧
      (runRoute n (m :: ms) h req res).routePromise.status = .pending := by
  have h0 : makeMiddlewareExecutor (m :: ms) h req res =
      ⟨Function.update (fun _ => Executor.new (m :: ms) h req res none) 1
        { nd with runPromise := ⟨.pending, [.routeCont]⟩ }, J, startLog, controlledPromise, [],
        controlledPromise⟩ := by
    unfold makeMiddlewareExecutor
    simp only [show (Executor.new (m :: ms) h req res none).stackPosition = 1 from rfl]
    rw [hrun _ (by simp [State.init])]
    simp [State.init, State.subscribe, State.getP, State.setP, State.setNode, hnd,
      controlledPromise, ControlledPromise.subscribe, State.enqueue]
  generalize hB : (State.mk (Function.update (fun _ => Executor.new (m :: ms) h req res none) 1
        { nd with runPromise := ⟨.pending, [.routeCont]⟩ }) J startLog controlledPromise []
        controlledPromise) = B at h0
  have hBq : B.queue = J := by rw [← hB]
  have hBn : B.nodes 1 = { nd with runPromise := ⟨.pending, [.routeCont]⟩ } := by
    rw [← hB]; simp
  have hBl : B.log = startLog := by rw [← hB]
  have hBr : B.routePromise = controlledPromise := by rw [← hB]
  clear hB
  obtain ⟨n, hq1, hl1, hr1, -⟩ := hcomp B .routeCont hBq hBn
  refine ⟨n, ?_⟩
  simp only [runRoute, h0]
  rw [runJobs_succ_right, step_cons hq1]
  refine ⟨?_, ?_, ?_, ?_, ?_⟩
  · cases o <;> simp [runJob, runReaction, State.resolve, State.reject, State.getP, State.setP,
      State.enqueue, hr1, hBr, controlledPromise, ControlledPromise.resolve,
      ControlledPromise.reject]
  · cases o <;> simp [runJob, runReaction, State.resolve, State.reject, State.getP, State.setP,
      State.enqueue, hl1, hBl]
  · cases o <;> simp [runJob, runReaction, State.resolve, State.reject, State.getP, State.setP,
      State.enqueue, hr1, hBr, controlledPromise, ControlledPromise.resolve,
      ControlledPromise.reject, Settled.status]
  · rw [hl1, hBl]
  · rw [hr1, hBr]; rfl

theorem remainder_cons {m : Middleware} {ms : List Middleware} {h : Handler} {req res : Nat}
    {E : Nat → List Event} {o : Settled} (hsem : NodeSem m ms h req res E o) :
    Remainder (m :: ms) h req res (fun p => E (1 + p)) o := by
  intro p
  obtain ⟨nd, J, A, B, hrun, hnd, hcomp, hE⟩ := hsem (some p) (1 + p) (by simp)
  simp only [← hE]
  exact lift_node hrun hnd hcomp

theorem route_of_nodeSem {m : Middleware} {ms : List Middleware} {h : Handler} {req res : Nat}
    {E : Nat → List Event} {o : Settled} (hsem : NodeSem m ms h req res E o) :
    ∃ n, (runRoute (n + 1) (m :: ms) h req res).queue = [] ∧
      (runRoute (n + 1) (m :: ms) h req res).log = E 1 ∧
      (runRoute (n + 1) (m :: ms) h req res).routePromise = ⟨o.status, []⟩ ∧
      (runRoute n (m :: ms) h req res).log = E 1 ∧
      (runRoute n (m :: ms) h req res).routePromise.status = .pending := by
  obtain ⟨nd, J, A, B, hrun, hnd, hcomp, hE⟩ := hsem none 1 (by simp)
  rw [← hE]
  exact root_node hrun hnd hcomp

/-! ## Calls of middleware -/

theorem callSync_logs (q : Nat) (logs : List String) (k : List SyncStmt) (s : State) :
    callSync q (logs.map SyncStmt.log ++ k) s =
      callSync q k { s with log := s.log ++ logs.map Event.log } := by
  induction logs generalizing s with
  | nil => simp
  | cons m logs ih => simp [callSync, ih, State.emit]

theorem callSync_logs_end (q : Nat) (logs : List String) (s : State) :
    callSync q (logs.map SyncStmt.log) s =
      ({ s with log := s.log ++ logs.map Event.log }, .returned .undefined) := by
  have := callSync_logs q logs [] s
  simpa [callSync] using this

theorem runAsync_logs (q : Nat) (logs : List String) (k : List AsyncStmt) (s : State) :
    runAsync q (logs.map AsyncStmt.log ++ k) s =
      runAsync q k { s with log := s.log ++ logs.map Event.log } := by
  induction logs generalizing s with
  | nil => simp
  | cons m logs ih => simp [runAsync, ih, State.emit]

theorem quiet_isPlain {code : List AsyncStmt} (hq : ∀ st ∈ code, st.isQuiet = true) :
    ∀ st ∈ code, st.isPlain = true := by
  intro st hst
  have := hq st hst
  cases st <;> simp_all [AsyncStmt.isQuiet, AsyncStmt.isPlain]

/-- Statements that log and never await all run at once. -/
theorem runAsync_noTick (q : Nat) (pre k : List AsyncStmt)
    (hq : ∀ st ∈ pre, st.isQuiet = true) (hn : afterTick pre = none) (s : State) :
    runAsync q (pre ++ k) s = runAsync q k { s with log := s.log ++ tailLog pre } := by
  induction pre generalizing s with
  | nil => simp [tailLog]
  | cons st pre ih =>
    have hq2 : ∀ x ∈ pre, x.isQuiet = true := fun x hx => hq x (List.mem_cons_of_mem _ hx)
    have hst := hq st (List.mem_cons_self _ _)
    cases st with
    | log m =>
      simp only [afterTick] at hn
      simp [runAsync, ih hq2 hn, State.emit, tailLog]
    | awaitTick => simp [afterTick] at hn
    | next e => simp [AsyncStmt.isQuiet] at hst
    | awaitNext e => simp [AsyncStmt.isQuiet] at hst
    | tryAwaitNext e => simp [AsyncStmt.isQuiet] at hst
    | returnNext e => simp [AsyncStmt.isQuiet] at hst
    | throw v => simp [AsyncStmt.isQuiet] at hst
    | defer e => simp [AsyncStmt.isQuiet] at hst

/-- Statements that log run up to the first `await undefined`, where the function is
suspended with the rest of its body. -/
theorem runAsync_tick (q : Nat) (pre rest k : List AsyncStmt)
    (hq : ∀ st ∈ pre, st.isQuiet = true) (ht : afterTick pre = some rest) (s : State) :
    runAsync q (pre ++ k) s =
      (suspend q (rest ++ k) false { s with log := s.log ++ untilTick pre }).enqueue
        [.react (.mwResume q) .fulfilled] := by
  induction pre generalizing s with
  | nil => simp [afterTick] at ht
  | cons st pre ih =>
    have hq2 : ∀ x ∈ pre, x.isQuiet = true := fun x hx => hq x (List.mem_cons_of_mem _ hx)
    have hst := hq st (List.mem_cons_self _ _)
    cases st with
    | log m =>
      simp only [afterTick] at ht
      simp [runAsync, ih hq2 ht, State.emit, untilTick]
    | awaitTick =>
      simp only [afterTick, Option.some.injEq] at ht
      subst ht
      simp [runAsync, untilTick]
    | next e => simp [AsyncStmt.isQuiet] at hst
    | awaitNext e => simp [AsyncStmt.isQuiet] at hst
    | tryAwaitNext e => simp [AsyncStmt.isQuiet] at hst
    | returnNext e => simp [AsyncStmt.isQuiet] at hst
    | throw v => simp [AsyncStmt.isQuiet] at hst
    | defer e => simp [AsyncStmt.isQuiet] at hst

theorem tailLog_tick (pre rest : List AsyncStmt) (hq : ∀ st ∈ pre, st.isQuiet = true)
    (ht : afterTick pre = some rest) :
    tailLog pre = untilTick pre ++ tailLog rest ∧ ∀ st ∈ rest, st.isQuiet = true := by
  induction pre with
  | nil => simp [afterTick] at ht
  | cons st pre ih =>
    have hq2 : ∀ x ∈ pre, x.isQuiet = true := fun x hx => hq x (List.mem_cons_of_mem _ hx)
    have hst := hq st (List.mem_cons_self _ _)
    cases st with
    | log m =>
      simp only [afterTick] at ht
      exact ⟨by simp [tailLog, untilTick, (ih hq2 ht).1], (ih hq2 ht).2⟩
    | awaitTick =>
      simp only [afterTick, Option.some.injEq] at ht
      subst ht
      exact ⟨by simp [tailLog, untilTick], hq2⟩
    | next e => simp [AsyncStmt.isQuiet] at hst
    | awaitNext e => simp [AsyncStmt.isQuiet] at hst
    | tryAwaitNext e => simp [AsyncStmt.isQuiet] at hst
    | returnNext e => simp [AsyncStmt.isQuiet] at hst
    | throw v => simp [AsyncStmt.isQuiet] at hst
    | defer e => simp [AsyncStmt.isQuiet] at hst

/-- A resumed `async` middleware runs statements that log and await to their end, in some
number of jobs, while nothing else is queued. -/
theorem runAsync_quiet_drain (q : Nat) (pre k : List AsyncStmt)
    (hq : ∀ st ∈ pre, st.isQuiet = true) :
    ∀ (σ : Nat → Executor) (L : List Event) (hp : ControlledPromise) (hc : List HandlerStmt)
      (rp : ControlledPromise),
    ∃ n c b, runJobs n (runAsync q (pre ++ k) ⟨σ, [], L, hp, hc, rp⟩) =
      runAsync q k ⟨Function.update σ q { σ q with mwCode := c, mwInTry := b }, [],
        L ++ tailLog pre, hp, hc, rp⟩ := by
  induction pre with
  | nil =>
    intro σ L hp hc rp
    exact ⟨0, (σ q).mwCode, (σ q).mwInTry, by simp [runJobs, tailLog]⟩
  | cons st pre ih =>
    intro σ L hp hc rp
    have hq2 : ∀ x ∈ pre, x.isQuiet = true := fun x hx => hq x (List.mem_cons_of_mem _ hx)
    have hst := hq st (List.mem_cons_self _ _)
    cases st with
    | log m =>
      obtain ⟨n, c, b, h⟩ := ih hq2 σ (L ++ [.log m]) hp hc rp
      exact ⟨n, c, b, by simpa [runAsync, State.emit, tailLog] using h⟩
    | awaitTick =>
      obtain ⟨n, c, b, h⟩ := ih hq2
        (Function.update σ q { σ q with mwCode := pre ++ k, mwInTry := false }) L hp hc rp
      refine ⟨n + 1, c, b, ?_⟩
      simpa [runJobs, runAsync, suspend, State.setNode, State.enqueue, step, runJob,
        runReaction, resumeAsync, tailLog] using h
    | next e => simp [AsyncStmt.isQuiet] at hst
    | awaitNext e => simp [AsyncStmt.isQuiet] at hst
    | tryAwaitNext e => simp [AsyncStmt.isQuiet] at hst
    | returnNext e => simp [AsyncStmt.isQuiet] at hst
    | throw v => simp [AsyncStmt.isQuiet] at hst
    | defer e => simp [AsyncStmt.isQuiet] at hst

theorem defaultNull_truthy (u : Value) : (defaultNull u).truthy = u.truthy := by
  unfold defaultNull; split
  · next h => subst h; rfl
  · rfl

theorem defaultNull_of_truthy {u : Value} (hu : u.truthy = true) : defaultNull u = u := by
  unfold defaultNull; split
  · next h => subst h; simp [Value.truthy] at hu
  · rfl

theorem next_falsy (q : Nat) (u : Value) (s : State) (hu : u.truthy = false) :
    Executor.next q u s = ((s.emit (.nextCalled q (defaultNull u))).resolve (.cleanup q), none) := by
  simp [Executor.next, defaultNull_truthy, hu]

theorem next_truthy (q : Nat) (u : Value) (s : State) (hu : u.truthy = true) :
    Executor.next q u s = ((s.emit (.nextCalled q u)).resolve (.cleanup q), some u) := by
  simp [Executor.next, defaultNull_of_truthy hu, hu]

/-! ## Synchronous-style middleware -/

theorem syncMw_runs (name : String) (len : Nat) (pre post : List String) (u : Value)
    (hu : u.truthy = false) (ms : List Middleware) (h : Handler) (req res : Nat)
    (prev : Option Nat) (q : Nat) :
    NodeRuns (syncMw name len pre u post) ms h req res prev q
      { Executor.new (syncMw name len pre u post :: ms) h req res prev with
        cleanupPromise := ⟨.fulfilled, []⟩ }
      [.react (.runCont q) .fulfilled]
      (.mwCalled q name req res :: pre.map Event.log ++
        .nextCalled q (defaultNull u) :: post.map Event.log) := by
  intro s0 hs0
  obtain ⟨σ, Q, L, hp, hc, rp⟩ := s0
  simp only at hs0
  simp [Executor.run, State.setNode, hs0, Executor.new, syncMw, State.emit, callSync_logs,
    callSync_logs_end, callSync, next_falsy, hu, State.resolve, State.getP, State.setP,
    State.enqueue, controlledPromise, ControlledPromise.resolve, Executor.afterCall,
    State.subscribe, ControlledPromise.subscribe]

theorem syncMw_completes (name : String) (len : Nat) (pre post : List String) (u : Value)
    (ms : List Middleware) (h : Handler) (req res : Nat)
    (prev : Option Nat) (q : Nat) (hq : 1 + prev.getD 0 = q) (L : List Event) (v : Value)
    (hset : Settles q ms h req res L v) :
    NodeCompletes q
      { Executor.new (syncMw name len pre u post :: ms) h req res prev with
        cleanupPromise := ⟨.fulfilled, []⟩ }
      [.react (.runCont q) .fulfilled] L v.outcome := by
  intro s k hsq hsn
  obtain ⟨σ, Q, L0, hp, hc, rp⟩ := s
  simp only at hsq hsn
  subst hsq
  have h1 : runJobs 1 ⟨σ, [.react (.runCont q) .fulfilled], L0, hp, hc, rp⟩ =
      ⟨σ, [.checkFlag q, .adopt q], L0, hp, hc, rp⟩ := by
    simp [runJobs, step, runJob, runReaction, Executor.returnInternal, State.enqueue]
  obtain ⟨n, s₁, hfin, hs1q, hs1l, hs1r, hs1j, hs1n⟩ :=
    hset ⟨σ, [.checkFlag q, .adopt q], L0, hp, hc, rp⟩
      ⟨rfl, by simp [hsn, Executor.new], by simp [hsn, Executor.new],
        by simp [hsn, Executor.new], by simp [hsn, Executor.new], by simp [hsn, Executor.new],
        by simp [hsn, Executor.new, hq], by simp [hsn, Executor.new, controlledPromise]⟩
  simp only at hs1l hs1r hs1j hs1n
  refine ⟨1 + n + 1, ?_⟩
  rw [runJobs_succ_right, runJobs_add, h1, hfin]
  by_cases hv : v.truthy = true
  · simp [Executor.finish, hs1n, hsn, adopted, Executor.new, isPromise, hv, Executor.fail,
      State.reject, State.getP, State.setP, State.setNode, ControlledPromise.reject,
      controlledPromise, State.enqueue, hs1q, step, runJob, runReaction, hs1l, hs1r,
      Value.outcome]
    intro j hj
    simp [Nat.ne_of_lt hj, hs1j j hj]
  · simp [Executor.finish, hs1n, hsn, adopted, Executor.new, isPromise, hv, Executor.succeed,
      State.resolve, State.getP, State.setP, State.setNode, ControlledPromise.resolve,
      controlledPromise, State.enqueue, hs1q, step, runJob, runReaction, hs1l, hs1r,
      Value.outcome]
    intro j hj
    simp [Nat.ne_of_lt hj, hs1j j hj]

/-! ## Asynchronous-style middleware -/

theorem runAsync_drain (q : Nat) (rs : List Reaction) (code : List AsyncStmt)
    (hplain : ∀ st ∈ code, st.isPlain = true) :
    ∀ (σ : Nat → Executor) (L : List Event) (hp : ControlledPromise) (hc : List HandlerStmt)
      (rp : ControlledPromise), (σ q).ownPromise = ⟨.pending, rs⟩ →
    ∃ n c b, runJobs n (runAsync q code ⟨σ, [], L, hp, hc, rp⟩) =
      ⟨Function.update σ q { σ q with ownPromise := ⟨(tailOutcome code).status, []⟩,
                                      mwCode := c, mwInTry := b },
        rs.map (fun r => Job.react r (tailOutcome code)), L ++ tailLog code, hp, hc, rp⟩ := by
  induction code with
  | nil =>
    intro σ L hp hc rp hown
    exact ⟨0, (σ q).mwCode, (σ q).mwInTry, by
      simp [runJobs, runAsync, State.resolve, State.getP, State.setP, State.setNode,
        State.enqueue, ControlledPromise.resolve, hown, tailLog, tailOutcome, Settled.status]⟩
  | cons st code ih =>
    intro σ L hp hc rp hown
    have hplain2 : ∀ st ∈ code, st.isPlain = true := fun st hst =>
      hplain st (List.mem_cons_of_mem _ hst)
    have hst := hplain st (List.mem_cons_self _ _)
    cases st with
    | log m =>
      obtain ⟨n, c, b, h⟩ := ih hplain2 σ (L ++ [.log m]) hp hc rp hown
      exact ⟨n, c, b, by simpa [runAsync, State.emit, tailLog, tailOutcome] using h⟩
    | awaitTick =>
      obtain ⟨n, c, b, h⟩ := ih hplain2
        (Function.update σ q { σ q with mwCode := code, mwInTry := false }) L hp hc rp
        (by simp [hown])
      refine ⟨n + 1, c, b, ?_⟩
      simpa [runJobs, runAsync, suspend, State.setNode, State.enqueue, step, runJob,
        runReaction, resumeAsync, tailLog, tailOutcome] using h
    | throw v =>
      exact ⟨0, (σ q).mwCode, (σ q).mwInTry, by
        simp [runJobs, runAsync, State.reject, State.getP, State.setP, State.setNode,
          State.enqueue, ControlledPromise.reject, hown, tailLog, tailOutcome, Settled.status]⟩
    | next e => simp [AsyncStmt.isPlain] at hst
    | awaitNext e => simp [AsyncStmt.isPlain] at hst
    | tryAwaitNext e => simp [AsyncStmt.isPlain] at hst
    | returnNext e => simp [AsyncStmt.isPlain] at hst
    | defer e => simp [AsyncStmt.isPlain] at hst

theorem asyncDone_settles (q : Nat) (k : Reaction) (o : Settled) (σ : Nat → Executor)
    (L : List Event) (hp : ControlledPromise) (hc : List HandlerStmt) (rp : ControlledPromise)
    (hint : (σ q).internalPromise = ⟨.pending, [.settleRun q]⟩)
    (hrun : (σ q).runPromise = ⟨.pending, [k]⟩)
    (hcl : (σ q).cleanupPromise.status = .fulfilled) :
    (runJobs 2 ⟨σ, [.react (.asyncDone q) o], L, hp, hc, rp⟩).queue = [.react k o] ∧
    (runJobs 2 ⟨σ, [.react (.asyncDone q) o], L, hp, hc, rp⟩).log = L ∧
    (runJobs 2 ⟨σ, [.react (.asyncDone q) o], L, hp, hc, rp⟩).routePromise = rp ∧
    ∀ j, j ≠ q → (runJobs 2 ⟨σ, [.react (.asyncDone q) o], L, hp, hc, rp⟩).nodes j = σ j := by
  cases o with
  | fulfilled =>
    simp [runJobs, step, runJob, runReaction, Executor.succeed, State.resolve, State.getP,
      State.setP, State.setNode, State.enqueue, ControlledPromise.resolve, hint, hrun]
    intro j hj; simp [hj]
  | rejected e =>
    simp [runJobs, step, runJob, runReaction, Executor.fail, State.resolve, State.reject,
      State.getP, State.setP, State.setNode, State.enqueue, ControlledPromise.resolve,
      ControlledPromise.reject, hint, hrun, hcl]
    intro j hj; simp [hj]

/-- An `async` middleware whose `await next()` settled as `o` runs the rest of its
body, and the promise of `run()` settles with the promise of the middleware. -/
theorem asyncMw_resumes (q : Nat) (k : Reaction) (catches : Bool) (post : List AsyncStmt)
    (hplain : ∀ st ∈ post, st.isPlain = true) (o : Settled) (σ : Nat → Executor)
    (L : List Event) (hp : ControlledPromise) (hc : List HandlerStmt) (rp : ControlledPromise)
    (hcode : (σ q).mwCode = post) (htry : (σ q).mwInTry = catches)
    (hown : (σ q).ownPromise = ⟨.pending, [.asyncDone q]⟩)
    (hint : (σ q).internalPromise = ⟨.pending, [.settleRun q]⟩)
    (hrun : (σ q).runPromise = ⟨.pending, [k]⟩)
    (hcl : (σ q).cleanupPromise.status = .fulfilled) :
    ∃ n, (runJobs n (resumeAsync q o ⟨σ, [], L, hp, hc, rp⟩)).queue =
        [.react k (resumeOutcome catches post o)] ∧
      (runJobs n (resumeAsync q o ⟨σ, [], L, hp, hc, rp⟩)).log = L ++ resumeLog q catches post o ∧
      (runJobs n (resumeAsync q o ⟨σ, [], L, hp, hc, rp⟩)).routePromise = rp ∧
      ∀ j, j ≠ q → (runJobs n (resumeAsync q o ⟨σ, [], L, hp, hc, rp⟩)).nodes j = σ j := by
  have key : ∀ (L1 : List Event), ∃ n,
      (runJobs n (runAsync q post ⟨σ, [], L1, hp, hc, rp⟩)).queue = [.react k (tailOutcome post)] ∧
      (runJobs n (runAsync q post ⟨σ, [], L1, hp, hc, rp⟩)).log = L1 ++ tailLog post ∧
      (runJobs n (runAsync q post ⟨σ, [], L1, hp, hc, rp⟩)).routePromise = rp ∧
      ∀ j, j ≠ q → (runJobs n (runAsync q post ⟨σ, [], L1, hp, hc, rp⟩)).nodes j = σ j := by
    intro L1
    obtain ⟨n, c, b, h⟩ := runAsync_drain q [.asyncDone q] post hplain σ L1 hp hc rp hown
    have h2 := asyncDone_settles q k (tailOutcome post)
      (Function.update σ q { σ q with ownPromise := ⟨(tailOutcome post).status, []⟩,
                                      mwCode := c, mwInTry := b })
      (L1 ++ tailLog post) hp hc rp (by simp [hint]) (by simp [hrun]) (by simp [hcl])
    refine ⟨n + 2, ?_⟩
    rw [runJobs_add, h]
    simp only [List.map_cons, List.map_nil]
    refine ⟨h2.1, h2.2.1, h2.2.2.1, ?_⟩
    intro j hj
    rw [h2.2.2.2 j hj]; simp [hj]
  cases o with
  | fulfilled => simpa [resumeAsync, hcode, resumeOutcome, resumeLog] using key L
  | rejected e =>
    cases catches with
    | true =>
      obtain ⟨n, h1, h2, h3, h4⟩ := key (L ++ [.caught q e])
      refine ⟨n, ?_⟩
      simp only [resumeAsync, hcode, htry, resumeOutcome, resumeLog, State.emit, if_true]
      exact ⟨h1, by rw [h2]; simp, h3, h4⟩
    | false =>
      have h2 := asyncDone_settles q k (.rejected e)
        (Function.update σ q { σ q with ownPromise := ⟨.rejected e, []⟩ })
        L hp hc rp (by simp [hint]) (by simp [hrun]) (by simp [hcl])
      refine ⟨2, ?_⟩
      have h0 : resumeAsync q (.rejected e) ⟨σ, [], L, hp, hc, rp⟩ =
          ⟨Function.update σ q { σ q with ownPromise := ⟨.rejected e, []⟩ },
            [.react (.asyncDone q) (.rejected e)], L, hp, hc, rp⟩ := by
        simp [resumeAsync, htry, State.reject, State.getP, State.setP, State.setNode,
          State.enqueue, ControlledPromise.reject, hown]
      rw [h0]
      refine ⟨h2.1, by simpa [resumeLog] using h2.2.1, h2.2.2.1, ?_⟩
      intro j hj
      rw [h2.2.2.2 j hj]; simp [hj]

theorem asyncMw_runs (name : String) (len : Nat) (pre : List AsyncStmt) (catches : Bool)
    (u : Value) (post : List AsyncStmt)
    (hu : u.truthy = false) (hq : ∀ st ∈ pre, st.isQuiet = true) (hn : afterTick pre = none)
    (ms : List Middleware) (h : Handler) (req res : Nat)
    (prev : Option Nat) (q : Nat) :
    NodeRuns (asyncMw name len pre catches u post) ms h req res prev q
      (asyncNode (asyncMw name len pre catches u post) ms h req res prev q catches post)
      [.react (.runCont q) .fulfilled]
      (.mwCalled q name req res :: tailLog pre ++ [.nextCalled q (defaultNull u)]) := by
  intro s0 hs0
  obtain ⟨σ, Q, L, hp, hc, rp⟩ := s0
  simp only at hs0
  cases catches <;>
  simp [Executor.run, State.setNode, hs0, Executor.new, asyncMw, awaitStmt, State.emit,
    runAsync_noTick _ _ _ hq hn, runAsync, next_falsy, hu, State.resolve, State.getP,
    State.setP, State.enqueue, controlledPromise, ControlledPromise.resolve,
    Executor.afterCall, State.subscribe, ControlledPromise.subscribe, suspend, asyncNode]

/-- An `async` middleware that awaits something before it calls its continuation: `run()`
leaves it suspended and waits for `cleanupPromise`. -/
theorem paused_runs (m : Middleware) (name : String) (len : Nat)
    (pre rest k : List AsyncStmt) (hm : m = ⟨name, len, .async (pre ++ k)⟩)
    (hq : ∀ st ∈ pre, st.isQuiet = true) (ht : afterTick pre = some rest)
    (ms : List Middleware) (h : Handler) (req res : Nat)
    (prev : Option Nat) (q : Nat) :
    NodeRuns m ms h req res prev q (pausedNode m ms h req res prev q (rest ++ k))
      [.react (.mwResume q) .fulfilled] (.mwCalled q name req res :: untilTick pre) := by
  intro s0 hs0
  obtain ⟨σ, Q, L, hp, hc, rp⟩ := s0
  simp only at hs0
  subst hm
  simp [Executor.run, State.setNode, hs0, Executor.new, State.emit,
    runAsync_tick _ _ _ _ hq ht, State.getP, State.setP, State.enqueue, controlledPromise,
    Executor.afterCall, State.subscribe, ControlledPromise.subscribe, suspend, pausedNode]

theorem asyncMw_completes (m : Middleware) (catches : Bool) (post : List AsyncStmt)
    (hplain : ∀ st ∈ post, st.isPlain = true)
    (ms : List Middleware) (h : Handler) (req res : Nat)
    (prev : Option Nat) (q : Nat) (hq : 1 + prev.getD 0 = q) (L : List Event) (v : Value)
    (hset : Settles q ms h req res L v) :
    NodeCompletes q (asyncNode m ms h req res prev q catches post)
      [.react (.runCont q) .fulfilled] (L ++ resumeLog q catches post v.outcome)
      (resumeOutcome catches post v.outcome) := by
  intro s k hsq hsn
  obtain ⟨σ, Q, L0, hp, hc, rp⟩ := s
  simp only at hsq hsn
  subst hsq
  have h1 : runJobs 1 ⟨σ, [.react (.runCont q) .fulfilled], L0, hp, hc, rp⟩ =
      ⟨σ, [.checkFlag q, .adopt q], L0, hp, hc, rp⟩ := by
    simp [runJobs, step, runJob, runReaction, Executor.returnInternal, State.enqueue]
  obtain ⟨n, s₁, hfin, hs1q, hs1l, hs1r, hs1j, hs1n⟩ :=
    hset ⟨σ, [.checkFlag q, .adopt q], L0, hp, hc, rp⟩
      ⟨rfl, by simp [hsn, Executor.new, asyncNode], by simp [hsn, Executor.new, asyncNode],
        by simp [hsn, Executor.new, asyncNode], by simp [hsn, Executor.new, asyncNode],
        by simp [hsn, Executor.new, asyncNode],
        by simp [hsn, Executor.new, hq, asyncNode],
        by simp [hsn, Executor.new, controlledPromise, asyncNode]⟩
  obtain ⟨σ₁, Q₁, L₁, hp₁, hc₁, rp₁⟩ := s₁
  simp only at hs1q hs1l hs1r hs1j hs1n
  subst hs1q hs1l hs1r
  have h2 : step (Executor.finish q v ⟨σ₁, [], L0 ++ L, hp₁, hc₁, rp₁⟩) =
      resumeAsync q v.outcome
        ⟨Function.update σ₁ q { σ₁ q with teardownPromise := ⟨v.outcome.status, []⟩ }, [],
          L0 ++ L, hp₁, hc₁, rp₁⟩ := by
    by_cases hv : v.truthy = true
    · simp [Executor.finish, hs1n, hsn, adopted, asyncNode, isPromise, hv, State.reject,
        State.getP, State.setP, State.setNode, ControlledPromise.reject, State.enqueue, step,
        runJob, runReaction, Value.outcome, Settled.status]
    · simp [Executor.finish, hs1n, hsn, adopted, asyncNode, isPromise, hv, State.resolve,
        State.getP, State.setP, State.setNode, ControlledPromise.resolve, State.enqueue, step,
        runJob, runReaction, Value.outcome, Settled.status]
  obtain ⟨n2, hq2, hl2, hr2, hj2⟩ := asyncMw_resumes q k catches post hplain v.outcome
    (Function.update σ₁ q { σ₁ q with teardownPromise := ⟨v.outcome.status, []⟩ })
    (L0 ++ L) hp₁ hc₁ rp₁
    (by simp [hs1n, hsn, adopted, asyncNode]) (by simp [hs1n, hsn, adopted, asyncNode])
    (by simp [hs1n, hsn, adopted, asyncNode])
    (by simp [hs1n, hsn, adopted, asyncNode, Executor.new, controlledPromise])
    (by simp [hs1n, hsn, adopted, asyncNode]) (by simp [hs1n, hsn, adopted, asyncNode])
  refine ⟨1 + n + 1 + n2, ?_⟩
  rw [runJobs_add, runJobs_succ_right, runJobs_add, h1, hfin, h2]
  refine ⟨hq2, by rw [hl2]; simp, hr2, ?_⟩
  intro j hj
  rw [hj2 j (Nat.ne_of_lt hj)]
  simp [Nat.ne_of_lt hj, hs1j j hj]

/-- An asynchronous-style middleware that awaited something first: once resumed it runs up
to `await next()`, and from there on it is as if it had called its continuation at once. -/
theorem paused_link_completes (m : Middleware) (catches : Bool) (u : Value)
    (hu : u.truthy = false) (rest post : List AsyncStmt)
    (hqr : ∀ st ∈ rest, st.isQuiet = true) (hplain : ∀ st ∈ post, st.isPlain = true)
    (ms : List Middleware) (h : Handler) (req res : Nat)
    (prev : Option Nat) (q : Nat) (hq : 1 + prev.getD 0 = q) (L : List Event) (v : Value)
    (hset : Settles q ms h req res L v) :
    NodeCompletes q (pausedNode m ms h req res prev q (rest ++ awaitStmt catches u :: post))
      [.react (.mwResume q) .fulfilled]
      (tailLog rest ++ .nextCalled q (defaultNull u) :: (L ++ resumeLog q catches post v.outcome))
      (resumeOutcome catches post v.outcome) := by
  intro s k hsq hsn
  obtain ⟨σ, Q, L0, hp, hc, rp⟩ := s
  simp only at hsq hsn
  subst hsq
  have h1 : runJobs 1 ⟨σ, [.react (.mwResume q) .fulfilled], L0, hp, hc, rp⟩ =
      runAsync q (rest ++ awaitStmt catches u :: post) ⟨σ, [], L0, hp, hc, rp⟩ := by
    simp [runJobs, step, runJob, runReaction, resumeAsync, hsn, pausedNode]
  obtain ⟨n, c, b, hd⟩ := runAsync_quiet_drain q rest (awaitStmt catches u :: post) hqr
    σ L0 hp hc rp
  have h3 : runAsync q (awaitStmt catches u :: post)
      ⟨Function.update σ q { σ q with mwCode := c, mwInTry := b }, [], L0 ++ tailLog rest,
        hp, hc, rp⟩ =
      ⟨Function.update σ q { asyncNode m ms h req res prev q catches post with
          runPromise := ⟨.pending, [k]⟩ },
        [.react (.runCont q) .fulfilled],
        L0 ++ tailLog rest ++ [.nextCalled q (defaultNull u)], hp, hc, rp⟩ := by
    cases catches <;>
    simp [awaitStmt, runAsync, next_falsy, hu, State.emit, State.resolve, State.getP,
      State.setP, State.setNode, State.enqueue, ControlledPromise.resolve, State.subscribe,
      ControlledPromise.subscribe, suspend, hsn, pausedNode, asyncNode, Executor.new,
      controlledPromise]
  obtain ⟨n2, hq2, hl2, hr2, hj2⟩ := asyncMw_completes m catches post hplain ms h req res prev q
    hq L v hset
    ⟨Function.update σ q { asyncNode m ms h req res prev q catches post with
          runPromise := ⟨.pending, [k]⟩ },
        [.react (.runCont q) .fulfilled],
        L0 ++ tailLog rest ++ [.nextCalled q (defaultNull u)], hp, hc, rp⟩ k rfl (by simp)
  refine ⟨1 + n + n2, ?_⟩
  rw [runJobs_add, runJobs_add, h1, hd, h3]
  refine ⟨hq2, by rw [hl2]; simp, hr2, ?_⟩
  intro j hj
  rw [hj2 j hj]
  simp [Nat.ne_of_lt hj]

/-! ## Middleware that fail -/

theorem syncNextErrMw_runs (name : String) (len : Nat) (pre : List String) (e : Value)
    (rest : List SyncStmt) (he : e.truthy = true) (ms : List Middleware) (h : Handler)
    (req res : Nat) (prev : Option Nat) (q : Nat) :
    NodeRuns (syncNextErrMw name len pre e rest) ms h req res prev q
      { Executor.new (syncNextErrMw name len pre e rest :: ms) h req res prev with
        cleanupPromise := ⟨.fulfilled, []⟩
        internalPromise := ⟨.rejected e, []⟩ }
      [.adopt q]
      (.mwCalled q name req res :: pre.map Event.log ++ [.nextCalled q e]) := by
  intro s0 hs0
  obtain ⟨σ, Q, L, hp, hc, rp⟩ := s0
  simp only at hs0
  simp [Executor.run, State.setNode, hs0, Executor.new, syncNextErrMw, State.emit,
    callSync_logs, callSync, next_truthy, he, State.resolve, State.reject, State.getP,
    State.setP, State.enqueue, controlledPromise, ControlledPromise.resolve,
    ControlledPromise.reject, Executor.fail, Executor.returnInternal]

theorem syncThrowMw_runs (name : String) (len : Nat) (pre : List String) (e : Value)
    (rest : List SyncStmt) (ms : List Middleware) (h : Handler)
    (req res : Nat) (prev : Option Nat) (q : Nat) :
    NodeRuns (syncThrowMw name len pre e rest) ms h req res prev q
      { Executor.new (syncThrowMw name len pre e rest :: ms) h req res prev with
        internalPromise := ⟨.rejected e, []⟩ }
      [.adopt q]
      (.mwCalled q name req res :: pre.map Event.log) := by
  intro s0 hs0
  obtain ⟨σ, Q, L, hp, hc, rp⟩ := s0
  simp only at hs0
  simp [Executor.run, State.setNode, hs0, Executor.new, syncThrowMw, State.emit,
    callSync_logs, callSync, State.reject, State.getP,
    State.setP, State.enqueue, controlledPromise,
    ControlledPromise.reject, Executor.fail, Executor.returnInternal]

theorem failed_completes (q : Nat) (nd : Executor) (e : Value)
    (hint : nd.internalPromise = ⟨.rejected e, []⟩) :
    NodeCompletes q nd [.adopt q] [] (.rejected e) := by
  intro s k hsq hsn
  obtain ⟨σ, Q, L0, hp, hc, rp⟩ := s
  simp only at hsq hsn
  subst hsq
  refine ⟨2, ?_⟩
  simp [runJobs, step, runJob, runReaction, State.subscribe, State.getP, State.setP,
    State.setNode, State.enqueue, ControlledPromise.subscribe, hsn, hint, State.reject,
    ControlledPromise.reject]
  intro j hj
  simp [Nat.ne_of_lt hj]

theorem asyncThrowMw_runs (name : String) (len : Nat) (pre : List AsyncStmt) (e : Value)
    (rest : List AsyncStmt) (hq : ∀ st ∈ pre, st.isQuiet = true) (hn : afterTick pre = none)
    (ms : List Middleware) (h : Handler)
    (req res : Nat) (prev : Option Nat) (q : Nat) :
    NodeRuns (asyncThrowMw name len pre e rest) ms h req res prev q
      { Executor.new (asyncThrowMw name len pre e rest :: ms) h req res prev with
        result := .ownPromise
        ownPromise := ⟨.rejected e, []⟩
        cleanupPromise := ⟨.pending, [.runCont q]⟩ }
      [.react (.asyncDone q) (.rejected e)]
      (.mwCalled q name req res :: tailLog pre) := by
  intro s0 hs0
  obtain ⟨σ, Q, L, hp, hc, rp⟩ := s0
  simp only at hs0
  simp [Executor.run, State.setNode, hs0, Executor.new, asyncThrowMw, State.emit,
    runAsync_noTick _ _ _ hq hn, runAsync, State.reject, State.getP, State.setP,
    State.enqueue, controlledPromise, ControlledPromise.reject, Executor.afterCall,
    State.subscribe, ControlledPromise.subscribe]

theorem asyncNextErrMw_runs (name : String) (len : Nat) (pre : List AsyncStmt)
    (awaited : Bool) (e : Value) (he : e.truthy = true)
    (rest : List AsyncStmt) (hq : ∀ st ∈ pre, st.isQuiet = true) (hn : afterTick pre = none)
    (ms : List Middleware) (h : Handler)
    (req res : Nat) (prev : Option Nat) (q : Nat) :
    NodeRuns (asyncNextErrMw name len pre awaited e rest) ms h req res prev q
      { Executor.new (asyncNextErrMw name len pre awaited e rest :: ms) h req res prev with
        result := .ownPromise
        ownPromise := ⟨.rejected e, []⟩
        cleanupPromise := ⟨.fulfilled, []⟩ }
      [.react (.asyncDone q) (.rejected e), .react (.runCont q) .fulfilled]
      (.mwCalled q name req res :: tailLog pre ++ [.nextCalled q e]) := by
  intro s0 hs0
  obtain ⟨σ, Q, L, hp, hc, rp⟩ := s0
  simp only at hs0
  cases awaited <;>
  simp [Executor.run, State.setNode, hs0, Executor.new, asyncNextErrMw, callStmt, State.emit,
    runAsync_noTick _ _ _ hq hn, runAsync, next_truthy, he, State.resolve, State.reject,
    State.getP, State.setP, State.enqueue, controlledPromise, ControlledPromise.resolve,
    ControlledPromise.reject, Executor.afterCall, State.subscribe,
    ControlledPromise.subscribe]

/-- An `async` middleware that awaited something first and then throws `e`, never having
called its continuation: the rest of the chain is not run and `run()` rejects with `e`. -/
theorem paused_throw_completes (m : Middleware) (e : Value) (rest code : List AsyncStmt)
    (hqr : ∀ st ∈ rest, st.isQuiet = true)
    (ms : List Middleware) (h : Handler) (req res : Nat) (prev : Option Nat) (q : Nat) :
    NodeCompletes q (pausedNode m ms h req res prev q (rest ++ .throw e :: code))
      [.react (.mwResume q) .fulfilled] (tailLog rest) (.rejected e) := by
  intro s k hsq hsn
  obtain ⟨σ, Q, L0, hp, hc, rp⟩ := s
  simp only at hsq hsn
  subst hsq
  have h1 : runJobs 1 ⟨σ, [.react (.mwResume q) .fulfilled], L0, hp, hc, rp⟩ =
      runAsync q (rest ++ .throw e :: code) ⟨σ, [], L0, hp, hc, rp⟩ := by
    simp [runJobs, step, runJob, runReaction, resumeAsync, hsn, pausedNode]
  obtain ⟨n, c, b, hd⟩ := runAsync_quiet_drain q rest (.throw e :: code) hqr σ L0 hp hc rp
  refine ⟨1 + n + 5, ?_⟩
  rw [runJobs_add, runJobs_add, h1, hd]
  simp [runJobs, step, runJob, runReaction, runAsync, State.subscribe, State.getP, State.setP,
    State.setNode, State.enqueue, ControlledPromise.subscribe, hsn, pausedNode, Executor.new,
    controlledPromise, State.reject, State.resolve, ControlledPromise.reject,
    ControlledPromise.resolve, Executor.fail, Executor.returnInternal]
  intro j hj
  simp [Nat.ne_of_lt hj]

/-- An `async` middleware that awaited something first and then calls `next(e)` with a
truthy `e`: the rest of the chain is not run and `run()` rejects with `e`. -/
theorem paused_next_completes (m : Middleware) (awaited : Bool) (e : Value)
    (he : e.truthy = true) (rest code : List AsyncStmt)
    (hqr : ∀ st ∈ rest, st.isQuiet = true)
    (ms : List Middleware) (h : Handler) (req res : Nat) (prev : Option Nat) (q : Nat) :
    NodeCompletes q (pausedNode m ms h req res prev q (rest ++ callStmt awaited e :: code))
      [.react (.mwResume q) .fulfilled] (tailLog rest ++ [.nextCalled q e]) (.rejected e) := by
  intro s k hsq hsn
  obtain ⟨σ, Q, L0, hp, hc, rp⟩ := s
  simp only at hsq hsn
  subst hsq
  have h1 : runJobs 1 ⟨σ, [.react (.mwResume q) .fulfilled], L0, hp, hc, rp⟩ =
      runAsync q (rest ++ callStmt awaited e :: code) ⟨σ, [], L0, hp, hc, rp⟩ := by
    simp [runJobs, step, runJob, runReaction, resumeAsync, hsn, pausedNode]
  obtain ⟨n, c, b, hd⟩ := runAsync_quiet_drain q rest (callStmt awaited e :: code) hqr
    σ L0 hp hc rp
  refine ⟨1 + n + 5, ?_⟩
  rw [runJobs_add, runJobs_add, h1, hd]
  cases awaited <;>
  · simp [runJobs, step, runJob, runReaction, runAsync, callStmt, next_truthy, he, State.emit,
      State.subscribe, State.getP, State.setP,
      State.setNode, State.enqueue, ControlledPromise.subscribe, hsn, pausedNode, Executor.new,
      controlledPromise, State.reject, State.resolve, ControlledPromise.reject,
      ControlledPromise.resolve, Executor.fail, Executor.returnInternal]
    intro j hj
    simp [Nat.ne_of_lt hj]

theorem asyncFailed_completes (q : Nat) (nd : Executor) (e : Value) (J : List Job)
    (hint : nd.internalPromise = ⟨.pending, []⟩)
    (hcl : (nd.cleanupPromise = ⟨.pending, [.runCont q]⟩ ∧
        J = [.react (.asyncDone q) (.rejected e)]) ∨
      (nd.cleanupPromise = ⟨.fulfilled, []⟩ ∧
        J = [.react (.asyncDone q) (.rejected e), .react (.runCont q) .fulfilled])) :
    NodeCompletes q nd J [] (.rejected e) := by
  intro s k hsq hsn
  obtain ⟨σ, Q, L0, hp, hc, rp⟩ := s
  simp only at hsq hsn
  subst hsq
  refine ⟨5, ?_⟩
  rcases hcl with ⟨hc1, rfl⟩ | ⟨hc1, rfl⟩ <;>
  · simp [runJobs, step, runJob, runReaction, State.subscribe, State.getP, State.setP,
      State.setNode, State.enqueue, ControlledPromise.subscribe, hsn, hint, hc1, State.reject,
      State.resolve, ControlledPromise.reject, ControlledPromise.resolve, Executor.fail,
      Executor.returnInternal]
    intro j hj
    simp [Nat.ne_of_lt hj]

/-! ## The log grows and a settled route promise stays -/

theorem Ext.refl (s : State) : Ext s s := ⟨⟨[], by simp⟩, fun _ => rfl⟩

theorem Ext.trans {s t u : State} (h1 : Ext s t) (h2 : Ext t u) : Ext s u := by
  obtain ⟨⟨l1, hl1⟩, hr1⟩ := h1
  obtain ⟨⟨l2, hl2⟩, hr2⟩ := h2
  refine ⟨⟨l1 ++ l2, by rw [hl2, hl1, List.append_assoc]⟩, fun hs => ?_⟩
  have := hr1 hs
  rw [hr2 (by rw [this]; exact hs), this]

theorem ext_setNode (s : State) (p : Nat) (e : Executor) : Ext s (s.setNode p e) :=
  ⟨⟨[], by simp [State.setNode]⟩, fun _ => rfl⟩

theorem ext_enqueue (s : State) (js : List Job) : Ext s (s.enqueue js) :=
  ⟨⟨[], by simp [State.enqueue]⟩, fun _ => rfl⟩

theorem ext_emit (s : State) (e : Event) : Ext s (s.emit e) :=
  ⟨⟨[e], by simp [State.emit]⟩, fun _ => rfl⟩

theorem ext_resolve (s : State) (r : PromiseRef) : Ext s (s.resolve r) := by
  refine ⟨⟨[], ?_⟩, fun hs => ?_⟩
  · cases r <;> simp [State.resolve, State.setP, State.enqueue, State.setNode]
  · cases r <;> simp [State.resolve, State.setP, State.enqueue, State.setNode, State.getP]
    cases h : s.routePromise.status <;> simp_all [ControlledPromise.resolve]

theorem ext_reject (s : State) (r : PromiseRef) (e : Value) : Ext s (s.reject r e) := by
  refine ⟨⟨[], ?_⟩, fun hs => ?_⟩
  · cases r <;> simp [State.reject, State.setP, State.enqueue, State.setNode]
  · cases r <;> simp [State.reject, State.setP, State.enqueue, State.setNode, State.getP]
    cases h : s.routePromise.status <;> simp_all [ControlledPromise.reject]

theorem ext_subscribe (s : State) (r : PromiseRef) (k : Reaction) : Ext s (s.subscribe r k) := by
  refine ⟨⟨[], ?_⟩, fun hs => ?_⟩
  · cases r <;> simp [State.subscribe, State.setP, State.enqueue, State.setNode]
  · cases r <;> simp [State.subscribe, State.setP, State.enqueue, State.setNode, State.getP]
    cases h : s.routePromise.status <;> simp_all [ControlledPromise.subscribe]

theorem ext_next (q : Nat) (e : Value) (s : State) : Ext s (Executor.next q e s).1 := by
  have h := (ext_emit s (.nextCalled q (defaultNull e))).trans (ext_resolve _ (.cleanup q))
  unfold Executor.next
  simp only
  split <;> exact h

theorem ext_callSync (q : Nat) (code : List SyncStmt) : ∀ s, Ext s (callSync q code s).1 := by
  induction code with
  | nil => intro s; exact Ext.refl s
  | cons st code ih =>
    intro s
    cases st with
    | log m => exact (ext_emit s _).trans (ih _)
    | next e =>
      simp only [callSync]
      split
      · exact ext_next q e s
      · exact (ext_next q e s).trans (ih _)
    | returnNext e =>
      simp only [callSync]
      split <;> exact ext_next q e s
    | throw v => exact Ext.refl s
    | defer e => exact (ext_enqueue s _).trans (ih _)

theorem ext_suspend (q : Nat) (k : List AsyncStmt) (b : Bool) (s : State) :
    Ext s (suspend q k b s) := ext_setNode _ _ _

theorem ext_runAsync (q : Nat) (code : List AsyncStmt) : ∀ s, Ext s (runAsync q code s) := by
  induction code with
  | nil => intro s; exact ext_resolve s _
  | cons st code ih =>
    intro s
    cases st with
    | log m => exact (ext_emit s _).trans (ih _)
    | next e =>
      simp only [runAsync]
      split
      · exact (ext_next q e s).trans (ext_reject _ _ _)
      · exact (ext_next q e s).trans (ih _)
    | awaitNext e =>
      simp only [runAsync]
      split
      · exact (ext_next q e s).trans (ext_reject _ _ _)
      · exact ((ext_next q e s).trans (ext_suspend _ _ _ _)).trans (ext_subscribe _ _ _)
    | tryAwaitNext e =>
      simp only [runAsync]
      split
      · exact ((ext_next q e s).trans (ext_emit _ _)).trans (ih _)
      · exact ((ext_next q e s).trans (ext_suspend _ _ _ _)).trans (ext_subscribe _ _ _)
    | awaitTick => exact (ext_suspend _ _ _ _).trans (ext_enqueue _ _)
    | returnNext e =>
      simp only [runAsync]
      split
      · exact (ext_next q e s).trans (ext_reject _ _ _)
      · exact (ext_next q e s).trans (ext_enqueue _ _)
    | throw v => exact ext_reject _ _ _
    | defer e => exact (ext_enqueue s _).trans (ih _)

theorem ext_resumeAsync (q : Nat) (o : Settled) (s : State) : Ext s (resumeAsync q o s) := by
  unfold resumeAsync
  cases o with
  | fulfilled => exact ext_runAsync _ _ _
  | rejected e =>
    simp only
    split
    · exact (ext_emit _ _).trans (ext_runAsync _ _ _)
    · exact ext_reject _ _ _

theorem ext_callHandler (code : List PlainHandlerStmt) : ∀ s, Ext s (callHandler code s).1 := by
  induction code with
  | nil => intro s; exact Ext.refl s
  | cons st code ih =>
    intro s
    cases st with
    | log m => exact (ext_emit s _).trans (ih _)
    | throw v => exact Ext.refl s

theorem ext_handlerCode (s : State) (k : List HandlerStmt) :
    Ext s { s with handlerCode := k } := ⟨⟨[], by simp⟩, fun _ => rfl⟩

theorem ext_handlerPromise (s : State) (c : ControlledPromise) :
    Ext s { s with handlerPromise := c } := ⟨⟨[], by simp⟩, fun _ => rfl⟩

theorem ext_queue (s : State) (q : List Job) :
    Ext s { s with queue := q } := ⟨⟨[], by simp⟩, fun _ => rfl⟩

theorem ext_runHandler (code : List HandlerStmt) : ∀ s, Ext s (runHandler code s) := by
  induction code with
  | nil => intro s; exact ext_resolve s _
  | cons st code ih =>
    intro s
    cases st with
    | log m => exact (ext_emit s _).trans (ih _)
    | awaitTick => exact (ext_handlerCode s code).trans (ext_enqueue _ _)
    | throw v => exact ext_reject _ _ _

theorem ext_finish (q : Nat) (v : Value) (s : State) : Ext s (Executor.finish q v s) := by
  unfold Executor.finish Executor.fail Executor.succeed
  split <;> split <;> first | exact ext_reject _ _ _ | exact ext_resolve _ _

theorem ext_afterCall (q : Nat) (r : Result) (s : State) : Ext s (Executor.afterCall q r s) := by
  unfold Executor.afterCall
  cases r with
  | undefined => exact (ext_setNode _ _ _).trans (ext_subscribe _ _ _)
  | ownPromise => exact ((ext_setNode _ _ _).trans (ext_subscribe _ _ _)).trans (ext_subscribe _ _ _)
  | teardown => exact ((ext_setNode _ _ _).trans (ext_subscribe _ _ _)).trans (ext_subscribe _ _ _)

theorem ext_run (q : Nat) (s : State) : Ext s (Executor.run q s) := by
  unfold Executor.run
  simp only
  split
  · exact ((ext_setNode _ _ _).trans (ext_reject _ _ _)).trans (ext_enqueue _ _)
  · split
    · split
      · exact ((((ext_setNode _ _ _).trans (ext_emit _ _)).trans (ext_callSync _ _ _)).trans
          (ext_reject _ _ _)).trans (ext_enqueue _ _)
      · exact (((ext_setNode _ _ _).trans (ext_emit _ _)).trans (ext_callSync _ _ _)).trans
          (ext_afterCall _ _ _)
    · exact (((ext_setNode _ _ _).trans (ext_emit _ _)).trans (ext_runAsync _ _ _)).trans
        (ext_afterCall _ _ _)

theorem ext_runRemaining (q : Nat) (s : State) : Ext s (Executor.runRemaining q s) := by
  unfold Executor.runRemaining
  simp only
  split
  · split
    · split
      · exact ((ext_emit _ _).trans (ext_callHandler _ _)).trans (ext_finish _ _ _)
      · exact ((ext_emit _ _).trans (ext_callHandler _ _)).trans (ext_enqueue _ _)
    · exact (((ext_emit _ _).trans (ext_handlerPromise _ _)).trans (ext_runHandler _ _)).trans
        (ext_subscribe _ _ _)
  · exact ((ext_setNode _ _ _).trans (ext_run _ _)).trans (ext_subscribe _ _ _)

theorem ext_runReaction (r : Reaction) (o : Settled) (s : State) : Ext s (runReaction r o s) := by
  unfold runReaction
  cases r with
  | runCont pos => exact (ext_enqueue _ _).trans (ext_enqueue _ _)
  | mwResume pos => exact ext_resumeAsync _ _ _
  | asyncDone pos =>
    cases o with
    | fulfilled => exact ext_resolve _ _
    | rejected e => exact ((ext_setNode _ _ _).trans (ext_resolve _ _)).trans (ext_reject _ _ _)
  | settleRun pos => cases o <;> first | exact ext_resolve _ _ | exact ext_reject _ _ _
  | settleResult pos => cases o <;> first | exact ext_resolve _ _ | exact ext_reject _ _ _
  | runRemainingCont pos => cases o <;> exact ext_finish _ _ _
  | handlerResume => exact ext_runHandler _ _
  | routeCont => cases o <;> first | exact ext_resolve _ _ | exact ext_reject _ _ _

theorem ext_runJob (j : Job) (s : State) : Ext s (runJob j s) := by
  unfold runJob
  cases j with
  | react r o => exact ext_runReaction _ _ _
  | checkFlag pos =>
    simp only
    split
    · exact Ext.refl _
    · exact ext_runRemaining _ _
  | adopt pos => exact ext_subscribe _ _ _
  | adoptResult pos => exact ext_subscribe _ _ _
  | deferred pos e => exact ext_next _ _ _

theorem ext_step (s : State) : Ext s (step s) := by
  unfold step
  split
  · exact Ext.refl _
  · exact (ext_queue _ _).trans (ext_runJob _ _)

theorem ext_runJobs (n : Nat) : ∀ s, Ext s (runJobs n s) := by
  induction n with
  | zero => intro s; exact Ext.refl s
  | succ n ih => intro s; exact (ext_step s).trans (ih _)


/-! ## Chains -/

theorem nodeSem_link (l : Link) (hl : l.Ok) {ms : List Middleware} {h : Handler} {req res : Nat}
    {Lf : Nat → List Event} {o : Settled} (hrem : Remainder ms h req res Lf o) :
    NodeSem l.mw ms h req res (fun q => l.before req res q ++ (Lf q ++ l.after q o))
      (l.out o) := by
  intro prev q hq
  cases l with
  | sync name len pre u post =>
    refine ⟨_, _, _, _, syncMw_runs name len pre post u hl ms h req res prev q, rfl,
      syncMw_completes name len pre post u ms h req res prev q hq (Lf q) o.value (hrem q), ?_⟩
    simp [Link.before, Link.after]
  | async name len pre catches u post =>
    obtain ⟨hu, hpre, hpost⟩ := hl
    cases ht : afterTick pre with
    | none =>
      exact ⟨_, _, _, _, asyncMw_runs name len pre catches u post hu hpre ht ms h req res prev q,
        rfl, asyncMw_completes _ catches post hpost ms h req res prev q hq (Lf q) o.value
          (hrem q), by simp [Link.before, Link.after, Settled.seen]⟩
    | some rest =>
      obtain ⟨hlog, hrest⟩ := tailLog_tick pre rest hpre ht
      exact ⟨_, _, _, _,
        paused_runs (asyncMw name len pre catches u post) name len pre rest
          (awaitStmt catches u :: post) rfl hpre ht ms h req res prev q, rfl,
        paused_link_completes _ catches u hu rest post hrest hpost ms h req res prev q hq
          (Lf q) o.value (hrem q),
        by simp [Link.before, Link.after, Settled.seen, hlog]⟩

theorem nodeSem_failing (f : Failing) (hf : f.Ok) (ms : List Middleware) (h : Handler)
    (req res : Nat) :
    NodeSem f.mw ms h req res (f.before req res) (.rejected f.error) := by
  intro prev q _
  cases f with
  | syncNext name len pre e rest =>
    exact ⟨_, _, _, _, syncNextErrMw_runs name len pre e rest hf ms h req res prev q, rfl,
      failed_completes q _ e rfl,
      by simp [Failing.before, Failing.descr, Failing.callsNext, Failing.error]⟩
  | syncThrow name len pre e rest =>
    exact ⟨_, _, _, _, syncThrowMw_runs name len pre e rest ms h req res prev q, rfl,
      failed_completes q _ e rfl,
      by simp [Failing.before, Failing.descr, Failing.callsNext, Failing.error]⟩
  | asyncThrow name len pre e code =>
    cases ht : afterTick pre with
    | none =>
      exact ⟨_, _, _, _, asyncThrowMw_runs name len pre e code hf ht ms h req res prev q, rfl,
        asyncFailed_completes q _ e _ rfl (Or.inl ⟨rfl, rfl⟩),
        by simp [Failing.before, Failing.descr, Failing.callsNext, Failing.error]⟩
    | some rest =>
      obtain ⟨hlog, hrest⟩ := tailLog_tick pre rest hf ht
      exact ⟨_, _, _, _,
        paused_runs (asyncThrowMw name len pre e code) name len pre rest (.throw e :: code) rfl
          hf ht ms h req res prev q, rfl,
        paused_throw_completes _ e rest code hrest ms h req res prev q,
        by simp [Failing.before, Failing.descr, Failing.callsNext, Failing.error, hlog]⟩
  | asyncNext name len pre awaited e code =>
    obtain ⟨he, hpre⟩ := hf
    cases ht : afterTick pre with
    | none =>
      exact ⟨_, _, _, _,
        asyncNextErrMw_runs name len pre awaited e he code hpre ht ms h req res prev q, rfl,
        asyncFailed_completes q _ e _ rfl (Or.inr ⟨rfl, rfl⟩),
        by simp [Failing.before, Failing.descr, Failing.callsNext, Failing.error]⟩
    | some rest =>
      obtain ⟨hlog, hrest⟩ := tailLog_tick pre rest hpre ht
      exact ⟨_, _, _, _,
        paused_runs (asyncNextErrMw name len pre awaited e code) name len pre rest
          (callStmt awaited e :: code) rfl hpre ht ms h req res prev q, rfl,
        paused_next_completes _ awaited e he rest code hrest ms h req res prev q,
        by simp [Failing.before, Failing.descr, Failing.callsNext, Failing.error, hlog]⟩

theorem remainder_failing (f : Failing) (hf : f.Ok) (ms : List Middleware) (h : Handler)
    (req res : Nat) :
    Remainder (f.mw :: ms) h req res (fun p => f.before req res (1 + p)) (.rejected f.error) :=
  remainder_cons (nodeSem_failing f hf ms h req res)

theorem remainder_links (links : List Link) (hok : ∀ l ∈ links, l.Ok) {tail : List Middleware}
    {h : Handler} {req res : Nat} {Lt : Nat → List Event} {o : Settled}
    (hrem : Remainder tail h req res Lt o) :
    Remainder (links.map Link.mw ++ tail) h req res (linksLog req res links Lt o)
      (linksOutcome links o) := by
  induction links with
  | nil => simpa [linksLog, linksOutcome] using hrem
  | cons l ls ih =>
    have ih2 := ih (fun l hl => hok l (List.mem_cons_of_mem _ hl))
    exact remainder_cons (nodeSem_link l (hok l (List.mem_cons_self _ _)) ih2)

theorem runRoute_le (chain : List Middleware) (h : Handler) (req res : Nat) {m n : Nat}
    (hmn : m ≤ n) : Ext (runRoute m chain h req res) (runRoute n chain h req res) := by
  obtain ⟨d, rfl⟩ := Nat.exists_eq_add_of_le hmn
  unfold runRoute
  rw [runJobs_add]
  exact ext_runJobs d _

/-- What a request that ends looks like at every moment: the events so far are an
initial part of all its events, and the promise of the route function is pending or
has its final state with all events there. -/
theorem RouteEnds.always {chain : List Middleware} {h : Handler} {req res : Nat}
    {L : List Event} {o : Settled} (hre : RouteEnds chain h req res L o) (m : Nat) :
    (∃ l, L = (runRoute m chain h req res).log ++ l) ∧
    ((runRoute m chain h req res).routePromise.status = .pending ∨
      ((runRoute m chain h req res).routePromise.status = o.status ∧
        (runRoute m chain h req res).log = L)) := by
  obtain ⟨n, hq, hl, hr, hl0, hr0⟩ := hre
  by_cases hm : m ≤ n
  · have h1 := runRoute_le chain h req res hm
    refine ⟨?_, Or.inl ?_⟩
    · obtain ⟨l, hl1⟩ := h1.1
      exact ⟨l, by rw [← hl0, hl1]⟩
    · by_contra hne
      have := h1.2 hne
      rw [this] at hr0
      exact hne hr0
  · have hst : runRoute m chain h req res = runRoute (n + 1) chain h req res :=
      runJobs_stable hq m (by omega)
    rw [hst]
    exact ⟨⟨[], by simp [hl]⟩, Or.inr ⟨by rw [hr], hl⟩⟩

/-- A request that ends reaches its final state and stays there. -/
theorem RouteEnds.final {chain : List Middleware} {h : Handler} {req res : Nat}
    {L : List Event} {o : Settled} (hre : RouteEnds chain h req res L o) :
    ∃ n, ∀ m, n ≤ m → (runRoute m chain h req res).queue = [] ∧
      (runRoute m chain h req res).log = L ∧
      (runRoute m chain h req res).routePromise.status = o.status := by
  obtain ⟨n, hq, hl, hr, -, -⟩ := hre
  refine ⟨n + 1, fun m hm => ?_⟩
  have hst : runRoute m chain h req res = runRoute (n + 1) chain h req res :=
    runJobs_stable hq m hm
  rw [hst]
  exact ⟨hq, hl, by rw [hr]⟩

/-- A chain of links in front of the handler. -/
theorem route_links_handler (l : Link) (ls : List Link) (hok : ∀ x ∈ l :: ls, x.Ok)
    (h : Handler) (req res : Nat) :
    RouteEnds ((l :: ls).map Link.mw) h req res
      (linksLog req res (l :: ls) (fun _ => .handlerCalled req res :: h.events) h.outcome 0)
      (linksOutcome (l :: ls) h.outcome) := by
  have hrem := remainder_links ls (fun x hx => hok x (List.mem_cons_of_mem _ hx))
    (remainder_nil h req res)
  have := route_of_nodeSem (nodeSem_link l (hok l (List.mem_cons_self _ _)) hrem)
  simpa [RouteEnds, linksLog, linksOutcome] using this

/-- A chain of links in front of a middleware that fails. -/
theorem route_links_failing (links : List Link) (hok : ∀ x ∈ links, x.Ok) (f : Failing)
    (hf : f.Ok) (rest : List Middleware) (h : Handler) (req res : Nat) :
    RouteEnds (links.map Link.mw ++ f.mw :: rest) h req res
      (linksLog req res links (fun p => f.before req res (1 + p)) (.rejected f.error) 0)
      (linksOutcome links (.rejected f.error)) := by
  cases links with
  | nil =>
    have := route_of_nodeSem (nodeSem_failing f hf rest h req res)
    simpa [RouteEnds, linksLog, linksOutcome] using this
  | cons l ls =>
    have hrem := remainder_links ls (fun x hx => hok x (List.mem_cons_of_mem _ hx))
      (remainder_failing f hf rest h req res)
    have := route_of_nodeSem (nodeSem_link l (hok l (List.mem_cons_self _ _)) hrem)
    simpa [RouteEnds, linksLog, linksOutcome] using this

/-! ## The events of a chain -/

theorem linksLog_eq (req res : Nat) (links : List Link) (tail : Nat → List Event) (o : Settled) :
    ∀ p, linksLog req res links tail o p =
      befores req res p links ++ (tail (p + links.length) ++ afters p links o) := by
  induction links with
  | nil => intro p; simp [linksLog, befores, afters]
  | cons l ls ih =>
    intro p
    simp only [linksLog, befores, afters, ih, List.append_assoc, List.length_cons]
    rw [show 1 + p + ls.length = p + (ls.length + 1) by omega]

theorem calls_append (a b : List Event) : calls (a ++ b) = calls a ++ calls b := by
  induction a with
  | nil => rfl
  | cons e a ih => cases e <;> simp [calls, ih]

theorem handlerCalls_append (a b : List Event) :
    handlerCalls (a ++ b) = handlerCalls a + handlerCalls b := by
  induction a with
  | nil => simp [handlerCalls]
  | cons e a ih => cases e <;> simp [handlerCalls, ih]; omega

theorem messages_append (a b : List Event) : messages (a ++ b) = messages a ++ messages b := by
  induction a with
  | nil => rfl
  | cons e a ih => cases e <;> simp [messages, ih]

theorem calls_logs (l : List String) : calls (l.map Event.log) = [] := by
  induction l with
  | nil => rfl
  | cons m l ih => simp [calls, ih]

theorem handlerCalls_logs (l : List String) : handlerCalls (l.map Event.log) = 0 := by
  induction l with
  | nil => rfl
  | cons m l ih => simp [handlerCalls, ih]

theorem messages_logs (l : List String) : messages (l.map Event.log) = l := by
  induction l with
  | nil => rfl
  | cons m l ih => simp [messages, ih]

theorem calls_tailLog (c : List AsyncStmt) : calls (tailLog c) = [] := by
  induction c with
  | nil => rfl
  | cons st c ih => cases st <;> simp [tailLog, calls, ih]

theorem handlerCalls_tailLog (c : List AsyncStmt) : handlerCalls (tailLog c) = 0 := by
  induction c with
  | nil => rfl
  | cons st c ih => cases st <;> simp [tailLog, handlerCalls, ih]

theorem late_tailLog (k : Nat) (c : List AsyncStmt) : ∀ ev ∈ tailLog c, ev.isLate k = false := by
  induction c with
  | nil => simp [tailLog]
  | cons st c ih => cases st <;> simp [tailLog, Event.isLate] <;> exact ih

theorem calls_before (req res q : Nat) (l : Link) :
    calls (l.before req res q) = [.mwCalled q l.name req res] := by
  cases l <;> simp [Link.before, calls, calls_append, calls_logs, calls_tailLog, Link.name]

theorem handlerCalls_before (req res q : Nat) (l : Link) :
    handlerCalls (l.before req res q) = 0 := by
  cases l <;> simp [Link.before, handlerCalls, handlerCalls_append, handlerCalls_logs,
    handlerCalls_tailLog]

theorem calls_after (q : Nat) (o : Settled) (l : Link) : calls (l.after q o) = [] := by
  cases l with
  | sync => rfl
  | async name len pre catches u post =>
    simp only [Link.after]
    cases o.seen <;> cases catches <;> simp [resumeLog, calls, calls_tailLog]

theorem handlerCalls_after (q : Nat) (o : Settled) (l : Link) : handlerCalls (l.after q o) = 0 := by
  cases l with
  | sync => rfl
  | async name len pre catches u post =>
    simp only [Link.after]
    cases o.seen <;> cases catches <;> simp [resumeLog, handlerCalls, handlerCalls_tailLog]

theorem late_after (k q : Nat) (o : Settled) (l : Link) :
    ∀ ev ∈ l.after q o, ev.isLate k = false := by
  cases l with
  | sync => simp [Link.after]
  | async name len pre catches u post =>
    simp only [Link.after]
    cases o.seen <;> cases catches <;> simp [resumeLog, Event.isLate] <;>
      exact late_tailLog k post

theorem late_before (req res k q : Nat) (hq : q ≤ k) (l : Link) :
    ∀ ev ∈ l.before req res q, ev.isLate k = false := by
  cases l with
  | sync name len pre u post =>
    intro ev hev
    simp only [Link.before, List.mem_cons, List.mem_append, List.mem_map] at hev
    rcases hev with (rfl | ⟨m, -, rfl⟩) | rfl | ⟨m, -, rfl⟩ <;> simp [Event.isLate]
    omega
  | async name len pre catches u post =>
    intro ev hev
    simp only [Link.before, List.mem_cons, List.mem_append, List.mem_singleton,
      List.not_mem_nil, or_false] at hev
    rcases hev with (rfl | hev) | rfl
    · simp [Event.isLate]; omega
    · exact late_tailLog k pre ev hev
    · simp [Event.isLate]

theorem calls_befores (req res : Nat) (links : List Link) :
    ∀ p, calls (befores req res p links) = expectedCalls req res p links := by
  induction links with
  | nil => intro p; rfl
  | cons l ls ih => intro p; simp [befores, expectedCalls, calls_append, calls_before, ih]

theorem handlerCalls_befores (req res : Nat) (links : List Link) :
    ∀ p, handlerCalls (befores req res p links) = 0 := by
  induction links with
  | nil => intro p; rfl
  | cons l ls ih => intro p; simp [befores, handlerCalls_append, handlerCalls_before, ih]

theorem calls_afters (links : List Link) (o : Settled) : ∀ p, calls (afters p links o) = [] := by
  induction links with
  | nil => intro p; rfl
  | cons l ls ih => intro p; simp [afters, calls_append, calls_after, ih]

theorem handlerCalls_afters (links : List Link) (o : Settled) :
    ∀ p, handlerCalls (afters p links o) = 0 := by
  induction links with
  | nil => intro p; rfl
  | cons l ls ih => intro p; simp [afters, handlerCalls_append, handlerCalls_after, ih]

theorem late_befores (req res k : Nat) (links : List Link) :
    ∀ p, p + links.length ≤ k → ∀ ev ∈ befores req res p links, ev.isLate k = false := by
  induction links with
  | nil => intro p _; simp [befores]
  | cons l ls ih =>
    intro p hp ev hev
    simp only [befores, List.mem_append, List.length_cons] at hev hp
    rcases hev with hev | hev
    · exact late_before req res k (1 + p) (by omega) l ev hev
    · exact ih (1 + p) (by omega) ev hev

theorem late_afters (k : Nat) (links : List Link) (o : Settled) :
    ∀ p, ∀ ev ∈ afters p links o, ev.isLate k = false := by
  induction links with
  | nil => intro p; simp [afters]
  | cons l ls ih =>
    intro p ev hev
    simp only [afters, List.mem_append] at hev
    rcases hev with hev | hev
    · exact ih (1 + p) ev hev
    · exact late_after k _ _ l ev hev

/-! ## Validation -/

theorem isValidMiddlewareArray_eq (input : List Arg) :
    isValidMiddlewareArray input true =
      if input.all Arg.valid then .ok true else .error invalidMiddleware := by
  induction input with
  | nil => simp [isValidMiddlewareArray]
  | cons a rest ih =>
    cases hv : a.valid <;> simp [isValidMiddlewareArray, isValidMiddleware, hv, ih]

theorem use_eq (args : List Arg) :
    use args = if (flat args).all Arg.valid then .ok (flat args) else .error invalidMiddleware := by
  unfold use
  simp only [isValidMiddlewareArray_eq]
  by_cases h : (flat args).all Arg.valid = true <;> simp [h]

theorem Arg.valid_iff (a : Arg) : a.valid = true ↔ ∃ f, a = Arg.fn f ∧ f.length = 3 := by
  cases a <;> simp [Arg.valid]

/-! ## Properties of chains -/

theorem calls_plainLog (c : List PlainHandlerStmt) : calls (plainLog c) = [] := by
  induction c with
  | nil => rfl
  | cons st c ih => cases st <;> simp [plainLog, calls, ih]

theorem calls_handlerLog (c : List HandlerStmt) : calls (handlerLog c) = [] := by
  induction c with
  | nil => rfl
  | cons st c ih => cases st <;> simp [handlerLog, calls, ih]

theorem handlerCalls_plainLog (c : List PlainHandlerStmt) : handlerCalls (plainLog c) = 0 := by
  induction c with
  | nil => rfl
  | cons st c ih => cases st <;> simp [plainLog, handlerCalls, ih]

theorem handlerCalls_handlerLog (c : List HandlerStmt) : handlerCalls (handlerLog c) = 0 := by
  induction c with
  | nil => rfl
  | cons st c ih => cases st <;> simp [handlerLog, handlerCalls, ih]

theorem calls_events (h : Handler) : calls h.events = [] := by
  cases h <;> simp [Handler.events, calls_plainLog, calls_handlerLog]

theorem handlerCalls_events (h : Handler) : handlerCalls h.events = 0 := by
  cases h <;> simp [Handler.events, handlerCalls_plainLog, handlerCalls_handlerLog]

theorem seen_fulfilled : Settled.seen .fulfilled = .fulfilled := by
  simp [Settled.seen, Settled.value, Value.outcome, Value.truthy]

theorem seen_rejected {v : Value} (hv : v.truthy = true) :
    Settled.seen (.rejected v) = .rejected v := by
  simp [Settled.seen, Settled.value, Value.outcome, hv]

theorem linksOutcome_resolves (links : List Link) (hres : ∀ x ∈ links, x.Resolves) :
    linksOutcome links .fulfilled = .fulfilled := by
  induction links with
  | nil => rfl
  | cons l ls ih =>
    have h1 := ih (fun x hx => hres x (List.mem_cons_of_mem _ hx))
    have h2 := hres l (List.mem_cons_self _ _)
    cases l with
    | sync => simp [linksOutcome, Link.out, h1, seen_fulfilled]
    | async name len pre catches u post =>
      simpa [linksOutcome, Link.out, h1, seen_fulfilled, resumeOutcome] using h2

theorem linksOutcome_rethrows (links : List Link) (hre : ∀ x ∈ links, x.Rethrows) {v : Value}
    (hv : v.truthy = true) : linksOutcome links (.rejected v) = .rejected v := by
  induction links with
  | nil => rfl
  | cons l ls ih =>
    have h1 := ih (fun x hx => hre x (List.mem_cons_of_mem _ hx))
    have h2 := hre l (List.mem_cons_self _ _)
    cases l with
    | sync => simp [linksOutcome, Link.out, h1, seen_rejected hv]
    | async name len pre catches u post =>
      simp only [Link.Rethrows] at h2
      simp [linksOutcome, Link.out, h1, seen_rejected hv, resumeOutcome, h2]

theorem linksOutcome_append (a b : List Link) (o : Settled) :
    linksOutcome (a ++ b) o = linksOutcome a (linksOutcome b o) := by
  induction a with
  | nil => rfl
  | cons l a ih => simp [linksOutcome, ih]

theorem befores_append (req res : Nat) (a b : List Link) :
    ∀ p, befores req res p (a ++ b) = befores req res p a ++ befores req res (p + a.length) b := by
  induction a with
  | nil => intro p; simp [befores]
  | cons l a ih =>
    intro p
    rw [List.cons_append]
    simp only [befores, ih, List.append_assoc, List.length_cons]
    rw [show 1 + p + a.length = p + (a.length + 1) by omega]

theorem expectedCalls_append (req res : Nat) (a b : List Link) :
    ∀ p, expectedCalls req res p (a ++ b) =
      expectedCalls req res p a ++ expectedCalls req res (p + a.length) b := by
  induction a with
  | nil => intro p; simp [expectedCalls]
  | cons l a ih =>
    intro p
    rw [List.cons_append]
    simp only [expectedCalls, ih, List.cons_append, List.length_cons]
    rw [show 1 + p + a.length = p + (a.length + 1) by omega]

/-- A link calls its continuation in its own call, after nothing but its own events. -/
theorem before_split (req res q : Nat) (l : Link) :
    ∃ A B u, l.before req res q = A ++ .nextCalled q u :: B ∧ handlerCalls A = 0 ∧
      (∀ ev ∈ A, ev.isLate q = false) := by
  cases l with
  | sync name len pre u post =>
    refine ⟨.mwCalled q name req res :: pre.map Event.log, post.map Event.log, defaultNull u,
      by simp [Link.before], by simp [handlerCalls, handlerCalls_logs], ?_⟩
    intro ev hev
    simp only [List.mem_cons, List.mem_map] at hev
    rcases hev with rfl | ⟨m, -, rfl⟩ <;> simp [Event.isLate]
  | async name len pre catches u post =>
    refine ⟨.mwCalled q name req res :: tailLog pre, [], defaultNull u,
      by simp [Link.before], by simp [handlerCalls, handlerCalls_tailLog], ?_⟩
    intro ev hev
    simp only [List.mem_cons] at hev
    rcases hev with rfl | hev
    · simp [Event.isLate]
    · exact late_tailLog q pre ev hev

/-- C1: every middleware of a non-empty chain of synchronous-style and asynchronous-style
middleware is called, in list order; the handler, which resolves, is called exactly once,
after the last middleware called its continuation; and the promise of the route function
is fulfilled. -/
theorem C1_chain_runs (l : Link) (ls : List Link) (h : Handler) (req res : Nat)
    (hok : ∀ x ∈ l :: ls, x.Ok ∧ x.Resolves) (hh : h.outcome = .fulfilled) :
    ∃ n, ∀ m, n ≤ m →
      (runRoute m ((l :: ls).map Link.mw) h req res).routePromise.status = .fulfilled ∧
      (runRoute m ((l :: ls).map Link.mw) h req res).queue = [] ∧
      calls (runRoute m ((l :: ls).map Link.mw) h req res).log =
        expectedCalls req res 0 (l :: ls) ∧
      handlerCalls (runRoute m ((l :: ls).map Link.mw) h req res).log = 1 ∧
      ∃ A B u, (runRoute m ((l :: ls).map Link.mw) h req res).log =
          A ++ .nextCalled (ls.length + 1) u :: B ∧ handlerCalls A = 0 := by
  have hre := route_links_handler l ls (fun x hx => (hok x hx).1) h req res
  obtain ⟨n, hfin⟩ := hre.final
  refine ⟨n, fun m hm => ?_⟩
  obtain ⟨hq, hl, hs⟩ := hfin m hm
  have hout : linksOutcome (l :: ls) h.outcome = .fulfilled := by
    rw [hh]; exact linksOutcome_resolves _ (fun x hx => (hok x hx).2)
  rw [hout] at hs
  rw [linksLog_eq] at hl
  refine ⟨hs, hq, ?_, ?_, ?_⟩
  · rw [hl]
    simp [calls_append, calls_befores, calls_afters, calls, calls_events]
  · rw [hl]
    simp [handlerCalls_append, handlerCalls_befores, handlerCalls_afters, handlerCalls,
      handlerCalls_events]
  · rw [hl]
    obtain ⟨init, last, hlast⟩ : ∃ init last, l :: ls = init ++ [last] := by
      rcases List.eq_nil_or_concat (l :: ls) with h0 | ⟨init, last, h1⟩
      · cases h0
      · exact ⟨init, last, by simpa using h1⟩
    have hlen : ls.length + 1 = init.length + 1 := by
      have := congrArg List.length hlast
      simpa using this
    obtain ⟨A, B, u, hAB, hA, -⟩ := before_split req res (1 + (0 + init.length)) last
    refine ⟨befores req res 0 init ++ A, B ++ (.handlerCalled req res :: h.events ++
      afters 0 (init ++ [last]) h.outcome), u, ?_, ?_⟩
    · rw [hlast, befores_append]
      simp only [befores, List.append_nil, hAB, List.append_assoc, List.cons_append, hlen]
      rw [show 1 + (0 + init.length) = init.length + 1 by omega]
    · simp [handlerCalls_append, handlerCalls_befores, hA]

/-- The scenario of C1: a synchronous middleware, then an asynchronous one, then a handler. -/
theorem C1_chain_runs_witness :
    (∀ x ∈ [Link.sync "mwA" 3 [] .undefined [], Link.async "mwB" 3 [] false .undefined []],
      x.Ok ∧ x.Resolves) ∧
    (Handler.plain [.log "count"]).outcome = .fulfilled ∧
    ∃ n, ∀ m, n ≤ m →
      (runRoute m ([Link.sync "mwA" 3 [] .undefined [],
        Link.async "mwB" 3 [] false .undefined []].map Link.mw)
        (.plain [.log "count"]) 0 0).routePromise.status = .fulfilled ∧
      (runRoute m ([Link.sync "mwA" 3 [] .undefined [],
        Link.async "mwB" 3 [] false .undefined []].map Link.mw)
        (.plain [.log "count"]) 0 0).queue = [] ∧
      calls (runRoute m ([Link.sync "mwA" 3 [] .undefined [],
        Link.async "mwB" 3 [] false .undefined []].map Link.mw)
        (.plain [.log "count"]) 0 0).log =
        expectedCalls 0 0 0 [Link.sync "mwA" 3 [] .undefined [],
          Link.async "mwB" 3 [] false .undefined []] ∧
      handlerCalls (runRoute m ([Link.sync "mwA" 3 [] .undefined [],
        Link.async "mwB" 3 [] false .undefined []].map Link.mw)
        (.plain [.log "count"]) 0 0).log = 1 ∧
      ∃ A B u, (runRoute m ([Link.sync "mwA" 3 [] .undefined [],
        Link.async "mwB" 3 [] false .undefined []].map Link.mw)
        (.plain [.log "count"]) 0 0).log =
          A ++ .nextCalled ([Link.async "mwB" 3 [] false .undefined []].length + 1) u :: B ∧
          handlerCalls A = 0 :=
  ⟨by simp [Link.Ok, Link.Resolves, Value.truthy, tailOutcome], rfl,
    C1_chain_runs (.sync "mwA" 3 [] .undefined []) [.async "mwB" 3 [] false .undefined []]
      (.plain [.log "count"]) 0 0
      (by simp [Link.Ok, Link.Resolves, Value.truthy, tailOutcome]) rfl⟩

theorem teardown_ok (ts : List (String × String × String)) :
    ∀ x ∈ ts.map teardownLink, x.Ok ∧ x.Resolves := by
  intro x hx
  obtain ⟨t, -, rfl⟩ := List.mem_map.1 hx
  simp [teardownLink, Link.Ok, Link.Resolves, Value.truthy, AsyncStmt.isPlain,
    AsyncStmt.isQuiet, tailOutcome]

theorem messages_befores_teardown (req res : Nat) (ts : List (String × String × String)) :
    ∀ p, messages (befores req res p (ts.map teardownLink)) = ts.map (fun t => t.2.1) := by
  induction ts with
  | nil => intro p; rfl
  | cons t ts ih =>
    intro p
    simp [befores, messages_append, ih, teardownLink, Link.before, messages]

theorem messages_afters_teardown (ts : List (String × String × String)) :
    ∀ p, messages (afters p (ts.map teardownLink) .fulfilled) =
      (ts.map (fun t => t.2.2)).reverse := by
  induction ts with
  | nil => intro p; rfl
  | cons t ts ih =>
    intro p
    have hout : linksOutcome (ts.map teardownLink) .fulfilled = .fulfilled :=
      linksOutcome_resolves _ (fun x hx => (teardown_ok ts x hx).2)
    simp [afters, messages_append, ih, hout, seen_fulfilled]
    simp [teardownLink, Link.after, seen_fulfilled, resumeLog, tailLog, messages]

/-- C4: a chain of asynchronous middleware that log before and after awaiting their
continuation, in front of a handler that logs `terminal`, logs all the `before` messages
in list order, then `terminal`, then the `after` messages in reverse order; the promise
of the route function is fulfilled, and not before all of that has been logged. -/
theorem C4_teardown_order (t : String × String × String) (ts : List (String × String × String))
    (terminal : String) (h : Handler) (req res : Nat)
    (hh : h = .plain [.log terminal] ∨ h = .async [.log terminal]) :
    (∃ n, ∀ m, n ≤ m →
      (runRoute m (((t :: ts).map teardownLink).map Link.mw) h req res).routePromise.status =
        .fulfilled ∧
      messages (runRoute m (((t :: ts).map teardownLink).map Link.mw) h req res).log =
        (t :: ts).map (fun t => t.2.1) ++ [terminal] ++ ((t :: ts).map (fun t => t.2.2)).reverse) ∧
    (∀ m, (runRoute m (((t :: ts).map teardownLink).map Link.mw) h req res).routePromise.status ≠
        .pending →
      messages (runRoute m (((t :: ts).map teardownLink).map Link.mw) h req res).log =
        (t :: ts).map (fun t => t.2.1) ++ [terminal] ++ ((t :: ts).map (fun t => t.2.2)).reverse) := by
  have hev : messages h.events = [terminal] ∧ h.outcome = .fulfilled := by
    rcases hh with rfl | rfl <;> exact ⟨rfl, rfl⟩
  have hre := route_links_handler (teardownLink t) (ts.map teardownLink)
    (fun x hx => (teardown_ok (t :: ts) x hx).1) h req res
  have hL : messages (linksLog req res (teardownLink t :: ts.map teardownLink)
      (fun _ => .handlerCalled req res :: h.events) h.outcome 0) =
      (t :: ts).map (fun t => t.2.1) ++ [terminal] ++ ((t :: ts).map (fun t => t.2.2)).reverse := by
    rw [linksLog_eq, hev.2, ← List.map_cons, messages_append, messages_append,
      messages_befores_teardown, messages_afters_teardown]
    simp [messages, hev.1]
  have hout : linksOutcome (teardownLink t :: ts.map teardownLink) h.outcome = .fulfilled := by
    rw [hev.2]
    exact linksOutcome_resolves _ (fun x hx => (teardown_ok (t :: ts) x hx).2)
  rw [hout] at hre
  refine ⟨?_, fun m hm => ?_⟩
  · obtain ⟨n, hfin⟩ := hre.final
    refine ⟨n, fun m hm => ?_⟩
    obtain ⟨-, hl, hs⟩ := hfin m hm
    exact ⟨hs, by rw [List.map_cons, hl]; exact hL⟩
  · rcases (hre.always m).2 with hp | ⟨-, hl⟩
    · exact absurd hp hm
    · rw [List.map_cons, hl]; exact hL

/-- The example of C4 with two middleware. -/
theorem C4_teardown_order_witness :
    (Handler.plain [.log "terminal"] = .plain [.log "terminal"] ∨
      Handler.plain [.log "terminal"] = .async [.log "terminal"]) ∧
    ∃ n, ∀ m, n ≤ m →
      (runRoute m (([("A", "A-before", "A-after"), ("B", "B-before", "B-after")].map
        teardownLink).map Link.mw) (.plain [.log "terminal"]) 0 0).routePromise.status =
        .fulfilled ∧
      messages (runRoute m (([("A", "A-before", "A-after"), ("B", "B-before", "B-after")].map
        teardownLink).map Link.mw) (.plain [.log "terminal"]) 0 0).log =
        ["A-before", "B-before", "terminal", "B-after", "A-after"] :=
  ⟨Or.inl rfl, (C4_teardown_order ("A", "A-before", "A-after") [("B", "B-before", "B-after")]
    "terminal" (.plain [.log "terminal"]) 0 0 (Or.inl rfl)).1⟩

theorem late_failing_before (req res k q : Nat) (hq : q ≤ k) (f : Failing) :
    ∀ ev ∈ f.before req res q, ev.isLate k = false := by
  intro ev hev
  simp only [Failing.before, List.mem_cons, List.mem_append] at hev
  rcases hev with (rfl | hev) | hev
  · simp [Event.isLate]; omega
  · cases f with
    | syncNext name len pre e rest =>
      obtain ⟨m, -, rfl⟩ := List.mem_map.1 hev
      rfl
    | syncThrow name len pre e rest =>
      obtain ⟨m, -, rfl⟩ := List.mem_map.1 hev
      rfl
    | asyncThrow name len pre e rest => exact late_tailLog k pre ev hev
    | asyncNext name len pre awaited e rest => exact late_tailLog k pre ev hev
  · split at hev
    · simp only [List.mem_singleton] at hev
      subst hev
      simp [Event.isLate]
    · simp at hev

/-- A chain whose middleware `f` fails in its own call, behind links that do not catch:
the request ends rejected with the error when that is truthy, and at no moment has the
handler or a middleware behind `f` been called. -/
theorem failing_chain (links : List Link) (f : Failing) (rest : List Middleware) (h : Handler)
    (req res : Nat) (hok : ∀ x ∈ links, x.Ok ∧ x.Rethrows) (hf : f.Ok)
    (he : f.error.truthy = true) :
    RouteEnds (links.map Link.mw ++ f.mw :: rest) h req res
      (befores req res 0 links ++ f.before req res (links.length + 1)) (.rejected f.error) ∧
    ∀ m, ∀ ev ∈ (runRoute m (links.map Link.mw ++ f.mw :: rest) h req res).log,
      ev.isLate (links.length + 1) = false := by
  have hre := route_links_failing links (fun x hx => (hok x hx).1) f hf rest h req res
  rw [linksOutcome_rethrows links (fun x hx => (hok x hx).2) he, linksLog_eq] at hre
  have haft : afters 0 links (.rejected f.error) = [] := by
    have : ∀ (ls : List Link), (∀ x ∈ ls, x.Rethrows) → ∀ p,
        afters p ls (.rejected f.error) = [] := by
      intro ls
      induction ls with
      | nil => intro _ p; rfl
      | cons l ls ih =>
        intro hre p
        have h1 := ih (fun x hx => hre x (List.mem_cons_of_mem _ hx))
        have h2 := hre l (List.mem_cons_self _ _)
        have h3 := linksOutcome_rethrows ls (fun x hx => hre x (List.mem_cons_of_mem _ hx)) he
        cases l with
        | sync => simp [afters, h1, Link.after]
        | async name len pre catches u post =>
          simp only [Link.Rethrows] at h2
          simp [afters, h1, Link.after, h3, seen_rejected he, resumeLog, h2]
    exact this links (fun x hx => (hok x hx).2) 0
  rw [haft, List.append_nil, show 1 + (0 + links.length) = links.length + 1 by omega] at hre
  refine ⟨hre, fun m ev hev => ?_⟩
  obtain ⟨l, hl⟩ := (hre.always m).1
  have hmem : ev ∈ befores req res 0 links ++ f.before req res (links.length + 1) := by
    rw [hl]; exact List.mem_append_left _ hev
  rcases List.mem_append.1 hmem with h1 | h1
  · exact late_befores req res _ links 0 (by omega) ev h1
  · exact late_failing_before req res _ _ (Nat.le_refl _) f ev h1

/-- C2, amended: when the middleware at position `k` calls its continuation with a truthy
error and the throw of the continuation reaches `run()` (a plain function calls it in its
own call, an `async` function in its body outside `try`/`catch`), all middleware before it
being synchronous-style or asynchronous-style without `catch`, then the promise of the
route function is rejected with that error, the continuation was called with it, and at no
moment has the handler or a middleware at a position after `k` been called. A call whose
throw does not reach `run()` is not spoken of here; `next_error_outside_run` shows what the
code does with it. -/
theorem C2_next_error (links : List Link) (f : Failing) (rest : List Middleware) (h : Handler)
    (req res : Nat) (hok : ∀ x ∈ links, x.Ok ∧ x.Rethrows) (hf : f.Ok)
    (hc : f.callsNext = true) :
    (∃ n, ∀ m, n ≤ m →
      (runRoute m (links.map Link.mw ++ f.mw :: rest) h req res).routePromise.status =
        .rejected f.error ∧
      (runRoute m (links.map Link.mw ++ f.mw :: rest) h req res).queue = [] ∧
      Event.nextCalled (links.length + 1) f.error ∈
        (runRoute m (links.map Link.mw ++ f.mw :: rest) h req res).log) ∧
    ∀ m, ∀ ev ∈ (runRoute m (links.map Link.mw ++ f.mw :: rest) h req res).log,
      ev.isLate (links.length + 1) = false := by
  have he : f.error.truthy = true := by
    cases f with
    | syncNext name len pre e code => exact hf
    | syncThrow name len pre e code => simp [Failing.callsNext] at hc
    | asyncThrow name len pre e code => simp [Failing.callsNext] at hc
    | asyncNext name len pre awaited e code => exact hf.1
  obtain ⟨hre, hnever⟩ := failing_chain links f rest h req res hok hf he
  refine ⟨?_, hnever⟩
  obtain ⟨n, hfin⟩ := hre.final
  refine ⟨n, fun m hm => ?_⟩
  obtain ⟨hq, hl, hs⟩ := hfin m hm
  refine ⟨hs, hq, ?_⟩
  rw [hl]
  simp [Failing.before, hc]

theorem route_handler (links : List Link) (hne : links ≠ []) (hok : ∀ x ∈ links, x.Ok)
    (h : Handler) (req res : Nat) :
    RouteEnds (links.map Link.mw) h req res
      (befores req res 0 links ++
        (.handlerCalled req res :: h.events ++ afters 0 links h.outcome))
      (linksOutcome links h.outcome) := by
  cases links with
  | nil => exact absurd rfl hne
  | cons l ls =>
    have := route_links_handler l ls hok h req res
    rwa [linksLog_eq] at this

/-- The first example of C2: a continuation called with a truthy error. -/
theorem C2_next_error_witness :
    (∀ x ∈ [Link.sync "first" 3 [] .undefined []], x.Ok ∧ x.Rethrows) ∧
    (Failing.syncNext "mwA" 3 [] (.str "boom") [.log "unreached"]).Ok ∧
    (Failing.syncNext "mwA" 3 [] (.str "boom") [.log "unreached"]).callsNext = true ∧
    (∃ n, ∀ m, n ≤ m →
      (runRoute m ([Link.sync "first" 3 [] .undefined []].map Link.mw ++
        (Failing.syncNext "mwA" 3 [] (.str "boom") [.log "unreached"]).mw ::
          [⟨"late", 3, .plain [.next .undefined]⟩])
        (.plain [.log "terminal"]) 0 0).routePromise.status =
        .rejected (Failing.syncNext "mwA" 3 [] (.str "boom") [.log "unreached"]).error ∧
      (runRoute m ([Link.sync "first" 3 [] .undefined []].map Link.mw ++
        (Failing.syncNext "mwA" 3 [] (.str "boom") [.log "unreached"]).mw ::
          [⟨"late", 3, .plain [.next .undefined]⟩])
        (.plain [.log "terminal"]) 0 0).queue = [] ∧
      Event.nextCalled ([Link.sync "first" 3 [] .undefined []].length + 1)
          (Failing.syncNext "mwA" 3 [] (.str "boom") [.log "unreached"]).error ∈
        (runRoute m ([Link.sync "first" 3 [] .undefined []].map Link.mw ++
          (Failing.syncNext "mwA" 3 [] (.str "boom") [.log "unreached"]).mw ::
            [⟨"late", 3, .plain [.next .undefined]⟩])
          (.plain [.log "terminal"]) 0 0).log) :=
  ⟨by simp [Link.Ok, Link.Rethrows, Value.truthy], rfl, rfl,
    (C2_next_error [Link.sync "first" 3 [] .undefined []]
      (Failing.syncNext "mwA" 3 [] (.str "boom") [.log "unreached"])
      [⟨"late", 3, .plain [.next .undefined]⟩] (.plain [.log "terminal"]) 0 0
      (by simp [Link.Ok, Link.Rethrows, Value.truthy]) rfl rfl).1⟩

theorem handlerCalls_route (req res : Nat) (links : List Link) (h : Handler) (o : Settled) :
    handlerCalls (befores req res 0 links ++
      (.handlerCalled req res :: h.events ++ afters 0 links o)) = 1 := by
  simp [handlerCalls_append, handlerCalls_befores, handlerCalls_afters, handlerCalls,
    handlerCalls_events]

/-! ## An `async` middleware that calls its continuation and throws -/

theorem afterTick_of_awaits_zero {l : List AsyncStmt} (hq : ∀ st ∈ l, st.isQuiet = true)
    (h : awaits l = 0) : afterTick l = none := by
  induction l with
  | nil => rfl
  | cons st l ih =>
    have hq2 : ∀ x ∈ l, x.isQuiet = true := fun x hx => hq x (List.mem_cons_of_mem _ hx)
    have hst := hq st (List.mem_cons_self _ _)
    cases st with
    | log m => simpa [afterTick] using ih hq2 (by simpa [awaits] using h)
    | awaitTick => simp [awaits] at h
    | next e => simp [AsyncStmt.isQuiet] at hst
    | awaitNext e => simp [AsyncStmt.isQuiet] at hst
    | tryAwaitNext e => simp [AsyncStmt.isQuiet] at hst
    | returnNext e => simp [AsyncStmt.isQuiet] at hst
    | throw v => simp [AsyncStmt.isQuiet] at hst
    | defer e => simp [AsyncStmt.isQuiet] at hst

theorem afterTick_of_awaits_succ {l : List AsyncStmt} (hq : ∀ st ∈ l, st.isQuiet = true)
    {n : Nat} (h : awaits l = n + 1) : ∃ r, afterTick l = some r ∧ awaits r = n := by
  induction l with
  | nil => simp [awaits] at h
  | cons st l ih =>
    have hq2 : ∀ x ∈ l, x.isQuiet = true := fun x hx => hq x (List.mem_cons_of_mem _ hx)
    have hst := hq st (List.mem_cons_self _ _)
    cases st with
    | log m => simpa [afterTick] using ih hq2 (by simpa [awaits] using h)
    | awaitTick => exact ⟨l, rfl, by simp only [awaits] at h; omega⟩
    | next e => simp [AsyncStmt.isQuiet] at hst
    | awaitNext e => simp [AsyncStmt.isQuiet] at hst
    | tryAwaitNext e => simp [AsyncStmt.isQuiet] at hst
    | returnNext e => simp [AsyncStmt.isQuiet] at hst
    | throw v => simp [AsyncStmt.isQuiet] at hst
    | defer e => simp [AsyncStmt.isQuiet] at hst

theorem asyncNextThrowMw_runs (name : String) (len : Nat) (pre : List AsyncStmt) (u : Value)
    (mid : List AsyncStmt) (e : Value) (rest : List AsyncStmt) (hu : u.truthy = false)
    (hq : ∀ st ∈ pre, st.isQuiet = true) (hn : afterTick pre = none)
    (hqm : ∀ st ∈ mid, st.isQuiet = true) (hnm : afterTick mid = none)
    (ms : List Middleware) (h : Handler) (req res : Nat) (prev : Option Nat) (q : Nat) :
    NodeRuns (asyncNextThrowMw name len pre u mid e rest) ms h req res prev q
      { Executor.new (asyncNextThrowMw name len pre u mid e rest :: ms) h req res prev with
        result := .ownPromise
        ownPromise := ⟨.rejected e, []⟩
        cleanupPromise := ⟨.fulfilled, []⟩ }
      [.react (.asyncDone q) (.rejected e), .react (.runCont q) .fulfilled]
      (.mwCalled q name req res :: tailLog pre ++ .nextCalled q (defaultNull u) :: tailLog mid) := by
  intro s0 hs0
  obtain ⟨σ, Q, L, hp, hc, rp⟩ := s0
  simp only at hs0
  simp [Executor.run, State.setNode, hs0, Executor.new, asyncNextThrowMw, State.emit,
    runAsync_noTick _ _ _ hq hn, runAsync_noTick _ _ _ hqm hnm, runAsync, next_falsy, hu,
    State.resolve, State.reject,
    State.getP, State.setP, State.enqueue, controlledPromise, ControlledPromise.resolve,
    ControlledPromise.reject, Executor.afterCall, State.subscribe,
    ControlledPromise.subscribe]

theorem asyncNextTick_runs (name : String) (len : Nat) (pre : List AsyncStmt) (u : Value)
    (mid r : List AsyncStmt) (e : Value) (rest : List AsyncStmt) (hu : u.truthy = false)
    (hq : ∀ st ∈ pre, st.isQuiet = true) (hn : afterTick pre = none)
    (hqm : ∀ st ∈ mid, st.isQuiet = true) (htm : afterTick mid = some r)
    (ms : List Middleware) (h : Handler) (req res : Nat) (prev : Option Nat) (q : Nat) :
    NodeRuns (asyncNextThrowMw name len pre u mid e rest) ms h req res prev q
      { Executor.new (asyncNextThrowMw name len pre u mid e rest :: ms) h req res prev with
        result := .ownPromise
        ownPromise := ⟨.pending, [.asyncDone q]⟩
        cleanupPromise := ⟨.fulfilled, []⟩
        mwCode := r ++ .throw e :: rest
        mwInTry := false }
      [.react (.mwResume q) .fulfilled, .react (.runCont q) .fulfilled]
      (.mwCalled q name req res :: tailLog pre ++ .nextCalled q (defaultNull u) :: untilTick mid) := by
  intro s0 hs0
  obtain ⟨σ, Q, L, hp, hc, rp⟩ := s0
  simp only at hs0
  simp [Executor.run, State.setNode, hs0, Executor.new, asyncNextThrowMw, State.emit,
    runAsync_noTick _ _ _ hq hn, runAsync_tick _ _ _ _ hqm htm, runAsync, next_falsy, hu,
    State.resolve, State.reject, suspend,
    State.getP, State.setP, State.enqueue, controlledPromise, ControlledPromise.resolve,
    ControlledPromise.reject, Executor.afterCall, State.subscribe,
    ControlledPromise.subscribe]

theorem asyncNextTick_completes (q : Nat) (nd : Executor) (e : Value) (r rest : List AsyncStmt)
    (hqr : ∀ st ∈ r, st.isQuiet = true) (hnr : afterTick r = none)
    (hint : nd.internalPromise = ⟨.pending, []⟩)
    (hcl : nd.cleanupPromise = ⟨.fulfilled, []⟩)
    (hown : nd.ownPromise = ⟨.pending, [.asyncDone q]⟩)
    (hcode : nd.mwCode = r ++ .throw e :: rest) :
    NodeCompletes q nd [.react (.mwResume q) .fulfilled, .react (.runCont q) .fulfilled]
      (tailLog r) (.rejected e) := by
  intro s k hsq hsn
  obtain ⟨σ, Q, L0, hp, hc, rp⟩ := s
  simp only at hsq hsn
  subst hsq
  refine ⟨6, ?_⟩
  simp [runJobs, step, runJob, runReaction, resumeAsync, runAsync_noTick _ _ _ hqr hnr,
    runAsync, State.subscribe, State.getP, State.setP,
    State.setNode, State.enqueue, ControlledPromise.subscribe, hsn, hint, hcl, hown, hcode,
    State.reject,
    State.resolve, ControlledPromise.reject, ControlledPromise.resolve, Executor.fail,
    Executor.returnInternal]
  intro j hj
  simp [Nat.ne_of_lt hj]

theorem paused_nextThrow_completes (m : Middleware) (u e : Value) (hu : u.truthy = false)
    (rest0 mid code : List AsyncStmt)
    (hqr : ∀ st ∈ rest0, st.isQuiet = true)
    (hqm : ∀ st ∈ mid, st.isQuiet = true) (hnm : afterTick mid = none)
    (ms : List Middleware) (h : Handler) (req res : Nat) (prev : Option Nat) (q : Nat) :
    NodeCompletes q
      (pausedNode m ms h req res prev q (rest0 ++ .next u :: (mid ++ .throw e :: code)))
      [.react (.mwResume q) .fulfilled]
      (tailLog rest0 ++ .nextCalled q (defaultNull u) :: tailLog mid) (.rejected e) := by
  intro s k hsq hsn
  obtain ⟨σ, Q, L0, hp, hc, rp⟩ := s
  simp only at hsq hsn
  subst hsq
  have h1 : runJobs 1 ⟨σ, [.react (.mwResume q) .fulfilled], L0, hp, hc, rp⟩ =
      runAsync q (rest0 ++ .next u :: (mid ++ .throw e :: code)) ⟨σ, [], L0, hp, hc, rp⟩ := by
    simp [runJobs, step, runJob, runReaction, resumeAsync, hsn, pausedNode]
  obtain ⟨n, c, b, hd⟩ := runAsync_quiet_drain q rest0 (.next u :: (mid ++ .throw e :: code)) hqr
    σ L0 hp hc rp
  refine ⟨1 + n + 5, ?_⟩
  rw [runJobs_add, runJobs_add, h1, hd]
  simp [runJobs, step, runJob, runReaction, runAsync, next_falsy, hu, State.emit,
    runAsync_noTick _ _ _ hqm hnm,
    State.subscribe, State.getP, State.setP,
    State.setNode, State.enqueue, ControlledPromise.subscribe, hsn, pausedNode, Executor.new,
    controlledPromise, State.reject, State.resolve, ControlledPromise.reject,
    ControlledPromise.resolve, Executor.fail, Executor.returnInternal]
  intro j hj
  simp [Nat.ne_of_lt hj]


theorem nodeSem_nextThrow (name : String) (len : Nat) (pre : List AsyncStmt) (u : Value)
    (mid : List AsyncStmt) (e : Value) (code : List AsyncStmt) (hu : u.truthy = false)
    (hpre : ∀ st ∈ pre, st.isQuiet = true) (hmid : ∀ st ∈ mid, st.isQuiet = true)
    (ht : InTime pre mid) (ms : List Middleware) (h : Handler) (req res : Nat) :
    NodeSem (asyncNextThrowMw name len pre u mid e code) ms h req res
      (fun q => .mwCalled q name req res ::
        tailLog pre ++ .nextCalled q (defaultNull u) :: tailLog mid) (.rejected e) := by
  intro prev q _
  rcases ht with hm0 | ⟨hp0, hm1⟩
  · have hnm := afterTick_of_awaits_zero hmid hm0
    cases htp : afterTick pre with
    | none =>
      exact ⟨_, _, _, _,
        asyncNextThrowMw_runs name len pre u mid e code hu hpre htp hmid hnm ms h req res prev q,
        rfl, asyncFailed_completes q _ e _ rfl (Or.inr ⟨rfl, rfl⟩), by simp⟩
    | some rest =>
      obtain ⟨hlog, hrest⟩ := tailLog_tick pre rest hpre htp
      exact ⟨_, _, _, _,
        paused_runs (asyncNextThrowMw name len pre u mid e code) name len pre rest
          (.next u :: (mid ++ .throw e :: code)) rfl hpre htp ms h req res prev q, rfl,
        paused_nextThrow_completes _ u e hu rest mid code hrest hmid hnm ms h req res prev q,
        by simp [hlog]⟩
  · have hnp := afterTick_of_awaits_zero hpre hp0
    obtain ⟨r, htm, hr0⟩ := afterTick_of_awaits_succ hmid hm1
    obtain ⟨hlog, hqr⟩ := tailLog_tick mid r hmid htm
    have hnr := afterTick_of_awaits_zero hqr hr0
    exact ⟨_, _, _, _,
      asyncNextTick_runs name len pre u mid r e code hu hpre hnp hmid htm ms h req res prev q,
      rfl, asyncNextTick_completes q _ e r code hqr hnr rfl rfl rfl rfl, by simp [hlog]⟩

theorem linksOutcome_rejected (links : List Link) (hre : ∀ x ∈ links, x.Rethrows) {v : Value}
    (hv : links = [] ∨ v.truthy = true) : linksOutcome links (.rejected v) = .rejected v := by
  rcases hv with rfl | hv
  · rfl
  · exact linksOutcome_rethrows links hre hv

theorem afters_rejected (links : List Link) (hre : ∀ x ∈ links, x.Rethrows) {v : Value}
    (hv : links = [] ∨ v.truthy = true) : ∀ p, afters p links (.rejected v) = [] := by
  rcases hv with rfl | hv
  · intro p; rfl
  · induction links with
    | nil => intro p; rfl
    | cons l ls ih =>
      intro p
      have h1 := ih (fun x hx => hre x (List.mem_cons_of_mem _ hx))
      have h2 := hre l (List.mem_cons_self _ _)
      have h3 := linksOutcome_rethrows ls (fun x hx => hre x (List.mem_cons_of_mem _ hx)) hv
      cases l with
      | sync => simp [afters, h1, Link.after]
      | async name len pre catches u post =>
        simp only [Link.Rethrows] at h2
        simp [afters, h1, Link.after, h3, seen_rejected hv, resumeLog, h2]

/-- A chain of links in front of a middleware whose executor ends as `o`. -/
theorem route_links_node (links : List Link) (hok : ∀ x ∈ links, x.Ok) {m : Middleware}
    {rest : List Middleware} {h : Handler} {req res : Nat} {E : Nat → List Event} {o : Settled}
    (hn : NodeSem m rest h req res E o) :
    RouteEnds (links.map Link.mw ++ m :: rest) h req res
      (linksLog req res links (fun p => E (1 + p)) o 0) (linksOutcome links o) := by
  cases links with
  | nil =>
    have := route_of_nodeSem hn
    simpa [RouteEnds, linksLog, linksOutcome] using this
  | cons l ls =>
    have hrem := remainder_links ls (fun x hx => hok x (List.mem_cons_of_mem _ hx))
      (remainder_cons hn)
    have := route_of_nodeSem (nodeSem_link l (hok l (List.mem_cons_self _ _)) hrem)
    simpa [RouteEnds, linksLog, linksOutcome] using this

/-- A chain whose middleware behind the links `links` ends rejected with `v`, having called
nothing later: the request ends rejected with `v`, and at no moment has the handler or a
middleware behind it been called. Behind another middleware `v` is truthy. -/
theorem rejecting_chain (links : List Link) {m : Middleware} {rest : List Middleware}
    {h : Handler} {req res : Nat} {E : Nat → List Event} {v : Value}
    (hok : ∀ x ∈ links, x.Ok ∧ x.Rethrows) (hn : NodeSem m rest h req res E (.rejected v))
    (hv : links = [] ∨ v.truthy = true)
    (hE : ∀ ev ∈ E (links.length + 1), ev.isLate (links.length + 1) = false) :
    RouteEnds (links.map Link.mw ++ m :: rest) h req res
      (befores req res 0 links ++ E (links.length + 1)) (.rejected v) ∧
    ∀ n, ∀ ev ∈ (runRoute n (links.map Link.mw ++ m :: rest) h req res).log,
      ev.isLate (links.length + 1) = false := by
  have hre := route_links_node links (fun x hx => (hok x hx).1) hn
  rw [linksOutcome_rejected links (fun x hx => (hok x hx).2) hv, linksLog_eq,
    afters_rejected links (fun x hx => (hok x hx).2) hv, List.append_nil,
    show 1 + (0 + links.length) = links.length + 1 by omega] at hre
  refine ⟨hre, fun n ev hev => ?_⟩
  obtain ⟨l, hl⟩ := (hre.always n).1
  have hmem : ev ∈ befores req res 0 links ++ E (links.length + 1) := by
    rw [hl]; exact List.mem_append_left _ hev
  rcases List.mem_append.1 hmem with h1 | h1
  · exact late_befores req res _ links 0 (by omega) ev h1
  · exact hE ev h1


theorem calls_route (req res : Nat) (links : List Link) (h : Handler) (o : Settled) :
    calls (befores req res 0 links ++
      (.handlerCalled req res :: h.events ++ afters 0 links o)) =
      expectedCalls req res 0 links := by
  simp [calls_append, calls_befores, calls_afters, calls, calls_events]

/-- C3, amended: behind middleware that are synchronous-style or asynchronous-style
without `catch` (and, when there is such a middleware before it, for a truthy `v`):
(1) an `async` middleware that throws `v` before it ever called its continuation makes the
promise of the route function reject with `v`, and at no moment has the handler or a later
middleware been called; (2) so does an `async` middleware that called its continuation with
no error, did not await it and throws `v` in time for `run()` to see it (`InTime`);
(3) an asynchronous-style middleware whose own promise rejects with `v` after its awaited
continuation settled makes the promise of the route function reject with `v` as well, every
middleware of the chain having been called in order and the handler once by then. -/
theorem C3_async_rejection (ups : List Link) (v : Value) (h : Handler) (req res : Nat)
    (hups : ∀ x ∈ ups, x.Ok ∧ x.Rethrows) (hv : ups = [] ∨ v.truthy = true) :
    (∀ (name : String) (len : Nat) (pre code : List AsyncStmt) (rest : List Middleware),
      (∀ st ∈ pre, st.isQuiet = true) →
      (∃ n, ∀ m, n ≤ m →
        (runRoute m (ups.map Link.mw ++ asyncThrowMw name len pre v code :: rest)
          h req res).routePromise.status = .rejected v ∧
        (runRoute m (ups.map Link.mw ++ asyncThrowMw name len pre v code :: rest)
          h req res).queue = []) ∧
      ∀ m, ∀ ev ∈ (runRoute m (ups.map Link.mw ++ asyncThrowMw name len pre v code :: rest)
          h req res).log, ev.isLate (ups.length + 1) = false) ∧
    (∀ (name : String) (len : Nat) (pre : List AsyncStmt) (u : Value)
        (mid code : List AsyncStmt) (rest : List Middleware),
      (∀ st ∈ pre, st.isQuiet = true) → u.truthy = false →
      (∀ st ∈ mid, st.isQuiet = true) → InTime pre mid →
      (∃ n, ∀ m, n ≤ m →
        (runRoute m (ups.map Link.mw ++ asyncNextThrowMw name len pre u mid v code :: rest)
          h req res).routePromise.status = .rejected v ∧
        (runRoute m (ups.map Link.mw ++ asyncNextThrowMw name len pre u mid v code :: rest)
          h req res).queue = [] ∧
        Event.nextCalled (ups.length + 1) (defaultNull u) ∈
          (runRoute m (ups.map Link.mw ++ asyncNextThrowMw name len pre u mid v code :: rest)
            h req res).log) ∧
      ∀ m, ∀ ev ∈ (runRoute m
          (ups.map Link.mw ++ asyncNextThrowMw name len pre u mid v code :: rest)
          h req res).log, ev.isLate (ups.length + 1) = false) ∧
    (∀ (name : String) (len : Nat) (pre : List AsyncStmt) (catches : Bool) (u : Value)
        (post : List AsyncStmt) (downs : List Link),
      (∀ x ∈ Link.async name len pre catches u post :: downs, x.Ok) →
      (Link.async name len pre catches u post).out (linksOutcome downs h.outcome) =
        .rejected v →
      ∃ n, ∀ m, n ≤ m →
        (runRoute m ((ups ++ Link.async name len pre catches u post :: downs).map Link.mw)
          h req res).routePromise.status = .rejected v ∧
        (runRoute m ((ups ++ Link.async name len pre catches u post :: downs).map Link.mw)
          h req res).queue = [] ∧
        calls (runRoute m
          ((ups ++ Link.async name len pre catches u post :: downs).map Link.mw)
          h req res).log =
          expectedCalls req res 0 (ups ++ Link.async name len pre catches u post :: downs) ∧
        handlerCalls (runRoute m
          ((ups ++ Link.async name len pre catches u post :: downs).map Link.mw)
          h req res).log = 1) := by
  refine ⟨fun name len pre code rest hpre => ?_,
    fun name len pre u mid code rest hpre hu hmid ht => ?_,
    fun name len pre catches u post downs hok hout => ?_⟩
  · obtain ⟨hre, hnever⟩ := rejecting_chain ups hups
      (nodeSem_failing (.asyncThrow name len pre v code) hpre rest h req res) hv
      (late_failing_before req res _ _ (Nat.le_refl _) (.asyncThrow name len pre v code))
    refine ⟨?_, hnever⟩
    obtain ⟨n, hfin⟩ := hre.final
    exact ⟨n, fun m hm => ⟨(hfin m hm).2.2, (hfin m hm).1⟩⟩
  · obtain ⟨hre, hnever⟩ := rejecting_chain ups hups
      (nodeSem_nextThrow name len pre u mid v code hu hpre hmid ht rest h req res) hv
      (by
        intro ev hev
        simp only [List.mem_cons, List.mem_append] at hev
        rcases hev with (rfl | hev) | rfl | hev
        · simp [Event.isLate]
        · exact late_tailLog _ pre ev hev
        · rfl
        · exact late_tailLog _ mid ev hev)
    refine ⟨?_, hnever⟩
    obtain ⟨n, hfin⟩ := hre.final
    refine ⟨n, fun m hm => ⟨(hfin m hm).2.2, (hfin m hm).1, ?_⟩⟩
    rw [(hfin m hm).2.1]
    simp
  · have hre := route_handler (ups ++ Link.async name len pre catches u post :: downs)
      (by simp) (by
        intro x hx
        rcases List.mem_append.1 hx with h1 | h1
        · exact (hups x h1).1
        · exact hok x h1) h req res
    have ho : linksOutcome (ups ++ Link.async name len pre catches u post :: downs) h.outcome =
        .rejected v := by
      rw [linksOutcome_append]
      simp only [linksOutcome]
      rw [hout]
      exact linksOutcome_rejected ups (fun x hx => (hups x hx).2) hv
    rw [ho] at hre
    obtain ⟨n, hfin⟩ := hre.final
    refine ⟨n, fun m hm => ⟨(hfin m hm).2.2, (hfin m hm).1, ?_, ?_⟩⟩
    · rw [(hfin m hm).2.1]
      exact calls_route req res _ h _
    · rw [(hfin m hm).2.1]
      exact handlerCalls_route req res _ h _

/-- The three cases of C3, amended, at concrete middleware: a throw before the continuation
was called, behind another middleware; the falsy value `0` thrown at position 1 one `await`
after the continuation was called without being awaited; a throw after `await next()`. -/
theorem C3_async_rejection_witness :
    (∀ x ∈ [Link.sync "first" 3 [] .undefined []], x.Ok ∧ x.Rethrows) ∧
    ([Link.sync "first" 3 [] .undefined []] = [] ∨ (Value.str "v").truthy = true) ∧
    (∃ n, ∀ m, n ≤ m →
      (runRoute m ([Link.sync "first" 3 [] .undefined []].map Link.mw ++
          asyncThrowMw "auth" 3 [.log "checking", .awaitTick] (.str "v") [] ::
            [⟨"late", 3, .plain [.next .undefined]⟩])
        (.plain [.log "terminal"]) 0 0).routePromise.status = .rejected (.str "v") ∧
      (runRoute m ([Link.sync "first" 3 [] .undefined []].map Link.mw ++
          asyncThrowMw "auth" 3 [.log "checking", .awaitTick] (.str "v") [] ::
            [⟨"late", 3, .plain [.next .undefined]⟩])
        (.plain [.log "terminal"]) 0 0).queue = []) ∧
    (∃ n, ∀ m, n ≤ m →
      (runRoute m (([] : List Link).map Link.mw ++
          asyncNextThrowMw "hasty" 3 [.log "start"] .undefined [.awaitTick] (.num 0) [] ::
            [⟨"late", 3, .plain [.next .undefined]⟩])
        (.plain [.log "terminal"]) 0 0).routePromise.status = .rejected (.num 0) ∧
      (runRoute m (([] : List Link).map Link.mw ++
          asyncNextThrowMw "hasty" 3 [.log "start"] .undefined [.awaitTick] (.num 0) [] ::
            [⟨"late", 3, .plain [.next .undefined]⟩])
        (.plain [.log "terminal"]) 0 0).queue = [] ∧
      Event.nextCalled (([] : List Link).length + 1) (defaultNull .undefined) ∈
        (runRoute m (([] : List Link).map Link.mw ++
          asyncNextThrowMw "hasty" 3 [.log "start"] .undefined [.awaitTick] (.num 0) [] ::
            [⟨"late", 3, .plain [.next .undefined]⟩])
        (.plain [.log "terminal"]) 0 0).log) ∧
    (∃ n, ∀ m, n ≤ m →
      (runRoute m (([Link.sync "first" 3 [] .undefined []] ++
          Link.async "audit" 3 [] false .undefined [.throw (.str "v")] ::
            [Link.sync "late" 3 [] .undefined []]).map Link.mw)
        (.plain [.log "terminal"]) 0 0).routePromise.status = .rejected (.str "v") ∧
      (runRoute m (([Link.sync "first" 3 [] .undefined []] ++
          Link.async "audit" 3 [] false .undefined [.throw (.str "v")] ::
            [Link.sync "late" 3 [] .undefined []]).map Link.mw)
        (.plain [.log "terminal"]) 0 0).queue = [] ∧
      calls (runRoute m (([Link.sync "first" 3 [] .undefined []] ++
          Link.async "audit" 3 [] false .undefined [.throw (.str "v")] ::
            [Link.sync "late" 3 [] .undefined []]).map Link.mw)
        (.plain [.log "terminal"]) 0 0).log =
        expectedCalls 0 0 0 ([Link.sync "first" 3 [] .undefined []] ++
          Link.async "audit" 3 [] false .undefined [.throw (.str "v")] ::
            [Link.sync "late" 3 [] .undefined []]) ∧
      handlerCalls (runRoute m (([Link.sync "first" 3 [] .undefined []] ++
          Link.async "audit" 3 [] false .undefined [.throw (.str "v")] ::
            [Link.sync "late" 3 [] .undefined []]).map Link.mw)
        (.plain [.log "terminal"]) 0 0).log = 1) :=
  ⟨by simp [Link.Ok, Link.Rethrows, Value.truthy], Or.inr rfl,
    ((C3_async_rejection [Link.sync "first" 3 [] .undefined []] (.str "v")
      (.plain [.log "terminal"]) 0 0 (by simp [Link.Ok, Link.Rethrows, Value.truthy])
      (Or.inr rfl)).1
      "auth" 3 [.log "checking", .awaitTick] [] [⟨"late", 3, .plain [.next .undefined]⟩]
      (by simp [AsyncStmt.isQuiet])).1,
    ((C3_async_rejection [] (.num 0) (.plain [.log "terminal"]) 0 0 (by simp)
      (Or.inl rfl)).2.1
      "hasty" 3 [.log "start"] .undefined [.awaitTick] []
      [⟨"late", 3, .plain [.next .undefined]⟩]
      (by simp [AsyncStmt.isQuiet]) rfl (by simp [AsyncStmt.isQuiet])
      (Or.inr ⟨rfl, rfl⟩)).1,
    (C3_async_rejection [Link.sync "first" 3 [] .undefined []] (.str "v")
      (.plain [.log "terminal"]) 0 0 (by simp [Link.Ok, Link.Rethrows, Value.truthy])
      (Or.inr rfl)).2.2
      "audit" 3 [] false .undefined [.throw (.str "v")] [Link.sync "late" 3 [] .undefined []]
      (by simp [Link.Ok, Value.truthy, AsyncStmt.isPlain]) rfl⟩

/-- C9, amended: the statements a synchronous-style middleware at position `i` runs after
its continuation call have run, in its own call, before the handler or any middleware at a
later position is called: all of those calls come later in the events. -/
theorem C9_sync_statements (init : List Link) (name : String) (len : Nat)
    (pre : List String) (u : Value) (post : List String) (rest : List Link) (h : Handler)
    (req res : Nat) (hok : ∀ x ∈ init ++ Link.sync name len pre u post :: rest, x.Ok) :
    ∃ n, ∀ m, n ≤ m → ∃ A B,
      (runRoute m ((init ++ Link.sync name len pre u post :: rest).map Link.mw) h req res).log =
        A ++ post.map Event.log ++ B ∧
      (∀ ev ∈ A, ev.isLate (init.length + 1) = false) ∧
      calls B = expectedCalls req res (init.length + 1) rest ∧
      handlerCalls B = 1 := by
  have hre := route_handler (init ++ Link.sync name len pre u post :: rest) (by simp) hok h req res
  obtain ⟨n, hfin⟩ := hre.final
  refine ⟨n, fun m hm => ?_⟩
  refine ⟨befores req res 0 init ++ (.mwCalled (init.length + 1) name req res ::
      pre.map Event.log ++ [.nextCalled (init.length + 1) (defaultNull u)]),
    befores req res (init.length + 1) rest ++ (.handlerCalled req res :: h.events ++
      afters 0 (init ++ Link.sync name len pre u post :: rest) h.outcome), ?_, ?_, ?_, ?_⟩
  · rw [(hfin m hm).2.1, befores_append]
    simp only [befores, Link.before, List.append_assoc, List.cons_append, List.nil_append,
      show 1 + (0 + init.length) = init.length + 1 by omega]
  · intro ev hev
    rcases List.mem_append.1 hev with h1 | h1
    · exact late_befores req res _ init 0 (by omega) ev h1
    · simp only [List.mem_cons, List.mem_append, List.mem_map, List.mem_singleton,
        List.not_mem_nil, or_false] at h1
      rcases h1 with (rfl | ⟨x, -, rfl⟩) | rfl <;> simp [Event.isLate]
  · simp [calls_append, calls_befores, calls_afters, calls, calls_events]
  · simp [handlerCalls_append, handlerCalls_befores, handlerCalls_afters, handlerCalls,
      handlerCalls_events]

/-- The example of C9, amended. -/
theorem C9_sync_statements_witness :
    (∀ x ∈ [] ++ Link.sync "m" 3 [] .undefined ["after"] :: [], x.Ok) ∧
    ∃ n, ∀ m, n ≤ m → ∃ A B,
      (runRoute m (([] ++ Link.sync "m" 3 [] .undefined ["after"] :: []).map Link.mw)
        (.plain [.log "terminal"]) 0 0).log = A ++ ["after"].map Event.log ++ B ∧
      (∀ ev ∈ A, ev.isLate (([] : List Link).length + 1) = false) ∧
      calls B = expectedCalls 0 0 (([] : List Link).length + 1) [] ∧
      handlerCalls B = 1 :=
  ⟨by simp [Link.Ok, Value.truthy],
    C9_sync_statements [] "m" 3 [] .undefined ["after"] [] (.plain [.log "terminal"]) 0 0
      (by simp [Link.Ok, Value.truthy])⟩

theorem seen_seen (o : Settled) : o.seen.seen = o.seen := by
  cases o with
  | fulfilled => simp [seen_fulfilled]
  | rejected e =>
    by_cases he : e.truthy = true
    · simp [seen_rejected he]
    · have : Settled.seen (.rejected e) = .fulfilled := by
        simp [Settled.seen, Settled.value, Value.outcome, he]
      simp [this, seen_fulfilled]

theorem linksOutcome_sync (l : Link) (ls : List Link) (hs : ∀ x ∈ l :: ls, x.IsSync)
    (o : Settled) : linksOutcome (l :: ls) o = o.seen := by
  induction ls generalizing l with
  | nil =>
    cases l with
    | sync => rfl
    | async => exact absurd (hs _ (List.mem_cons_self _ _)) (by simp [Link.IsSync])
  | cons l2 ls ih =>
    have h2 := ih l2 (fun x hx => hs x (List.mem_cons_of_mem _ hx))
    cases l with
    | sync =>
      show (linksOutcome (l2 :: ls) o).seen = o.seen
      rw [h2, seen_seen]
    | async => exact absurd (hs _ (List.mem_cons_self _ _)) (by simp [Link.IsSync])

/-- What the code does in the situation of C6: behind synchronous-style middleware, what
the handler throws or rejects with reaches the route function only when it is truthy. -/
theorem sync_chain_handler (l : Link) (ls : List Link) (h : Handler) (req res : Nat)
    (hok : ∀ x ∈ l :: ls, x.Ok ∧ x.IsSync) :
    ∃ n, ∀ m, n ≤ m →
      (runRoute m ((l :: ls).map Link.mw) h req res).routePromise.status =
        h.outcome.seen.status ∧
      handlerCalls (runRoute m ((l :: ls).map Link.mw) h req res).log = 1 := by
  have hre := route_handler (l :: ls) (by simp) (fun x hx => (hok x hx).1) h req res
  rw [linksOutcome_sync l ls (fun x hx => (hok x hx).2)] at hre
  obtain ⟨n, hfin⟩ := hre.final
  refine ⟨n, fun m hm => ⟨(hfin m hm).2.2, ?_⟩⟩
  rw [(hfin m hm).2.1]
  exact handlerCalls_route req res _ h _

/-- What the code does in the situation of C5, for a truthy error `e` of the handler behind
middleware that do not catch: the `await next()` of the first, asynchronous-style middleware
rejects with `e`; with `catch` the middleware goes on and the route function settles as the
middleware does, without it the route function rejects with `e`. -/
theorem downstream_error_truthy (name : String) (len : Nat) (pre : List AsyncStmt)
    (catches : Bool) (u : Value) (post : List AsyncStmt) (mids : List Link) (h : Handler)
    (req res : Nat) (e : Value)
    (hj : (Link.async name len pre catches u post).Ok)
    (hmids : ∀ x ∈ mids, x.Ok ∧ x.Rethrows) (hh : h.outcome = .rejected e)
    (he : e.truthy = true) :
    ∃ n, ∀ m, n ≤ m →
      (catches = true →
        Event.caught 1 e ∈
          (runRoute m ((Link.async name len pre catches u post :: mids).map Link.mw)
            h req res).log ∧
        (runRoute m ((Link.async name len pre catches u post :: mids).map Link.mw)
          h req res).routePromise.status = (tailOutcome post).status) ∧
      (catches = false →
        (runRoute m ((Link.async name len pre catches u post :: mids).map Link.mw)
          h req res).routePromise.status = .rejected e) := by
  have hre := route_handler (Link.async name len pre catches u post :: mids) (by simp) (by
    intro x hx
    rcases List.mem_cons.1 hx with rfl | h1
    · exact hj
    · exact (hmids x h1).1) h req res
  have ho := linksOutcome_rethrows mids (fun x hx => (hmids x hx).2) he
  obtain ⟨n, hfin⟩ := hre.final
  refine ⟨n, fun m hm => ⟨fun hc => ?_, fun hc => ?_⟩⟩
  · subst hc
    refine ⟨?_, ?_⟩
    · rw [(hfin m hm).2.1]
      simp [afters, hh, ho, Link.after, seen_rejected he, resumeLog]
    · rw [(hfin m hm).2.2]
      simp [linksOutcome, hh, ho, Link.out, seen_rejected he, resumeOutcome]
  · subst hc
    rw [(hfin m hm).2.2]
    simp [linksOutcome, hh, ho, Link.out, seen_rejected he, resumeOutcome, Settled.status]

/-! ## Counterexamples and the code at failing inputs -/

/-- C2, counterexample: `0` is not `null`, yet a middleware that calls `next(0)` is taken to
have succeeded: the next middleware and the handler are called and the promise of the route
function is fulfilled. And behind a middleware that catches what its awaited continuation
rejects with, a middleware that calls `next("boom")` stops the chain, but the promise of the
route function is fulfilled, not rejected with `"boom"`. -/
theorem C2_counterexample :
    (Value.num 0 ≠ Value.null) ∧
    (runRoute 20 [⟨"m", 3, .plain [.next (.num 0)]⟩, ⟨"late", 3, .plain [.next .undefined]⟩]
        (.plain [.log "terminal"]) 0 0).log =
      [.mwCalled 1 "m" 0 0, .nextCalled 1 (.num 0), .mwCalled 2 "late" 0 0,
        .nextCalled 2 .null, .handlerCalled 0 0, .log "terminal"] ∧
    (runRoute 20 [⟨"m", 3, .plain [.next (.num 0)]⟩, ⟨"late", 3, .plain [.next .undefined]⟩]
        (.plain [.log "terminal"]) 0 0).routePromise.status = .fulfilled ∧
    (runRoute 20 [⟨"guard", 3, .async [.tryAwaitNext .undefined]⟩,
        ⟨"m", 3, .plain [.next (.str "boom")]⟩, ⟨"late", 3, .plain [.next .undefined]⟩]
        (.plain [.log "terminal"]) 0 0).log =
      [.mwCalled 1 "guard" 0 0, .nextCalled 1 .null, .mwCalled 2 "m" 0 0,
        .nextCalled 2 (.str "boom"), .caught 1 (.str "boom")] ∧
    (runRoute 20 [⟨"guard", 3, .async [.tryAwaitNext .undefined]⟩,
        ⟨"m", 3, .plain [.next (.str "boom")]⟩, ⟨"late", 3, .plain [.next .undefined]⟩]
        (.plain [.log "terminal"]) 0 0).queue = [] ∧
    (runRoute 20 [⟨"guard", 3, .async [.tryAwaitNext .undefined]⟩,
        ⟨"m", 3, .plain [.next (.str "boom")]⟩, ⟨"late", 3, .plain [.next .undefined]⟩]
        (.plain [.log "terminal"]) 0 0).routePromise.status = .fulfilled := by
  decide

/-- C3, counterexample: an `async` middleware that awaits its continuation and then throws
`"v"` rejects after having invoked its continuation; the next middleware and the handler
have been called all the same. Behind a middleware that catches what its awaited
continuation rejects with, an `async` middleware that throws `"v"` without calling its
continuation leaves the promise of the route function fulfilled. An `async` middleware that
calls its continuation without awaiting it and throws `"v"` two `await`s later, or one
`await` later when it had awaited before the call, rejects after the next middleware and the
handler were called. -/
theorem C3_counterexample :
    (runRoute 20 [⟨"m", 3, .async [.awaitNext .undefined, .throw (.str "v")]⟩,
        ⟨"late", 3, .plain [.next .undefined]⟩] (.plain [.log "terminal"]) 0 0).log =
      [.mwCalled 1 "m" 0 0, .nextCalled 1 .null, .mwCalled 2 "late" 0 0,
        .nextCalled 2 .null, .handlerCalled 0 0, .log "terminal"] ∧
    (runRoute 20 [⟨"m", 3, .async [.awaitNext .undefined, .throw (.str "v")]⟩,
        ⟨"late", 3, .plain [.next .undefined]⟩] (.plain [.log "terminal"]) 0 0).routePromise.status =
      .rejected (.str "v") ∧
    (runRoute 20 [⟨"guard", 3, .async [.tryAwaitNext .undefined]⟩,
        ⟨"m", 3, .async [.throw (.str "v")]⟩, ⟨"late", 3, .plain [.next .undefined]⟩]
        (.plain [.log "terminal"]) 0 0).queue = [] ∧
    (runRoute 20 [⟨"guard", 3, .async [.tryAwaitNext .undefined]⟩,
        ⟨"m", 3, .async [.throw (.str "v")]⟩, ⟨"late", 3, .plain [.next .undefined]⟩]
        (.plain [.log "terminal"]) 0 0).routePromise.status = .fulfilled ∧
    (runRoute 20 [⟨"m", 3, .async [.next .undefined, .awaitTick, .awaitTick, .throw (.str "v")]⟩,
        ⟨"late", 3, .plain [.next .undefined]⟩] (.plain [.log "terminal"]) 0 0).log =
      [.mwCalled 1 "m" 0 0, .nextCalled 1 .null, .mwCalled 2 "late" 0 0,
        .nextCalled 2 .null, .handlerCalled 0 0, .log "terminal"] ∧
    (runRoute 20 [⟨"m", 3, .async [.awaitTick, .next .undefined, .awaitTick, .throw (.str "v")]⟩,
        ⟨"late", 3, .plain [.next .undefined]⟩] (.plain [.log "terminal"]) 0 0).log =
      [.mwCalled 1 "m" 0 0, .nextCalled 1 .null, .mwCalled 2 "late" 0 0,
        .nextCalled 2 .null, .handlerCalled 0 0, .log "terminal"] := by
  decide

/-- What the code does when the throw of the continuation does not reach `run()`: a plain
middleware has `next("boom")` called from a later callback, or an `async` middleware calls
`next("boom")` inside its own `try`/`catch`. The continuation resolved `cleanupPromise`
before it threw, so `run()` goes on: the next middleware and the handler are called and the
promise of the route function is fulfilled, where the comments of the continuation say
"Look for errors from synchronous middleware" and "Throw errors to be caught in the
try/catch block". -/
theorem next_error_outside_run :
    (runRoute 20 [⟨"m", 3, .plain [.defer (.str "boom")]⟩,
        ⟨"late", 3, .plain [.next .undefined]⟩] (.plain [.log "terminal"]) 0 0).log =
      [.mwCalled 1 "m" 0 0, .nextCalled 1 (.str "boom"), .mwCalled 2 "late" 0 0,
        .nextCalled 2 .null, .handlerCalled 0 0, .log "terminal"] ∧
    (runRoute 20 [⟨"m", 3, .plain [.defer (.str "boom")]⟩,
        ⟨"late", 3, .plain [.next .undefined]⟩] (.plain [.log "terminal"]) 0 0).queue = [] ∧
    (runRoute 20 [⟨"m", 3, .plain [.defer (.str "boom")]⟩,
        ⟨"late", 3, .plain [.next .undefined]⟩]
        (.plain [.log "terminal"]) 0 0).routePromise.status = .fulfilled ∧
    (runRoute 20 [⟨"m", 3, .async [.tryAwaitNext (.str "boom")]⟩,
        ⟨"late", 3, .plain [.next .undefined]⟩] (.plain [.log "terminal"]) 0 0).log =
      [.mwCalled 1 "m" 0 0, .nextCalled 1 (.str "boom"), .caught 1 (.str "boom"),
        .mwCalled 2 "late" 0 0, .nextCalled 2 .null, .handlerCalled 0 0, .log "terminal"] ∧
    (runRoute 20 [⟨"m", 3, .async [.tryAwaitNext (.str "boom")]⟩,
        ⟨"late", 3, .plain [.next .undefined]⟩]
        (.plain [.log "terminal"]) 0 0).routePromise.status = .fulfilled := by
  decide

/-- What the code does with the falsy value `0` that an `async` middleware rejects with
before it called its continuation: at position 1 the promise of the route function rejects
with `0`; behind another middleware the executor of that middleware gets `0` in
`finish(error)`, whose test `if (error)` takes it for no error, and the promise of the route
function is fulfilled. -/
theorem falsy_rejection_behind_link :
    (runRoute 20 [⟨"first", 3, .plain [.next .undefined]⟩, ⟨"m", 3, .async [.throw (.num 0)]⟩,
        ⟨"late", 3, .plain [.next .undefined]⟩] (.plain [.log "terminal"]) 0 0).log =
      [.mwCalled 1 "first" 0 0, .nextCalled 1 .null, .mwCalled 2 "m" 0 0] ∧
    (runRoute 20 [⟨"first", 3, .plain [.next .undefined]⟩, ⟨"m", 3, .async [.throw (.num 0)]⟩,
        ⟨"late", 3, .plain [.next .undefined]⟩] (.plain [.log "terminal"]) 0 0).queue = [] ∧
    (runRoute 20 [⟨"first", 3, .plain [.next .undefined]⟩, ⟨"m", 3, .async [.throw (.num 0)]⟩,
        ⟨"late", 3, .plain [.next .undefined]⟩]
        (.plain [.log "terminal"]) 0 0).routePromise.status = .fulfilled ∧
    (runRoute 20 [⟨"m", 3, .async [.throw (.num 0)]⟩,
        ⟨"late", 3, .plain [.next .undefined]⟩]
        (.plain [.log "terminal"]) 0 0).routePromise.status = .rejected (.num 0) := by
  decide

/-- C9, counterexample: the statement `log "after"` that a plain middleware runs after its
continuation call runs before the handler is called. -/
theorem C9_counterexample :
    (runRoute 20 [⟨"m", 3, .plain [.next .undefined, .log "after"]⟩]
        (.plain [.log "terminal"]) 0 0).log =
      [.mwCalled 1 "m" 0 0, .nextCalled 1 .null, .log "after", .handlerCalled 0 0,
        .log "terminal"] := by
  decide

/-- C5, the code at a failing input: the handler rejects with `0`. The `await next()` of an
`async` middleware with `catch` does not reject (no `caught` event, the statement after it
runs), and without `catch` the promise of the route function is fulfilled, not rejected. -/
theorem C5_falsy_error_not_delivered :
    (runRoute 20 [⟨"j", 3, .async [.tryAwaitNext .undefined, .log "after"]⟩]
        (.async [.throw (.num 0)]) 0 0).log =
      [.mwCalled 1 "j" 0 0, .nextCalled 1 .null, .handlerCalled 0 0, .log "after"] ∧
    (runRoute 20 [⟨"j", 3, .async [.awaitNext .undefined, .log "after"]⟩]
        (.async [.throw (.num 0)]) 0 0).queue = [] ∧
    (runRoute 20 [⟨"j", 3, .async [.awaitNext .undefined, .log "after"]⟩]
        (.async [.throw (.num 0)]) 0 0).routePromise.status = .fulfilled := by
  decide

/-- C6, the code at a failing input: behind one synchronous middleware the handler rejects
with `undefined`; it was called once, and the promise of the route function is fulfilled,
not rejected. -/
theorem C6_falsy_rejection_resolves :
    (runRoute 20 [⟨"m", 3, .plain [.next .undefined]⟩] (.async [.throw .undefined]) 0 0).log =
      [.mwCalled 1 "m" 0 0, .nextCalled 1 .null, .handlerCalled 0 0] ∧
    (runRoute 20 [⟨"m", 3, .plain [.next .undefined]⟩] (.async [.throw .undefined]) 0 0).queue =
      [] ∧
    (runRoute 20 [⟨"m", 3, .plain [.next .undefined]⟩]
      (.async [.throw .undefined]) 0 0).routePromise.status = .fulfilled := by
  decide

/-- C7, the code at a failing input: an `async` middleware that resolves without calling its
continuation. After one job `internalPromise` is fulfilled, and from then on the queue is
empty while the promise returned by `run()` and the promise of the route function are
pending: they never settle. -/
theorem C7_run_never_settles (h : Handler) (req res n : Nat) :
    ((runRoute (n + 1) [⟨"deny", 3, .async [.log "denied"]⟩] h req res).nodes
      1).internalPromise.status = .fulfilled ∧
    ((runRoute (n + 1) [⟨"deny", 3, .async [.log "denied"]⟩] h req res).nodes
      1).runPromise.status = .pending ∧
    (runRoute (n + 1) [⟨"deny", 3, .async [.log "denied"]⟩] h req res).routePromise.status =
      .pending ∧
    (runRoute (n + 1) [⟨"deny", 3, .async [.log "denied"]⟩] h req res).queue = [] := by
  have h1 : (runRoute 1 [⟨"deny", 3, .async [.log "denied"]⟩] h req res).queue = [] := by
    simp [runRoute, runJobs, step, makeMiddlewareExecutor, Executor.new, State.init,
      Executor.run, State.setNode, State.emit, runAsync, State.resolve, State.getP, State.setP,
      State.enqueue, controlledPromise, ControlledPromise.resolve, Executor.afterCall,
      State.subscribe, ControlledPromise.subscribe, runJob, runReaction, Executor.succeed]
  have hst : runRoute (n + 1) [⟨"deny", 3, .async [.log "denied"]⟩] h req res =
      runRoute 1 [⟨"deny", 3, .async [.log "denied"]⟩] h req res :=
    runJobs_stable h1 (n + 1) (by omega)
  rw [hst]
  simp [runRoute, runJobs, step, makeMiddlewareExecutor, Executor.new, State.init,
      Executor.run, State.setNode, State.emit, runAsync, State.resolve, State.getP, State.setP,
      State.enqueue, controlledPromise, ControlledPromise.resolve, Executor.afterCall,
      State.subscribe, ControlledPromise.subscribe, runJob, runReaction, Executor.succeed]

theorem empty_chain_ends (h : Handler) (req res : Nat) :
    RouteEnds [] h req res [] (.rejected typeErrorName) := by
  refine ⟨2, ?_⟩
  simp [runRoute, runJobs, step, makeMiddlewareExecutor, Executor.new, State.init,
      Executor.run, State.setNode, State.reject, State.getP, State.setP,
      State.enqueue, controlledPromise, ControlledPromise.reject, Executor.fail,
      Executor.returnInternal, State.subscribe, ControlledPromise.subscribe, runJob,
      runReaction, Settled.status]

/-- C8, the code at the failing input: `use()` accepts no middleware and hands
`makeMiddlewareExecutor` the empty list; then, whatever the handler, at no moment is there
any event, so the handler is never called, and after three jobs the promise of the route
function is rejected with the `TypeError` of reading `this.currentFn.name`. -/
theorem C8_empty_chain_rejects (h : Handler) (req res n : Nat) :
    use [] = .ok [] ∧
    (runRoute n [] h req res).log = [] ∧
    (runRoute (n + 3) [] h req res).routePromise.status = .rejected typeErrorName := by
  have hre := empty_chain_ends h req res
  refine ⟨rfl, ?_, ?_⟩
  · obtain ⟨l, hl⟩ := (hre.always n).1
    exact (List.append_eq_nil.1 hl.symm).1
  · have h3 : (runRoute 3 [] h req res).queue = [] ∧
        (runRoute 3 [] h req res).routePromise.status = .rejected typeErrorName := by
      simp [runRoute, runJobs, step, makeMiddlewareExecutor, Executor.new, State.init,
        Executor.run, State.setNode, State.reject, State.getP, State.setP,
        State.enqueue, controlledPromise, ControlledPromise.reject, Executor.fail,
        Executor.returnInternal, State.subscribe, ControlledPromise.subscribe, runJob,
        runReaction]
    have hst : runRoute (n + 3) [] h req res = runRoute 3 [] h req res :=
      runJobs_stable h3.1 (n + 3) (by omega)
    rw [hst]
    exact h3.2

/-! ## The function `use` -/

/-- C10: `use` hands `makeMiddlewareExecutor` the one-level flattening of its arguments,
in order, and throws `Error("Invalid middleware")`, creating no executor, exactly when
an element of that list is not a function with three declared parameters. -/
theorem C10_use (args : List Arg) (a b c d : Middleware) :
    (∀ fns, use args = .ok fns → fns = flat args) ∧
    (use args = .error invalidMiddleware ↔
      ∃ x ∈ flat args, ¬ ∃ f, x = Arg.fn f ∧ f.length = 3) ∧
    (use args = .ok (flat args) ↔ ∀ x ∈ flat args, ∃ f, x = Arg.fn f ∧ f.length = 3) ∧
    (∀ e, use args = .error e → e = invalidMiddleware) ∧
    flat [.fn a, .array [.fn b, .fn c], .fn d] = [.fn a, .fn b, .fn c, .fn d] := by
  rw [use_eq]
  by_cases h : (flat args).all Arg.valid = true
  · have h2 : ∀ x ∈ flat args, ∃ f, x = Arg.fn f ∧ f.length = 3 := by
      intro x hx
      exact (Arg.valid_iff x).1 (List.all_eq_true.1 h x hx)
    rw [if_pos h]
    refine ⟨?_, ⟨?_, ?_⟩, ⟨fun _ => h2, fun _ => rfl⟩, ?_, rfl⟩
    · intro fns hf
      cases hf
      rfl
    · intro hf
      cases hf
    · rintro ⟨x, hx, hnx⟩
      exact absurd (h2 x hx) hnx
    · intro e he
      cases he
  · have h2 : ∃ x ∈ flat args, ¬ ∃ f, x = Arg.fn f ∧ f.length = 3 := by
      simp only [List.all_eq_true, not_forall] at h
      obtain ⟨x, hx, hnx⟩ := h
      exact ⟨x, hx, fun hf => hnx ((Arg.valid_iff x).2 hf)⟩
    rw [if_neg h]
    refine ⟨?_, ⟨fun _ => h2, fun _ => rfl⟩, ⟨?_, ?_⟩, ?_, rfl⟩
    · intro fns hf
      cases hf
    · intro hf
      cases hf
    · intro hall
      obtain ⟨x, hx, hnx⟩ := h2
      exact absurd (hall x hx) hnx
    · intro e he
      cases he
      rfl

/-- The example of C10: `use(a, [b, c], d)` with four valid middleware. -/
theorem C10_use_witness :
    use [.fn ⟨"a", 3, .plain []⟩, .array [.fn ⟨"b", 3, .plain []⟩, .fn ⟨"c", 3, .async []⟩],
        .fn ⟨"d", 3, .plain []⟩] =
      .ok [.fn ⟨"a", 3, .plain []⟩, .fn ⟨"b", 3, .plain []⟩, .fn ⟨"c", 3, .async []⟩,
        .fn ⟨"d", 3, .plain []⟩] :=
  (C10_use [.fn ⟨"a", 3, .plain []⟩, .array [.fn ⟨"b", 3, .plain []⟩, .fn ⟨"c", 3, .async []⟩],
        .fn ⟨"d", 3, .plain []⟩] ⟨"a", 3, .plain []⟩ ⟨"a", 3, .plain []⟩ ⟨"a", 3, .plain []⟩
        ⟨"a", 3, .plain []⟩).2.2.1.2 (by simp [flat])

/-! ## The function `label` -/

theorem mem_flat_of_mem {l : List Arg} {x : Arg} (hx : x ∈ l) :
    (∀ items, x = .array items → ∀ y ∈ items, y ∈ flat l) ∧
    ((∀ items, x ≠ .array items) → x ∈ flat l) := by
  induction l with
  | nil => cases hx
  | cons a rest ih =>
    rcases List.mem_cons.1 hx with rfl | h
    · constructor
      · intro items hi y hy
        subst hi
        simp [flat, hy]
      · intro hna
        cases x with
        | fn f => simp [flat]
        | array items => exact absurd rfl (hna items)
        | other v => simp [flat]
        | object d => simp [flat]
    · obtain ⟨h1, h2⟩ := ih h
      constructor
      · intro items hi y hy
        have := h1 items hi y hy
        cases a <;> simp [flat, this]
      · intro hna
        have := h2 hna
        cases a <;> simp [flat, this]

theorem lookup_mem_values {R : Registry} {s : String} {v : Arg}
    (h : R.own.lookup s = some v) : v ∈ R.values := by
  unfold Registry.values
  have : ∀ (l : List (String × Arg)), l.lookup s = some v → v ∈ l.map Prod.snd := by
    intro l
    induction l with
    | nil => intro h; simp at h
    | cons p rest ih =>
      intro h
      obtain ⟨k, w⟩ := p
      rw [List.lookup_cons] at h
      cases hk : (s == k) with
      | true =>
        rw [hk] at h
        simp at h
        simp [h]
      | false =>
        rw [hk] at h
        simp at h
        simp [ih h]
  exact this _ h

theorem get_own {R : Registry} {s : String} {v : Arg} (h : R.own.lookup s = some v) :
    R.get s = v := by
  simp [Registry.get, h]

theorem get_none {R : Registry} {s : String} (h1 : R.own.lookup s = none)
    (h2 : R.inherited.lookup s = none) : R.get s = .other .undefined := by
  simp [Registry.get, h1, h2]

/-- In a registry whose values passed the check of `label`, an entry is a valid
middleware or an array of valid middleware. -/
theorem own_entry {R : Registry} (hR : ∀ v ∈ flat R.values, v.valid = true) {s : String}
    {v : Arg} (h : R.own.lookup s = some v) :
    (∃ items, v = .array items ∧ ∀ x ∈ items, x.valid = true) ∨
    ((∀ items, v ≠ .array items) ∧ v.valid = true) := by
  obtain ⟨h1, h2⟩ := mem_flat_of_mem (lookup_mem_values h)
  cases v with
  | array items => exact Or.inl ⟨items, rfl, fun x hx => hR x (h1 items rfl x hx)⟩
  | fn f => exact Or.inr ⟨by simp, hR _ (h2 (by simp))⟩
  | other w => exact Or.inr ⟨by simp, hR _ (h2 (by simp))⟩
  | object d => exact Or.inr ⟨by simp, hR _ (h2 (by simp))⟩

theorem loadChoices_name {R : Registry} (hR : ∀ v ∈ flat R.values, v.valid = true)
    {s : String} {v : Arg} (h : R.own.lookup s = some v) (rest acc : List Arg) :
    loadChoices R (.other (.str s) :: rest) acc =
      loadChoices R rest (acc ++ expansion R (.other (.str s))) := by
  rcases own_entry hR h with ⟨items, rfl, -⟩ | ⟨hna, hv⟩
  · simp [loadChoices, get_own h, Arg.truthy, expansion, h]
  · obtain ⟨f, rfl, -⟩ := (Arg.valid_iff v).1 hv
    simp [loadChoices, get_own h, Arg.truthy, expansion, h]

theorem loadChoices_array (R : Registry) {items : List Arg}
    (h : ∀ x ∈ items, x.valid = true) (rest acc : List Arg) :
    loadChoices R (.array items :: rest) acc = loadChoices R rest (acc ++ items) := by
  have : items.all Arg.valid = true := List.all_eq_true.2 h
  simp [loadChoices, isValidMiddlewareArray_eq, this]

theorem loadChoices_fn (R : Registry) {f : Middleware} (h : (Arg.fn f).valid = true)
    (rest acc : List Arg) :
    loadChoices R (.fn f :: rest) acc = loadChoices R rest (acc ++ [.fn f]) := by
  simp [loadChoices, isValidMiddleware, h]

theorem loadChoices_resolves {R : Registry} (hR : ∀ v ∈ flat R.values, v.valid = true) :
    ∀ (cs acc : List Arg), (∀ c ∈ cs, IsChoice c) →
      (∀ s, Arg.other (.str s) ∈ cs → ∃ v, R.own.lookup s = some v) →
      loadChoices R cs acc = .ok (acc ++ expansions R cs) := by
  intro cs
  induction cs with
  | nil => intro acc _ _; simp [loadChoices, expansions]
  | cons c cs ih =>
    intro acc hch hn
    have ih2 := fun acc => ih acc (fun c hc => hch c (List.mem_cons_of_mem _ hc))
      (fun s hs => hn s (List.mem_cons_of_mem _ hs))
    have hc := hch c (List.mem_cons_self _ _)
    cases c with
    | fn f => rw [loadChoices_fn R hc, ih2]; simp [expansions, expansion]
    | array items => rw [loadChoices_array R hc, ih2]; simp [expansions, expansion]
    | other w =>
      cases w with
      | str s =>
        obtain ⟨v, hv⟩ := hn s (List.mem_cons_self _ _)
        rw [loadChoices_name hR hv, ih2]
        simp [expansions]
      | undefined => simp [IsChoice, Arg.valid] at hc
      | null => simp [IsChoice, Arg.valid] at hc
      | bool b => simp [IsChoice, Arg.valid] at hc
      | num n => simp [IsChoice, Arg.valid] at hc
      | errorObj a b => simp [IsChoice, Arg.valid] at hc
    | object d => simp [IsChoice, Arg.valid] at hc

theorem loadChoices_missing {R : Registry} (hR : ∀ v ∈ flat R.values, v.valid = true)
    {s : String} (h1 : R.own.lookup s = none) (h2 : R.inherited.lookup s = none)
    (post : List Arg) :
    ∀ (pre acc : List Arg), (∀ c ∈ pre, IsChoice c) →
      (∀ t, Arg.other (.str t) ∈ pre → ∃ v, R.own.lookup t = some v) →
      loadChoices R (pre ++ .other (.str s) :: post) acc = .error (notAvailable s) := by
  intro pre
  induction pre with
  | nil => intro acc _ _; simp [loadChoices, get_none h1 h2, Arg.truthy, Value.truthy]
  | cons c cs ih =>
    intro acc hch hn
    have ih2 := fun acc => ih acc (fun c hc => hch c (List.mem_cons_of_mem _ hc))
      (fun s hs => hn s (List.mem_cons_of_mem _ hs))
    have hc := hch c (List.mem_cons_self _ _)
    rw [List.cons_append]
    cases c with
    | fn f => rw [loadChoices_fn R hc, ih2]
    | array items => rw [loadChoices_array R hc, ih2]
    | other w =>
      cases w with
      | str t =>
        obtain ⟨v, hv⟩ := hn t (List.mem_cons_self _ _)
        rw [loadChoices_name hR hv, ih2]
      | undefined => simp [IsChoice, Arg.valid] at hc
      | null => simp [IsChoice, Arg.valid] at hc
      | bool b => simp [IsChoice, Arg.valid] at hc
      | num n => simp [IsChoice, Arg.valid] at hc
      | errorObj a b => simp [IsChoice, Arg.valid] at hc
    | object d => simp [IsChoice, Arg.valid] at hc

theorem label_ok_iff (R : Registry) (D : List Arg) :
    (label R D = .ok (curryMiddlewareChoices R D) ↔ ∀ v ∈ flat R.values, v.valid = true) ∧
    ((∃ e, label R D = .error e) ↔ ¬ ∀ v ∈ flat R.values, v.valid = true) := by
  unfold label
  rw [isValidMiddlewareArray_eq]
  by_cases h : (flat R.values).all Arg.valid = true
  · have h2 := List.all_eq_true.1 h
    simp only [h, ↓reduceIte, true_iff, reduceCtorEq, exists_false, false_iff, not_not]
    exact ⟨h2, h2⟩
  · have h2 : ¬ ∀ v ∈ flat R.values, v.valid = true := fun hh => h (List.all_eq_true.2 hh)
    simp [h, h2]

theorem labelled_eq {R : Registry} (hR : ∀ v ∈ flat R.values, v.valid = true)
    (D C : List Arg) : labelled R D C = loadChoices R (D ++ C) [] := by
  unfold labelled label
  rw [isValidMiddlewareArray_eq, if_pos (List.all_eq_true.2 hR)]
  rfl

/-- What the code does in the situation of C12 when no name among the choices is the name
of an inherited property: the choices are resolved as the claim says. -/
theorem label_resolves (R : Registry) (D C : List Arg)
    (hR : ∀ v ∈ flat R.values, v.valid = true) (hch : ∀ c ∈ D ++ C, IsChoice c) :
    ((∀ s, Arg.other (.str s) ∈ D ++ C → ∃ v, R.own.lookup s = some v) →
      labelled R D C = .ok (expansions R (D ++ C))) ∧
    (∀ pre s post, D ++ C = pre ++ .other (.str s) :: post →
      (∀ t, Arg.other (.str t) ∈ pre → ∃ v, R.own.lookup t = some v) →
      R.own.lookup s = none → R.inherited.lookup s = none →
      labelled R D C = .error (notAvailable s)) := by
  rw [labelled_eq hR]
  refine ⟨fun hn => ?_, fun pre s post hsplit hn h1 h2 => ?_⟩
  · simpa using loadChoices_resolves hR (D ++ C) [] hch hn
  · rw [hsplit]
    refine loadChoices_missing hR h1 h2 post pre [] (fun c hc => hch c ?_) hn
    rw [hsplit]
    exact List.mem_append_left _ hc

theorem loadChoices_valid {R : Registry} (hR : ∀ v ∈ flat R.values, v.valid = true)
    (hin : ∀ s v, R.inherited.lookup s = some v → v.truthy = false) :
    ∀ (cs acc fns : List Arg), (∀ x ∈ acc, x.valid = true) →
      loadChoices R cs acc = .ok fns → ∀ x ∈ fns, x.valid = true := by
  intro cs
  induction cs with
  | nil =>
    intro acc fns hacc h
    simp only [loadChoices, Except.ok.injEq] at h
    subst h
    exact hacc
  | cons c cs ih =>
    intro acc fns hacc h
    cases c with
    | fn f =>
      cases hv : (Arg.fn f).valid with
      | true =>
        rw [loadChoices_fn R hv] at h
        refine ih _ fns (fun x hx => ?_) h
        rcases List.mem_append.1 hx with h1 | h1
        · exact hacc x h1
        · simp only [List.mem_singleton] at h1
          subst h1
          exact hv
      | false => simp [loadChoices, isValidMiddleware, hv] at h
    | array items =>
      by_cases hv : items.all Arg.valid = true
      · rw [loadChoices_array R (List.all_eq_true.1 hv)] at h
        refine ih _ fns (fun x hx => ?_) h
        rcases List.mem_append.1 hx with h1 | h1
        · exact hacc x h1
        · exact List.all_eq_true.1 hv x h1
      · simp [loadChoices, isValidMiddlewareArray_eq, hv] at h
    | other w =>
      cases w with
      | str s =>
        cases ho : R.own.lookup s with
        | some v =>
          rw [loadChoices_name hR ho] at h
          refine ih _ fns (fun x hx => ?_) h
          rcases List.mem_append.1 hx with h1 | h1
          · exact hacc x h1
          · rcases own_entry hR ho with ⟨items, rfl, hi⟩ | ⟨hna, hv⟩
            · simp only [expansion, ho] at h1
              exact hi x h1
            · have : expansion R (.other (.str s)) = [v] := by
                cases v with
                | array items => exact absurd rfl (hna items)
                | fn f => simp [expansion, ho]
                | other u => simp [expansion, ho]
                | object d => simp [expansion, ho]
              rw [this, List.mem_singleton] at h1
              subst h1
              exact hv
        | none =>
          cases hi : R.inherited.lookup s with
          | none => simp [loadChoices, get_none ho hi, Arg.truthy, Value.truthy] at h
          | some v =>
            have := hin s v hi
            simp [loadChoices, Registry.get, ho, hi, this] at h
      | undefined => simp [loadChoices, isValidMiddleware, Arg.valid] at h
      | null => simp [loadChoices, isValidMiddleware, Arg.valid] at h
      | bool b => simp [loadChoices, isValidMiddleware, Arg.valid] at h
      | num n => simp [loadChoices, isValidMiddleware, Arg.valid] at h
      | errorObj a b => simp [loadChoices, isValidMiddleware, Arg.valid] at h
    | object d => simp [loadChoices, isValidMiddleware, Arg.valid] at h

/-- What the code does in the situation of C11 for a registry that inherits nothing
truthy, such as one made by `Object.create(null)`: whatever the defaults and the choices,
`label` throws or hands over valid middleware only. -/
theorem label_valid (R : Registry) (D C fns : List Arg)
    (hin : ∀ s v, R.inherited.lookup s = some v → v.truthy = false)
    (h : labelled R D C = .ok fns) : ∀ x ∈ fns, x.valid = true := by
  by_cases hR : ∀ v ∈ flat R.values, v.valid = true
  · rw [labelled_eq hR] at h
    exact loadChoices_valid hR hin _ [] fns (by simp) h
  · obtain ⟨e, he⟩ := (label_ok_iff R D).2.2 hR
    simp [labelled, he] at h

/-- C11, the code at a failing input: `label({})("toString")` and
`label({ auth }, ["constructor"])("auth")` do not throw. They hand `makeMiddlewareExecutor`
the functions `Object.prototype.toString`, of `length` 0, and `Object`, of `length` 1,
which `isValidMiddleware` does not hold of. -/
theorem C11_inherited_name_handed_over :
    labelled (objectLiteral []) [] [.other (.str "toString")] =
      .ok [.fn ⟨"toString", 0, .plain []⟩] ∧
    isValidMiddleware (.fn ⟨"toString", 0, .plain []⟩) false = .ok false ∧
    labelled (objectLiteral [("auth", .fn ⟨"auth", 3, .plain [.next .undefined]⟩)])
        [.other (.str "constructor")] [.other (.str "auth")] =
      .ok [.fn ⟨"Object", 1, .plain []⟩, .fn ⟨"auth", 3, .plain [.next .undefined]⟩] ∧
    isValidMiddleware (.fn ⟨"Object", 1, .plain []⟩) false = .ok false := by
  refine ⟨rfl, rfl, rfl, rfl⟩

/-- C12, the code at a failing input: the registry `{ auth }` has no entry `valueOf`, yet
`label({ auth })("auth", "valueOf")` does not throw `Middleware "valueOf" not available`; it
hands over `auth` and `Object.prototype.valueOf`. -/
theorem C12_unregistered_name_resolved :
    (objectLiteral [("auth", .fn ⟨"auth", 3, .plain [.next .undefined]⟩)]).own.lookup "valueOf" =
      none ∧
    (∀ v ∈ flat (objectLiteral [("auth", .fn ⟨"auth", 3, .plain [.next .undefined]⟩)]).values,
      v.valid = true) ∧
    labelled (objectLiteral [("auth", .fn ⟨"auth", 3, .plain [.next .undefined]⟩)]) []
        [.other (.str "auth"), .other (.str "valueOf")] =
      .ok [.fn ⟨"auth", 3, .plain [.next .undefined]⟩, .fn ⟨"valueOf", 0, .plain []⟩] := by
  refine ⟨rfl, ?_, rfl⟩
  simp [objectLiteral, Registry.values, flat, Arg.valid]

/-- The name `__proto__`: `label({})("__proto__")` does not throw either; `middleware[choice]`
is `Object.prototype`, an object that is no function, and it is handed over. -/
theorem label_proto :
    labelled (objectLiteral []) [] [.other (.str "__proto__")] =
      .ok [.object "Object.prototype"] ∧
    isValidMiddleware (.object "Object.prototype") false = .ok false := ⟨rfl, rfl⟩

/-- A choice that is an array with a name in the first place makes `label(R)(choice)` throw
`Error("Invalid middleware")`, whatever the registry, the other elements and the other
choices. -/
theorem array_of_names_rejected (R : Registry) (s : String) (names rest : List Arg) :
    labelled R [] (.array (.other (.str s) :: names) :: rest) = .error invalidMiddleware := by
  unfold labelled label
  rw [isValidMiddlewareArray_eq]
  by_cases hR : (flat R.values).all Arg.valid = true
  · simp [hR, curryMiddlewareChoices, loadChoices, isValidMiddlewareArray, isValidMiddleware,
      Arg.valid]
  · simp [hR]

theorem expansions_names_valid {R : Registry} (hR : ∀ v ∈ flat R.values, v.valid = true)
    (names : List String) (hreg : ∀ s ∈ names, ∃ v, R.own.lookup s = some v) :
    ∀ x ∈ expansions R (names.map (fun s => Arg.other (.str s))), x.valid = true := by
  induction names with
  | nil => intro x hx; simp [expansions] at hx
  | cons s names ih =>
    intro x hx
    simp only [List.map_cons, expansions, List.mem_append] at hx
    rcases hx with h1 | h1
    · obtain ⟨v, hv⟩ := hreg s (List.mem_cons_self _ _)
      rcases own_entry hR hv with ⟨items, rfl, hi⟩ | ⟨hna, hval⟩
      · simp only [expansion, hv] at h1
        exact hi x h1
      · obtain ⟨f, rfl, -⟩ := (Arg.valid_iff v).1 hval
        simp only [expansion, hv, List.mem_singleton] at h1
        subst h1
        exact hval
    · exact ih (fun s hs => hreg s (List.mem_cons_of_mem _ hs)) x h1

/-- C17, counterexample: `a` and `b` are registered in `{ a, b }`, whose entries are valid
middleware, yet `label({ a, b })(["a", "b"])` throws `Error("Invalid middleware")`: an array
among the choices has to hold middleware. And `label` itself throws that error for the
registry `{ a: 1 }`, whose entry is no middleware, before any choice is looked at. -/
theorem C17_counterexample :
    (∀ v ∈ flat (objectLiteral [("a", .fn ⟨"a", 3, .plain [.next .undefined]⟩),
        ("b", .fn ⟨"b", 3, .plain [.next .undefined]⟩)]).values, v.valid = true) ∧
    (objectLiteral [("a", .fn ⟨"a", 3, .plain [.next .undefined]⟩),
        ("b", .fn ⟨"b", 3, .plain [.next .undefined]⟩)]).own.lookup "a" =
      some (.fn ⟨"a", 3, .plain [.next .undefined]⟩) ∧
    (objectLiteral [("a", .fn ⟨"a", 3, .plain [.next .undefined]⟩),
        ("b", .fn ⟨"b", 3, .plain [.next .undefined]⟩)]).own.lookup "b" =
      some (.fn ⟨"b", 3, .plain [.next .undefined]⟩) ∧
    labelled (objectLiteral [("a", .fn ⟨"a", 3, .plain [.next .undefined]⟩),
        ("b", .fn ⟨"b", 3, .plain [.next .undefined]⟩)]) []
      [.array [.other (.str "a"), .other (.str "b")]] = .error invalidMiddleware ∧
    label (objectLiteral [("a", .other (.num 1))]) [] = .error invalidMiddleware := by
  refine ⟨?_, rfl, rfl, rfl, rfl⟩
  simp [objectLiteral, Registry.values, flat, Arg.valid]

/-- C17, amended: for a registry whose entries are valid middleware or arrays of them, names
registered in it and given as choices of their own, one string each, are accepted and
resolved to the named middleware in order, all of them valid. Given as one array they make
`label(R)(choice)` throw `Error("Invalid middleware")`, whatever the other choices, unless
the array is empty, which is accepted and stands for no middleware. -/
theorem C17_names_resolved (R : Registry) (names : List String)
    (hR : ∀ v ∈ flat R.values, v.valid = true)
    (hreg : ∀ s ∈ names, ∃ v, R.own.lookup s = some v) :
    labelled R [] (names.map (fun s => Arg.other (.str s))) =
      .ok (expansions R (names.map (fun s => Arg.other (.str s)))) ∧
    (∀ x ∈ expansions R (names.map (fun s => Arg.other (.str s))), x.valid = true) ∧
    (names ≠ [] → ∀ rest, labelled R [] (.array (names.map (fun s => Arg.other (.str s))) :: rest) =
      .error invalidMiddleware) ∧
    (names = [] → labelled R [] [.array (names.map (fun s => Arg.other (.str s)))] = .ok []) := by
  refine ⟨?_, expansions_names_valid hR names hreg, ?_, ?_⟩
  · have := (label_resolves R [] (names.map (fun s => Arg.other (.str s))) hR (by
      intro c hc
      simp only [List.nil_append, List.mem_map] at hc
      obtain ⟨s, -, rfl⟩ := hc
      trivial)).1 (by
      intro s hs
      simp only [List.nil_append, List.mem_map, Arg.other.injEq, Value.str.injEq] at hs
      obtain ⟨t, ht, rfl⟩ := hs
      exact hreg t ht)
    simpa using this
  · intro hne rest
    cases names with
    | nil => exact absurd rfl hne
    | cons s names => exact array_of_names_rejected R s _ rest
  · intro hnil
    subst hnil
    rw [labelled_eq hR]
    rfl

/-- The amended C17 at the registry `{ a, b: [b1, b2] }` and the names `"b"`, `"a"`. -/
theorem C17_names_resolved_witness :
    (∀ v ∈ flat (objectLiteral [("a", .fn ⟨"a", 3, .plain [.next .undefined]⟩),
        ("b", .array [.fn ⟨"b1", 3, .plain [.next .undefined]⟩,
          .fn ⟨"b2", 3, .plain [.next .undefined]⟩])]).values, v.valid = true) ∧
    (∀ s ∈ ["b", "a"], ∃ v, (objectLiteral [("a", .fn ⟨"a", 3, .plain [.next .undefined]⟩),
        ("b", .array [.fn ⟨"b1", 3, .plain [.next .undefined]⟩,
          .fn ⟨"b2", 3, .plain [.next .undefined]⟩])]).own.lookup s = some v) ∧
    labelled (objectLiteral [("a", .fn ⟨"a", 3, .plain [.next .undefined]⟩),
        ("b", .array [.fn ⟨"b1", 3, .plain [.next .undefined]⟩,
          .fn ⟨"b2", 3, .plain [.next .undefined]⟩])]) []
      (["b", "a"].map (fun s => Arg.other (.str s))) =
      .ok (expansions (objectLiteral [("a", .fn ⟨"a", 3, .plain [.next .undefined]⟩),
        ("b", .array [.fn ⟨"b1", 3, .plain [.next .undefined]⟩,
          .fn ⟨"b2", 3, .plain [.next .undefined]⟩])])
        (["b", "a"].map (fun s => Arg.other (.str s)))) ∧
    expansions (objectLiteral [("a", .fn ⟨"a", 3, .plain [.next .undefined]⟩),
        ("b", .array [.fn ⟨"b1", 3, .plain [.next .undefined]⟩,
          .fn ⟨"b2", 3, .plain [.next .undefined]⟩])])
        (["b", "a"].map (fun s => Arg.other (.str s))) =
      [.fn ⟨"b1", 3, .plain [.next .undefined]⟩, .fn ⟨"b2", 3, .plain [.next .undefined]⟩,
        .fn ⟨"a", 3, .plain [.next .undefined]⟩] :=
  ⟨by simp [objectLiteral, Registry.values, flat, Arg.valid],
   (by
     intro s hs
     simp only [List.mem_cons, List.mem_singleton, List.not_mem_nil, or_false] at hs
     rcases hs with rfl | rfl
     · exact ⟨_, rfl⟩
     · exact ⟨_, rfl⟩),
   (C17_names_resolved (objectLiteral [("a", .fn ⟨"a", 3, .plain [.next .undefined]⟩),
        ("b", .array [.fn ⟨"b1", 3, .plain [.next .undefined]⟩,
          .fn ⟨"b2", 3, .plain [.next .undefined]⟩])]) ["b", "a"]
      (by simp [objectLiteral, Registry.values, flat, Arg.valid])
      (by
     intro s hs
     simp only [List.mem_cons, List.mem_singleton, List.not_mem_nil, or_false] at hs
     rcases hs with rfl | rfl
     · exact ⟨_, rfl⟩
     · exact ⟨_, rfl⟩)).1,
   rfl⟩

/-! ## A synchronous middleware that passes an error to its continuation -/

theorem sync_rethrows {l : Link} (h : l.IsSync) : l.Rethrows := by
  cases l with
  | sync => trivial
  | async => exact absurd h (by simp [Link.IsSync])

/-- C14: behind synchronous middleware that called their continuation with no error, a
synchronous middleware at position `k` that calls its continuation with a truthy error `e`
in its own call makes the promise of the route function reject with `e`; the call of the
continuation is the last event of the request, so that no statement after it runs; and at
no moment has the handler or a middleware at a position after `k` been called. -/
theorem C14_sync_next_error (links : List Link) (name : String) (len : Nat)
    (pre : List String) (e : Value) (after : List SyncStmt) (rest : List Middleware)
    (h : Handler) (req res : Nat) (hok : ∀ x ∈ links, x.Ok ∧ x.IsSync)
    (he : e.truthy = true) :
    (∃ n, ∀ m, n ≤ m →
      (runRoute m (links.map Link.mw ++ syncNextErrMw name len pre e after :: rest)
        h req res).routePromise.status = .rejected e ∧
      (runRoute m (links.map Link.mw ++ syncNextErrMw name len pre e after :: rest)
        h req res).queue = [] ∧
      (runRoute m (links.map Link.mw ++ syncNextErrMw name len pre e after :: rest)
        h req res).log =
        befores req res 0 links ++ (.mwCalled (links.length + 1) name req res ::
          pre.map Event.log ++ [.nextCalled (links.length + 1) e])) ∧
    ∀ m,
      (∃ l, befores req res 0 links ++ (.mwCalled (links.length + 1) name req res ::
          pre.map Event.log ++ [.nextCalled (links.length + 1) e]) =
        (runRoute m (links.map Link.mw ++ syncNextErrMw name len pre e after :: rest)
          h req res).log ++ l) ∧
      handlerCalls (runRoute m (links.map Link.mw ++ syncNextErrMw name len pre e after :: rest)
        h req res).log = 0 ∧
      ∀ ev ∈ (runRoute m (links.map Link.mw ++ syncNextErrMw name len pre e after :: rest)
        h req res).log, ev.isLate (links.length + 1) = false := by
  obtain ⟨hre, hnever⟩ := failing_chain links (.syncNext name len pre e after) rest h req res
    (fun x hx => ⟨(hok x hx).1, sync_rethrows (hok x hx).2⟩) he he
  have hL : befores req res 0 links ++
      (Failing.syncNext name len pre e after).before req res (links.length + 1) =
      befores req res 0 links ++ (.mwCalled (links.length + 1) name req res ::
          pre.map Event.log ++ [.nextCalled (links.length + 1) e]) := by
    simp [Failing.before, Failing.descr, Failing.callsNext, Failing.error]
  rw [hL] at hre
  simp only [Failing.mw] at hre hnever
  refine ⟨?_, fun m => ⟨(hre.always m).1, ?_, hnever m⟩⟩
  · obtain ⟨n, hfin⟩ := hre.final
    exact ⟨n, fun m hm => ⟨(hfin m hm).2.2, (hfin m hm).1, (hfin m hm).2.1⟩⟩
  · obtain ⟨l, hl⟩ := (hre.always m).1
    have := congrArg handlerCalls hl
    simp only [handlerCalls_append, handlerCalls_befores, handlerCalls, List.cons_append,
      handlerCalls_logs] at this
    omega

/-- The scenario of C14: one synchronous middleware that calls its continuation with
`"boom"`. -/
theorem C14_sync_next_error_witness :
    (∀ x ∈ ([] : List Link), x.Ok ∧ x.IsSync) ∧ (Value.str "boom").truthy = true ∧
    (∃ n, ∀ m, n ≤ m →
      (runRoute m (([] : List Link).map Link.mw ++
          syncNextErrMw "mwA" 3 [] (.str "boom") [.log "unreached"] :: [])
        (.plain [.log "terminal"]) 0 0).routePromise.status = .rejected (.str "boom") ∧
      (runRoute m (([] : List Link).map Link.mw ++
          syncNextErrMw "mwA" 3 [] (.str "boom") [.log "unreached"] :: [])
        (.plain [.log "terminal"]) 0 0).queue = [] ∧
      (runRoute m (([] : List Link).map Link.mw ++
          syncNextErrMw "mwA" 3 [] (.str "boom") [.log "unreached"] :: [])
        (.plain [.log "terminal"]) 0 0).log =
        befores 0 0 0 [] ++ (.mwCalled (([] : List Link).length + 1) "mwA" 0 0 ::
          ([] : List String).map Event.log ++
            [.nextCalled (([] : List Link).length + 1) (.str "boom")])) :=
  ⟨by simp, rfl,
    (C14_sync_next_error [] "mwA" 3 [] (.str "boom") [.log "unreached"] []
      (.plain [.log "terminal"]) 0 0 (by simp) rfl).1⟩

/-! ## A plain middleware that returns the value of its continuation call -/

theorem returnNextMw_runs (name : String) (len : Nat) (pre : List String) (u : Value)
    (rest : List SyncStmt) (hu : u.truthy = false) (ms : List Middleware) (h : Handler)
    (req res : Nat) (prev : Option Nat) (q : Nat) :
    NodeRuns (returnNextMw name len pre u rest) ms h req res prev q
      (returningNode (returnNextMw name len pre u rest) ms h req res prev q)
      [.react (.runCont q) .fulfilled]
      (.mwCalled q name req res :: pre.map Event.log ++ [.nextCalled q (defaultNull u)]) := by
  intro s0 hs0
  obtain ⟨σ, Q, L, hp, hc, rp⟩ := s0
  simp only at hs0
  simp [Executor.run, State.setNode, hs0, Executor.new, returnNextMw, State.emit, callSync_logs,
    callSync, next_falsy, hu, State.resolve, State.getP, State.setP,
    State.enqueue, controlledPromise, ControlledPromise.resolve, Executor.afterCall,
    State.subscribe, ControlledPromise.subscribe, returningNode]

theorem returnNextMw_completes (m : Middleware)
    (ms : List Middleware) (h : Handler) (req res : Nat)
    (prev : Option Nat) (q : Nat) (hq : 1 + prev.getD 0 = q) (L : List Event) (v : Value)
    (hset : Settles q ms h req res L v) :
    NodeCompletes q (returningNode m ms h req res prev q)
      [.react (.runCont q) .fulfilled] L v.outcome := by
  intro s k hsq hsn
  obtain ⟨σ, Q, L0, hp, hc, rp⟩ := s
  simp only at hsq hsn
  subst hsq
  have h1 : runJobs 1 ⟨σ, [.react (.runCont q) .fulfilled], L0, hp, hc, rp⟩ =
      ⟨σ, [.checkFlag q, .adopt q], L0, hp, hc, rp⟩ := by
    simp [runJobs, step, runJob, runReaction, Executor.returnInternal, State.enqueue]
  obtain ⟨n, s₁, hfin, hs1q, hs1l, hs1r, hs1j, hs1n⟩ :=
    hset ⟨σ, [.checkFlag q, .adopt q], L0, hp, hc, rp⟩
      ⟨rfl, by simp [hsn, Executor.new, returningNode], by simp [hsn, Executor.new, returningNode],
        by simp [hsn, Executor.new, returningNode], by simp [hsn, Executor.new, returningNode],
        by simp [hsn, Executor.new, returningNode],
        by simp [hsn, Executor.new, hq, returningNode],
        by simp [hsn, Executor.new, controlledPromise, returningNode]⟩
  obtain ⟨σ₁, Q₁, L₁, hp₁, hc₁, rp₁⟩ := s₁
  simp only at hs1q hs1l hs1r hs1j hs1n
  subst hs1q hs1l hs1r
  have h2 : Executor.finish q v ⟨σ₁, [], L0 ++ L, hp₁, hc₁, rp₁⟩ =
        ⟨Function.update σ₁ q { σ₁ q with teardownPromise := ⟨v.outcome.status, []⟩ },
          [.react (.asyncDone q) v.outcome], L0 ++ L, hp₁, hc₁, rp₁⟩ := by
    by_cases hv : v.truthy = true
    · simp [Executor.finish, hs1n, hsn, adopted, returningNode, isPromise, hv, State.reject,
        State.getP, State.setP, State.setNode, ControlledPromise.reject, State.enqueue,
        Value.outcome, Settled.status]
    · simp [Executor.finish, hs1n, hsn, adopted, returningNode, isPromise, hv, State.resolve,
        State.getP, State.setP, State.setNode, ControlledPromise.resolve, State.enqueue,
        Value.outcome, Settled.status]
  have h3 := asyncDone_settles q k v.outcome
    (Function.update σ₁ q { σ₁ q with teardownPromise := ⟨v.outcome.status, []⟩ })
    (L0 ++ L) hp₁ hc₁ rp₁
    (by simp [hs1n, hsn, adopted, returningNode, Executor.new, controlledPromise])
    (by simp [hs1n, hsn, adopted, returningNode])
    (by simp [hs1n, hsn, adopted, returningNode])
  refine ⟨1 + n + 2, ?_⟩
  rw [runJobs_add, runJobs_add, h1, hfin, h2]
  refine ⟨h3.1, h3.2.1, h3.2.2.1, ?_⟩
  intro j hj
  rw [h3.2.2.2 j (Nat.ne_of_lt hj)]
  simp [Nat.ne_of_lt hj, hs1j j hj]

theorem nodeSem_returning (name : String) (len : Nat) (pre : List String) (u : Value)
    (rest : List SyncStmt) (hu : u.truthy = false) {ms : List Middleware} {h : Handler}
    {req res : Nat} {Lf : Nat → List Event} {o : Settled} (hrem : Remainder ms h req res Lf o) :
    NodeSem (returnNextMw name len pre u rest) ms h req res
      (fun q => (.mwCalled q name req res :: pre.map Event.log ++
        [.nextCalled q (defaultNull u)]) ++ Lf q) o.seen := by
  intro prev q hq
  exact ⟨_, _, _, _, returnNextMw_runs name len pre u rest hu ms h req res prev q, rfl,
    returnNextMw_completes _ ms h req res prev q hq (Lf q) o.value (hrem q), rfl⟩

/-- What the code does in the situation of C15 when the rest of the chain, synchronous-style and
asynchronous-style middleware and the handler, ends as `o`: `run()` finds a promise in
`result`; each later middleware is called once, in order, and the handler once; and the
promise of the route function settles as `finish` reads `o`, which is `o` itself when `o` is
a success or a failure with a truthy error. -/
theorem returning_chain (name : String) (len : Nat) (pre : List String) (u : Value)
    (rest : List SyncStmt) (hu : u.truthy = false) (downs : List Link)
    (hok : ∀ x ∈ downs, x.Ok) (h : Handler) (req res : Nat) :
    (∀ (s0 : State) (q : Nat) (prev : Option Nat) (ms : List Middleware),
      s0.nodes q = Executor.new (returnNextMw name len pre u rest :: ms) h req res prev →
      isPromise ((Executor.run q s0).nodes q).result = true) ∧
    ∃ n, ∀ m, n ≤ m →
      (runRoute m (returnNextMw name len pre u rest :: downs.map Link.mw)
        h req res).routePromise.status = (linksOutcome downs h.outcome).seen.status ∧
      calls (runRoute m (returnNextMw name len pre u rest :: downs.map Link.mw) h req res).log =
        .mwCalled 1 name req res :: expectedCalls req res 1 downs ∧
      handlerCalls (runRoute m (returnNextMw name len pre u rest :: downs.map Link.mw)
        h req res).log = 1 := by
  constructor
  · intro s0 q prev ms hs0
    rw [returnNextMw_runs name len pre u rest hu ms h req res prev q s0 hs0]
    simp [returningNode, isPromise]
  · have hrem := remainder_links downs hok (remainder_nil h req res)
    have hre : RouteEnds (returnNextMw name len pre u rest :: (downs.map Link.mw ++ [])) h req res
        _ _ := route_of_nodeSem (nodeSem_returning name len pre u rest hu hrem)
    rw [List.append_nil] at hre
    obtain ⟨n, hfin⟩ := hre.final
    refine ⟨n, fun m hm => ⟨(hfin m hm).2.2, ?_, ?_⟩⟩
    · rw [(hfin m hm).2.1, linksLog_eq]
      simp [calls_append, calls, calls_logs, calls_befores, calls_afters, calls_events]
    · rw [(hfin m hm).2.1, linksLog_eq]
      simp [handlerCalls_append, handlerCalls, handlerCalls_logs, handlerCalls_befores,
        handlerCalls_afters, handlerCalls_events]

/-- C15, the code at a failing input: a plain middleware returns `next()` and the handler
rejects with `0`. The result of the middleware is a promise, the handler is called once,
and the outcome of the node is success, not failure with `0`: `internalPromise` and the
promise of the route function are fulfilled. -/
theorem C15_falsy_failure_succeeds :
    (runRoute 20 [⟨"m", 3, .plain [.returnNext .undefined]⟩]
        (.async [.throw (.num 0)]) 0 0).log =
      [.mwCalled 1 "m" 0 0, .nextCalled 1 .null, .handlerCalled 0 0] ∧
    isPromise ((runRoute 20 [⟨"m", 3, .plain [.returnNext .undefined]⟩]
        (.async [.throw (.num 0)]) 0 0).nodes 1).result = true ∧
    ((runRoute 20 [⟨"m", 3, .plain [.returnNext .undefined]⟩]
        (.async [.throw (.num 0)]) 0 0).nodes 1).internalPromise.status = .fulfilled ∧
    (runRoute 20 [⟨"m", 3, .plain [.returnNext .undefined]⟩]
        (.async [.throw (.num 0)]) 0 0).queue = [] ∧
    (runRoute 20 [⟨"m", 3, .plain [.returnNext .undefined]⟩]
        (.async [.throw (.num 0)]) 0 0).routePromise.status = .fulfilled := by
  decide

/-! ## Single settlement -/

theorem getP_setP (s : State) (r r' : PromiseRef) (c : ControlledPromise) :
    (s.setP r c).getP r' = if r' = r then c else s.getP r' := by
  cases r <;> cases r' <;>
    simp [State.setP, State.getP, State.setNode, Function.update_apply] <;>
    split_ifs <;> simp_all

theorem queue_setP (s : State) (r : PromiseRef) (c : ControlledPromise) :
    (s.setP r c).queue = s.queue := by
  cases r <;> rfl

theorem stackPosition_setP (s : State) (r : PromiseRef) (c : ControlledPromise) (q : Nat) :
    ((s.setP r c).nodes q).stackPosition = (s.nodes q).stackPosition := by
  cases r <;> simp [State.setP, State.setNode, Function.update_apply] <;> split_ifs <;> simp_all

theorem stable_refl (s : State) : Stable s s := fun _ _ => rfl

theorem stable_trans {s t u : State} (h1 : Stable s t) (h2 : Stable t u) : Stable s u := by
  intro q hq
  have h3 := h1 q hq
  rw [← h3]
  exact h2 q (by rw [h3]; exact hq)

theorem leads_refl {F c : Nat} {s : State} (hf : Frontier F s) (ht : tokens F s ≤ c) :
    Leads F c s s := ⟨stable_refl s, hf, ht⟩

theorem Leads.mono {F c d : Nat} {s t : State} (h : Leads F c s t) (hcd : c ≤ d) :
    Leads F d s t := ⟨h.1, h.2.1, Nat.le_trans h.2.2 hcd⟩

/-- A change of the state that leaves the queue, the promises and the position of the last
executor as they are. -/
theorem leads_view {F c : Nat} {s0 s t : State} (h : Leads F c s0 s)
    (hq : t.queue = s.queue) (hp : ∀ r, t.getP r = s.getP r)
    (hs : (t.nodes F).stackPosition = (s.nodes F).stackPosition) : Leads F c s0 t := by
  obtain ⟨hst, hf, ht⟩ := h
  refine ⟨?_, ⟨?_, ?_, ?_, ?_⟩, ?_⟩
  · intro q hq0
    rw [hp]; exact hst q hq0
  · rw [hs]; exact hf.pos
  · intro q hq0; rw [hp]; exact hf.fresh q hq0
  · intro j hj; rw [hq] at hj; exact hf.jobs j hj
  · intro r x hx; rw [hp] at hx; exact hf.reactions r x hx
  · simpa [tokens, hq, hp] using ht

/-- A promise is replaced and jobs are queued. -/
theorem leads_setP_enqueue {F c d : Nat} {s0 s : State} (h : Leads F c s0 s)
    (r : PromiseRef) (c1 : ControlledPromise) (js : List Job)
    (hst : ∀ q, r = .internal q → (s.getP r).status ≠ .pending → c1.status = (s.getP r).status)
    (hfresh : ∀ q, F < q → r = .internal q → c1.status = .pending)
    (hre : ∀ x ∈ c1.reactions, ReactOk F r x)
    (hjs : ∀ j ∈ js, JobOk F j)
    (hcount : js.countP Job.isToken +
        (if r = .cleanup F then c1 else s.getP (.cleanup F)).reactions.countP Reaction.isRunCont ≤
      (s.getP (.cleanup F)).reactions.countP Reaction.isRunCont + d) :
    Leads F (c + d) s0 ((s.setP r c1).enqueue js) := by
  obtain ⟨hstab, hf, ht⟩ := h
  have hg : ∀ r', ((s.setP r c1).enqueue js).getP r' = if r' = r then c1 else s.getP r' := by
    intro r'
    rw [← getP_setP]
    cases r' <;> rfl
  refine ⟨?_, ⟨?_, ?_, ?_, ?_⟩, ?_⟩
  · refine stable_trans hstab ?_
    intro q hq0
    rw [hg]
    split
    · next heq => have := hst q heq.symm; rw [← heq] at this; exact this hq0
    · rfl
  · have : (((s.setP r c1).enqueue js).nodes F).stackPosition =
        ((s.setP r c1).nodes F).stackPosition := rfl
    rw [this, stackPosition_setP]; exact hf.pos
  · intro q hq0
    rw [hg]
    split
    · next heq => exact hfresh q hq0 heq.symm
    · exact hf.fresh q hq0
  · intro j hj
    have : ((s.setP r c1).enqueue js).queue = s.queue ++ js := by
      simp [State.enqueue, queue_setP]
    rw [this] at hj
    rcases List.mem_append.1 hj with h1 | h1
    · exact hf.jobs j h1
    · exact hjs j h1
  · intro r' x hx
    rw [hg] at hx
    split at hx
    · next heq => subst heq; exact hre x hx
    · exact hf.reactions r' x hx
  · have hq : ((s.setP r c1).enqueue js).queue = s.queue ++ js := by
      simp [State.enqueue, queue_setP]
    simp only [tokens, hq, hg, List.countP_append]
    simp only [tokens] at ht
    by_cases hr : r = .cleanup F
    · simp only [hr, if_true] at hcount ⊢
      omega
    · have hr2 : ¬ (PromiseRef.cleanup F = r) := fun h => hr h.symm
      simp only [hr, hr2, if_false] at hcount ⊢
      omega

theorem leads_enqueue {F c : Nat} {s0 s : State} (h : Leads F c s0 s) (js : List Job)
    (hjs : ∀ j ∈ js, JobOk F j ∧ j.isToken = false) : Leads F c s0 (s.enqueue js) := by
  obtain ⟨hstab, hf, ht⟩ := h
  refine ⟨?_, ⟨hf.pos, hf.fresh, ?_, hf.reactions⟩, ?_⟩
  · exact hstab
  · intro j hj
    rcases List.mem_append.1 hj with h1 | h1
    · exact hf.jobs j h1
    · exact (hjs j h1).1
  · have : js.countP Job.isToken = 0 := by
      rw [List.countP_eq_zero]
      intro j hj
      simp [(hjs j hj).2]
    have hq : (s.enqueue js).queue = s.queue ++ js := rfl
    have hc : (s.enqueue js).getP (.cleanup F) = s.getP (.cleanup F) := rfl
    simp only [tokens, hq, hc, List.countP_append, this]
    simpa [tokens] using ht

theorem leads_emit {F c : Nat} {s0 s : State} (h : Leads F c s0 s) (e : Event) :
    Leads F c s0 (s.emit e) :=
  leads_view h rfl (fun r => by cases r <;> rfl) rfl

theorem reactOk_job {F : Nat} {r : PromiseRef} {x : Reaction} (h : ReactOk F r x) (o : Settled) :
    JobOk F (.react x o) := by
  refine ⟨h.1, fun ht => ?_⟩
  obtain ⟨-, rfl⟩ := h.2 ht
  rfl

theorem countP_react (l : List Reaction) (o : Settled) :
    (l.map (fun r => Job.react r o)).countP Job.isToken = l.countP Reaction.isRunCont := by
  induction l with
  | nil => rfl
  | cons a l ih => simp [List.countP_cons, ih, Job.isToken]

theorem countP_runCont_zero {F : Nat} {s : State} (hf : Frontier F s) {r : PromiseRef}
    (hr : r ≠ .cleanup F) : (s.getP r).reactions.countP Reaction.isRunCont = 0 := by
  rw [List.countP_eq_zero]
  intro x hx hrc
  exact hr ((hf.reactions r x hx).2 hrc).1

theorem leads_resolve {F c : Nat} {s0 s : State} (h : Leads F c s0 s) (r : PromiseRef)
    (hr : ∀ p, r.pos = some p → p ≤ F) : Leads F c s0 (s.resolve r) := by
  unfold State.resolve ControlledPromise.resolve
  have hf := h.2.1
  cases hs : (s.getP r).status with
  | pending =>
    refine leads_setP_enqueue (d := 0) h r _ _ (fun _ _ hne => absurd hs hne) ?_ (by simp) ?_ ?_
    · intro q hq heq
      subst heq
      exact absurd (hr q rfl) (by omega)
    · intro j hj
      obtain ⟨x, hx, rfl⟩ := List.mem_map.1 hj
      exact reactOk_job (hf.reactions r x hx) _
    · rw [countP_react]
      by_cases hc : r = .cleanup F
      · simp [hc]
      · simp [hc, countP_runCont_zero hf hc]
  | fulfilled =>
    exact leads_setP_enqueue (d := 0) h r _ _ (fun _ _ _ => rfl) (fun q hq heq => by
      subst heq; exact absurd (hr q rfl) (by omega)) (hf.reactions r) (by simp) (by
      by_cases hc : r = .cleanup F <;> simp [hc])
  | rejected e =>
    exact leads_setP_enqueue (d := 0) h r _ _ (fun _ _ _ => rfl) (fun q hq heq => by
      subst heq; exact absurd (hr q rfl) (by omega)) (hf.reactions r) (by simp) (by
      by_cases hc : r = .cleanup F <;> simp [hc])

theorem leads_reject {F c : Nat} {s0 s : State} (h : Leads F c s0 s) (r : PromiseRef)
    (e : Value) (hr : ∀ p, r.pos = some p → p ≤ F) : Leads F c s0 (s.reject r e) := by
  unfold State.reject ControlledPromise.reject
  have hf := h.2.1
  cases hs : (s.getP r).status with
  | pending =>
    refine leads_setP_enqueue (d := 0) h r _ _ (fun _ _ hne => absurd hs hne) ?_ (by simp) ?_ ?_
    · intro q hq heq
      subst heq
      exact absurd (hr q rfl) (by omega)
    · intro j hj
      obtain ⟨x, hx, rfl⟩ := List.mem_map.1 hj
      exact reactOk_job (hf.reactions r x hx) _
    · rw [countP_react]
      by_cases hc : r = .cleanup F
      · simp [hc]
      · simp [hc, countP_runCont_zero hf hc]
  | fulfilled =>
    exact leads_setP_enqueue (d := 0) h r _ _ (fun _ _ _ => rfl) (fun q hq heq => by
      subst heq; exact absurd (hr q rfl) (by omega)) (hf.reactions r) (by simp) (by
      by_cases hc : r = .cleanup F <;> simp [hc])
  | rejected e =>
    exact leads_setP_enqueue (d := 0) h r _ _ (fun _ _ _ => rfl) (fun q hq heq => by
      subst heq; exact absurd (hr q rfl) (by omega)) (hf.reactions r) (by simp) (by
      by_cases hc : r = .cleanup F <;> simp [hc])

theorem leads_subscribe {F c : Nat} {s0 s : State} (h : Leads F c s0 s) (r : PromiseRef)
    (k : Reaction) (hk : ReactOk F r k) :
    Leads F (c + if k.isRunCont then 1 else 0) s0 (s.subscribe r k) := by
  unfold State.subscribe ControlledPromise.subscribe
  have hf := h.2.1
  have hcnt : ∀ (l : List Reaction), (l ++ [k]).countP Reaction.isRunCont =
      l.countP Reaction.isRunCont + if k.isRunCont then 1 else 0 := by
    intro l
    cases hk2 : k.isRunCont <;> simp [List.countP_append, List.countP_cons, hk2]
  cases hs : (s.getP r).status with
  | pending =>
    refine leads_setP_enqueue h r _ _ (fun _ _ _ => hs.symm) (fun q hq heq => rfl) ?_ (by simp) ?_
    · intro x hx
      rcases List.mem_append.1 hx with h1 | h1
      · exact hf.reactions r x h1
      · simp only [List.mem_singleton] at h1; subst h1; exact hk
    · by_cases hc : r = .cleanup F
      · simp only [hc, if_true, List.countP_nil, Nat.zero_add, hcnt]
        subst hc
        exact Nat.le_refl _
      · simp [hc]
  | fulfilled =>
    refine leads_setP_enqueue h r _ _ (fun _ _ _ => rfl) (fun q hq heq => ?_) (hf.reactions r) ?_ ?_
    · subst heq
      rw [hf.fresh q hq] at hs
      cases hs
    · intro j hj
      simp only [List.mem_singleton] at hj; subst hj
      exact reactOk_job hk _
    · by_cases hc : r = .cleanup F <;>
        cases hk2 : k.isRunCont <;> simp [hc, List.countP_cons, Job.isToken, hk2] <;> omega
  | rejected e =>
    refine leads_setP_enqueue h r _ _ (fun _ _ _ => rfl) (fun q hq heq => ?_) (hf.reactions r) ?_ ?_
    · subst heq
      rw [hf.fresh q hq] at hs
      cases hs
    · intro j hj
      simp only [List.mem_singleton] at hj; subst hj
      exact reactOk_job hk _
    · by_cases hc : r = .cleanup F <;>
        cases hk2 : k.isRunCont <;> simp [hc, List.countP_cons, Job.isToken, hk2] <;> omega

/-- A reaction that does not resume `run()` is registered. -/
theorem leads_subscribe_plain {F c : Nat} {s0 s : State} (h : Leads F c s0 s) (r : PromiseRef)
    (k : Reaction) (hp : ∀ p, k.pos = some p → p ≤ F) (hn : k.isRunCont = false) :
    Leads F c s0 (s.subscribe r k) := by
  have := leads_subscribe h r k ⟨hp, fun h => by rw [hn] at h; cases h⟩
  simpa [hn] using this

/-- Fields of an executor other than its promises and its position are written. -/
theorem leads_setNode {F c : Nat} {s0 s : State} (h : Leads F c s0 s) (pos : Nat)
    (e : Executor) (h1 : e.internalPromise = (s.nodes pos).internalPromise)
    (h2 : e.teardownPromise = (s.nodes pos).teardownPromise)
    (h3 : e.cleanupPromise = (s.nodes pos).cleanupPromise)
    (h4 : e.ownPromise = (s.nodes pos).ownPromise)
    (h5 : e.runPromise = (s.nodes pos).runPromise)
    (h6 : e.stackPosition = (s.nodes pos).stackPosition) : Leads F c s0 (s.setNode pos e) := by
  refine leads_view h rfl (fun r => ?_) ?_
  · cases r <;> simp [State.getP, State.setNode, Function.update_apply] <;>
      split_ifs <;> simp_all
  · simp only [State.setNode, Function.update_apply]
    split_ifs <;> simp_all

theorem leads_enqueue_token {F c : Nat} {s0 s : State} (h : Leads F c s0 s) (j : Job)
    (hj : JobOk F j) : Leads F (c + 1) s0 (s.enqueue [j]) := by
  obtain ⟨hstab, hf, ht⟩ := h
  refine ⟨hstab, ⟨hf.pos, hf.fresh, ?_, hf.reactions⟩, ?_⟩
  · intro j' hj'
    rcases List.mem_append.1 hj' with h1 | h1
    · exact hf.jobs j' h1
    · simp only [List.mem_singleton] at h1; subst h1; exact hj
  · have hq : (s.enqueue [j]).queue = s.queue ++ [j] := rfl
    have hc : (s.enqueue [j]).getP (.cleanup F) = s.getP (.cleanup F) := rfl
    simp only [tokens, hq, hc, List.countP_append]
    simp only [tokens] at ht
    have : [j].countP Job.isToken ≤ 1 := by
      cases hx : j.isToken <;> simp [List.countP_cons, hx]
    omega

theorem next_fst (pos : Nat) (e : Value) (s : State) :
    (Executor.next pos e s).1 =
      (s.emit (.nextCalled pos (defaultNull e))).resolve (.cleanup pos) := by
  unfold Executor.next
  simp only
  split <;> rfl

theorem leads_next {F c : Nat} {s0 s : State} (h : Leads F c s0 s) (pos : Nat) (hp : pos ≤ F)
    (e : Value) : Leads F c s0 (Executor.next pos e s).1 := by
  rw [next_fst]
  exact leads_resolve (leads_emit h _) _ (by intro p hp2; cases hp2; exact hp)

theorem leads_callSync {F c : Nat} {s0 : State} (pos : Nat) (hp : pos ≤ F)
    (code : List SyncStmt) : ∀ s, Leads F c s0 s → Leads F c s0 (callSync pos code s).1 := by
  induction code with
  | nil => intro s h; exact h
  | cons st code ih =>
    intro s h
    cases st with
    | log m => exact ih _ (leads_emit h _)
    | next e =>
      simp only [callSync]
      split
      · exact leads_next h pos hp e
      · exact ih _ (leads_next h pos hp e)
    | returnNext e =>
      simp only [callSync]
      split <;> exact leads_next h pos hp e
    | throw v => exact h
    | defer e =>
      refine ih _ (leads_enqueue h _ ?_)
      intro j hj
      simp only [List.mem_singleton] at hj; subst hj
      exact ⟨⟨fun p hp2 => (by cases hp2; exact hp), fun h => (by cases h)⟩, rfl⟩

theorem leads_suspend {F c : Nat} {s0 s : State} (h : Leads F c s0 s) (pos : Nat)
    (k : List AsyncStmt) (b : Bool) : Leads F c s0 (suspend pos k b s) :=
  leads_setNode h pos _ rfl rfl rfl rfl rfl rfl

theorem leads_runAsync {F c : Nat} {s0 : State} (pos : Nat) (hp : pos ≤ F)
    (code : List AsyncStmt) : ∀ s, Leads F c s0 s → Leads F c s0 (runAsync pos code s) := by
  have hpos : ∀ (r : PromiseRef), r.pos = some pos → ∀ p, r.pos = some p → p ≤ F := by
    intro r hr p hp2
    rw [hr] at hp2; cases hp2; exact hp
  induction code with
  | nil => intro s h; exact leads_resolve h _ (hpos _ rfl)
  | cons st code ih =>
    intro s h
    cases st with
    | log m => exact ih _ (leads_emit h _)
    | next e =>
      simp only [runAsync]
      split
      · exact leads_reject (leads_next h pos hp e) _ _ (hpos _ rfl)
      · exact ih _ (leads_next h pos hp e)
    | awaitNext e =>
      simp only [runAsync]
      split
      · exact leads_reject (leads_next h pos hp e) _ _ (hpos _ rfl)
      · exact leads_subscribe_plain (leads_suspend (leads_next h pos hp e) _ _ _) _ _
          (by intro p hp2; cases hp2; exact hp) rfl
    | tryAwaitNext e =>
      simp only [runAsync]
      split
      · exact ih _ (leads_emit (leads_next h pos hp e) _)
      · exact leads_subscribe_plain (leads_suspend (leads_next h pos hp e) _ _ _) _ _
          (by intro p hp2; cases hp2; exact hp) rfl
    | awaitTick =>
      refine leads_enqueue (leads_suspend h _ _ _) _ ?_
      intro j hj
      simp only [List.mem_singleton] at hj; subst hj
      exact ⟨⟨by intro p hp2; cases hp2; exact hp, by intro h; cases h⟩, rfl⟩
    | returnNext e =>
      simp only [runAsync]
      split
      · exact leads_reject (leads_next h pos hp e) _ _ (hpos _ rfl)
      · refine leads_enqueue (leads_next h pos hp e) _ ?_
        intro j hj
        simp only [List.mem_singleton] at hj; subst hj
        exact ⟨⟨by intro p hp2; cases hp2; exact hp, by intro h; cases h⟩, rfl⟩
    | throw v => exact leads_reject h _ _ (hpos _ rfl)
    | defer e =>
      refine ih _ (leads_enqueue h _ ?_)
      intro j hj
      simp only [List.mem_singleton] at hj; subst hj
      exact ⟨⟨fun p hp2 => (by cases hp2; exact hp), fun h => (by cases h)⟩, rfl⟩

theorem leads_resumeAsync {F c : Nat} {s0 s : State} (h : Leads F c s0 s) (pos : Nat)
    (hp : pos ≤ F) (o : Settled) : Leads F c s0 (resumeAsync pos o s) := by
  unfold resumeAsync
  cases o with
  | fulfilled => exact leads_runAsync pos hp _ _ h
  | rejected e =>
    simp only
    split
    · exact leads_runAsync pos hp _ _ (leads_emit h _)
    · exact leads_reject h _ _ (by intro p hp2; cases hp2; exact hp)

theorem leads_callHandler {F c : Nat} {s0 : State} (code : List PlainHandlerStmt) :
    ∀ s, Leads F c s0 s → Leads F c s0 (callHandler code s).1 := by
  induction code with
  | nil => intro s h; exact h
  | cons st code ih =>
    intro s h
    cases st with
    | log m => exact ih _ (leads_emit h _)
    | throw v => exact h

theorem leads_runHandler {F c : Nat} {s0 : State} (code : List HandlerStmt) :
    ∀ s, Leads F c s0 s → Leads F c s0 (runHandler code s) := by
  induction code with
  | nil => intro s h; exact leads_resolve h _ (by intro p hp; cases hp)
  | cons st code ih =>
    intro s h
    cases st with
    | log m => exact ih _ (leads_emit h _)
    | awaitTick =>
      have h2 : Leads F c s0 { s with handlerCode := code } :=
        leads_view h rfl (fun r => by cases r <;> rfl) rfl
      refine leads_enqueue h2 [.react .handlerResume .fulfilled] ?_
      intro j hj
      simp only [List.mem_singleton] at hj; subst hj
      exact ⟨⟨fun p hp2 => (by cases hp2), fun h => (by cases h)⟩, rfl⟩
    | throw v => exact leads_reject h _ _ (by intro p hp; cases hp)

theorem leads_finish {F c : Nat} {s0 s : State} (h : Leads F c s0 s) (pos : Nat)
    (hp : pos ≤ F) (v : Value) : Leads F c s0 (Executor.finish pos v s) := by
  have hpos : ∀ (r : PromiseRef), r.pos = some pos → ∀ p, r.pos = some p → p ≤ F := by
    intro r hr p hp2
    rw [hr] at hp2; cases hp2; exact hp
  unfold Executor.finish
  split
  · split
    · exact leads_reject h _ _ (hpos _ rfl)
    · exact leads_resolve h _ (hpos _ rfl)
  · split
    · exact leads_reject h _ _ (hpos _ rfl)
    · exact leads_resolve h _ (hpos _ rfl)

/-- A promise that is not an `internalPromise` is replaced by a new one. -/
theorem leads_renew {F c : Nat} {s0 s : State} (h : Leads F c s0 s) (r : PromiseRef)
    (hr : ∀ q, r ≠ .internal q) : Leads F c s0 (s.setP r controlledPromise) := by
  have := leads_setP_enqueue (d := 0) h r controlledPromise []
    (fun q hq => absurd hq (hr q)) (fun q _ hq => absurd hq (hr q))
    (by simp [controlledPromise]) (by simp)
    (by by_cases hc : r = .cleanup F <;> simp [hc, controlledPromise])
  have he : (s.setP r controlledPromise).enqueue [] = s.setP r controlledPromise := by
    simp [State.enqueue]
  rwa [he] at this

theorem leads_afterCall {F c : Nat} {s0 s : State} (h : Leads F c s0 s) (r : Result) :
    Leads F (c + 1) s0 (Executor.afterCall F r s) := by
  unfold Executor.afterCall
  have h1 := leads_setNode h F { s.nodes F with result := r, asyncMiddlewareFailed := false }
    rfl rfl rfl rfl rfl rfl
  have hk : ∀ (x : PromiseRef), ReactOk F x (.asyncDone F) :=
    fun x => ⟨fun p hp => (by cases hp; exact Nat.le_refl _), fun h => (by cases h)⟩
  have hrc : ReactOk F (.cleanup F) (.runCont F) :=
    ⟨fun p hp => (by cases hp; exact Nat.le_refl _), fun _ => ⟨rfl, rfl⟩⟩
  cases r with
  | undefined => exact leads_subscribe h1 _ _ hrc
  | ownPromise =>
    have h2 := leads_subscribe h1 (.own F) (.asyncDone F) (hk _)
    exact leads_subscribe h2 _ _ hrc
  | teardown =>
    have h2 := leads_subscribe h1 (.teardown F) (.asyncDone F) (hk _)
    exact leads_subscribe h2 _ _ hrc

theorem leads_returnInternal {F c : Nat} {s0 s : State} (h : Leads F c s0 s) (pos : Nat)
    (hp : pos ≤ F) : Leads F c s0 (Executor.returnInternal pos s) := by
  refine leads_enqueue h _ ?_
  intro j hj
  simp only [List.mem_singleton] at hj; subst hj
  exact ⟨⟨fun p hp2 => (by cases hp2; exact hp), fun h => (by cases h)⟩, rfl⟩

theorem leads_fail {F c : Nat} {s0 s : State} (h : Leads F c s0 s) (pos : Nat)
    (hp : pos ≤ F) (e : Value) : Leads F c s0 (Executor.fail pos e s) :=
  leads_reject h _ _ (fun p hp2 => by cases hp2; exact hp)

theorem leads_succeed {F c : Nat} {s0 s : State} (h : Leads F c s0 s) (pos : Nat)
    (hp : pos ≤ F) : Leads F c s0 (Executor.succeed pos s) :=
  leads_resolve h _ (fun p hp2 => by cases hp2; exact hp)

theorem leads_run {F c : Nat} {s0 s : State} (h : Leads F c s0 s) :
    Leads F (c + 1) s0 (Executor.run F s) := by
  unfold Executor.run
  have h1 : Leads F c s0 (s.setNode F { s.nodes F with cleanupPromise := controlledPromise }) :=
    leads_renew h (.cleanup F) (fun q hq => by cases hq)
  simp only
  split
  · exact (leads_returnInternal (leads_fail h1 F (Nat.le_refl _) _) F (Nat.le_refl _)).mono
      (Nat.le_succ _)
  · next fn hfn =>
    split
    · next code hcode =>
      split
      · exact (leads_returnInternal (leads_fail (leads_callSync F (Nat.le_refl _) code _
          (leads_emit h1 _)) F (Nat.le_refl _) _) F (Nat.le_refl _)).mono (Nat.le_succ _)
      · exact leads_afterCall (leads_callSync F (Nat.le_refl _) code _ (leads_emit h1 _)) _
    · next code hcode =>
      exact leads_afterCall (leads_runAsync F (Nat.le_refl _) code _ (leads_emit h1 _)) _

theorem getP_setNode_new (s : State) (k : Nat) (e : Executor)
    (h1 : e.internalPromise = controlledPromise) (h2 : e.teardownPromise = controlledPromise)
    (h3 : e.cleanupPromise = controlledPromise) (h4 : e.ownPromise = controlledPromise)
    (h5 : e.runPromise = controlledPromise) (r : PromiseRef) :
    (s.setNode k e).getP r = if r.pos = some k then controlledPromise else s.getP r := by
  cases r <;> simp [State.getP, State.setNode, Function.update_apply, PromiseRef.pos] <;>
    split_ifs <;> simp_all

/-- A new executor is created behind the last one, which has no call of `runRemaining()`
pending. -/
theorem leads_create {F : Nat} {s0 s : State} (h : Leads F 0 s0 s) (e : Executor)
    (h1 : e.internalPromise = controlledPromise) (h2 : e.teardownPromise = controlledPromise)
    (h3 : e.cleanupPromise = controlledPromise) (h4 : e.ownPromise = controlledPromise)
    (h5 : e.runPromise = controlledPromise) (h6 : e.stackPosition = 1 + F) :
    Leads (1 + F) 0 s0 (s.setNode (1 + F) e) := by
  obtain ⟨hstab, hf, ht⟩ := h
  simp only [tokens, Nat.le_zero, Nat.add_eq_zero, List.countP_eq_zero] at ht
  have hg := getP_setNode_new s (1 + F) e h1 h2 h3 h4 h5
  refine ⟨?_, ⟨?_, ?_, ?_, ?_⟩, ?_⟩
  · intro q hq
    rw [hg]
    by_cases hq2 : q = 1 + F
    · subst hq2
      have h7 := hstab _ hq
      rw [hf.fresh _ (by omega)] at h7
      exact absurd h7.symm hq
    · rw [if_neg (by simpa [PromiseRef.pos] using hq2)]
      exact hstab q hq
  · simp [State.setNode, h6]
  · intro q hq
    rw [hg, if_neg (by simp [PromiseRef.pos]; omega)]
    exact hf.fresh q (by omega)
  · intro j hj
    have hj2 : j ∈ s.queue := hj
    refine ⟨fun p hp => ?_, fun htok => absurd htok (ht.1 j hj2)⟩
    have := (hf.jobs j hj2).1 p hp
    omega
  · intro r x hx
    rw [hg] at hx
    split at hx
    · simp [controlledPromise] at hx
    · refine ⟨fun p hp => ?_, fun hrc => ?_⟩
      · have := (hf.reactions r x hx).1 p hp
        omega
      · obtain ⟨hr, -⟩ := (hf.reactions r x hx).2 hrc
        subst hr
        exact absurd hrc (ht.2 x hx)
  · have hq : (s.setNode (1 + F) e).queue = s.queue := rfl
    simp only [tokens, hq, hg, PromiseRef.pos, if_true, controlledPromise, List.countP_nil,
      Nat.add_zero, Nat.le_zero, List.countP_eq_zero]
    exact ht.1

theorem leads_runRemaining {F : Nat} {s0 s : State} (h : Leads F 0 s0 s) :
    ∃ F', Leads F' 1 s0 (Executor.runRemaining F s) := by
  unfold Executor.runRemaining
  simp only
  have hk : ∀ (G : Nat) (r : PromiseRef), F ≤ G → ReactOk G r (.runRemainingCont F) :=
    fun G r hG => ⟨fun p hp => (by cases hp; exact hG), fun h => (by cases h)⟩
  split
  · refine ⟨F, Leads.mono ?_ (Nat.zero_le 1)⟩
    have h1 := leads_emit h (.handlerCalled (s.nodes F).req (s.nodes F).res)
    split
    · next code hcode =>
      split
      · exact leads_finish (leads_callHandler code _ h1) F (Nat.le_refl _) _
      · refine leads_enqueue (leads_callHandler code _ h1) _ ?_
        intro j hj
        simp only [List.mem_singleton] at hj; subst hj
        exact ⟨⟨fun p hp2 => (by cases hp2; exact Nat.le_refl _), fun h => (by cases h)⟩, rfl⟩
    · next code hcode =>
      have h2 : Leads F 0 s0 ((s.emit (.handlerCalled (s.nodes F).req (s.nodes F).res)).setP
          .handler controlledPromise) := leads_renew h1 .handler (fun q hq => by cases hq)
      have h3 := leads_runHandler code _ h2
      have := leads_subscribe h3 .handler (.runRemainingCont F) (hk F _ (Nat.le_refl _))
      exact this
  · refine ⟨1 + F, ?_⟩
    have hpos : (s.nodes F).stackPosition = F := h.2.1.pos
    have h1 := leads_create h (Executor.new (s.nodes F).remaining (s.nodes F).apiRouteFn
      (s.nodes F).req (s.nodes F).res (some (s.nodes F).stackPosition)) rfl rfl rfl rfl rfl
      (by simp [Executor.new, hpos])
    have h2 := leads_run h1
    have h3 := leads_subscribe h2 (.run (1 + F)) (.runRemainingCont F) (hk _ _ (by omega))
    have hsp : (Executor.new (s.nodes F).remaining (s.nodes F).apiRouteFn
      (s.nodes F).req (s.nodes F).res (some (s.nodes F).stackPosition)).stackPosition = 1 + F := by
      simp [Executor.new, hpos]
    simp only [hsp]
    exact h3

theorem leads_runJob {F c : Nat} {s0 s : State} (h : Leads F c s0 s) (j : Job)
    (hj : JobOk F j) (hc : c + (if j.isToken then 1 else 0) ≤ 1) :
    ∃ F', Leads F' 1 s0 (runJob j s) := by
  have hpos : ∀ (r : PromiseRef) (q : Nat), q ≤ F → r.pos = some q →
      ∀ p, r.pos = some p → p ≤ F := by
    intro r q hq hr p hp2
    rw [hr] at hp2; cases hp2; exact hq
  cases j with
  | react r o =>
    cases r with
    | runCont pos =>
      have hF : pos = F := by
        have := hj.2 rfl
        simpa [Job.pos, Reaction.pos] using this
      subst hF
      have hc0 : c = 0 := by simpa [Job.isToken, Reaction.isRunCont] using hc
      subst hc0
      refine ⟨pos, ?_⟩
      have h1 := leads_enqueue_token h (.checkFlag pos) ⟨fun p hp => (by cases hp; exact Nat.le_refl _),
        fun _ => rfl⟩
      exact leads_returnInternal h1 pos (Nat.le_refl _)
    | mwResume pos =>
      have hp : pos ≤ F := hj.1 pos rfl
      have hc1 : c ≤ 1 := by simpa [Job.isToken, Reaction.isRunCont] using hc
      exact ⟨F, (leads_resumeAsync h pos hp o).mono hc1⟩
    | asyncDone pos =>
      have hp : pos ≤ F := hj.1 pos rfl
      have hc1 : c ≤ 1 := by simpa [Job.isToken, Reaction.isRunCont] using hc
      refine ⟨F, Leads.mono ?_ hc1⟩
      cases o with
      | fulfilled => exact leads_succeed h pos hp
      | rejected err =>
        have h1 := leads_setNode h pos { s.nodes pos with asyncMiddlewareFailed := true }
          rfl rfl rfl rfl rfl rfl
        exact leads_fail (leads_resolve h1 (.cleanup pos) (hpos _ pos hp rfl)) pos hp err
    | settleRun pos =>
      have hp : pos ≤ F := hj.1 pos rfl
      have hc1 : c ≤ 1 := by simpa [Job.isToken, Reaction.isRunCont] using hc
      refine ⟨F, Leads.mono ?_ hc1⟩
      cases o with
      | fulfilled => exact leads_resolve h (.run pos) (hpos _ pos hp rfl)
      | rejected err => exact leads_reject h (.run pos) err (hpos _ pos hp rfl)
    | settleResult pos =>
      have hp : pos ≤ F := hj.1 pos rfl
      have hc1 : c ≤ 1 := by simpa [Job.isToken, Reaction.isRunCont] using hc
      refine ⟨F, Leads.mono ?_ hc1⟩
      cases o with
      | fulfilled => exact leads_resolve h (.own pos) (hpos _ pos hp rfl)
      | rejected err => exact leads_reject h (.own pos) err (hpos _ pos hp rfl)
    | runRemainingCont pos =>
      have hp : pos ≤ F := hj.1 pos rfl
      have hc1 : c ≤ 1 := by simpa [Job.isToken, Reaction.isRunCont] using hc
      refine ⟨F, Leads.mono ?_ hc1⟩
      cases o with
      | fulfilled => exact leads_finish h pos hp _
      | rejected err => exact leads_finish h pos hp _
    | handlerResume =>
      have hc1 : c ≤ 1 := by simpa [Job.isToken, Reaction.isRunCont] using hc
      exact ⟨F, (leads_runHandler _ _ h).mono hc1⟩
    | routeCont =>
      have hc1 : c ≤ 1 := by simpa [Job.isToken, Reaction.isRunCont] using hc
      refine ⟨F, Leads.mono ?_ hc1⟩
      cases o with
      | fulfilled => exact leads_resolve h .route (fun p hp => by cases hp)
      | rejected err => exact leads_reject h .route err (fun p hp => by cases hp)
  | checkFlag pos =>
    have hF : pos = F := by
      have := hj.2 rfl
      simpa [Job.pos] using this
    subst hF
    have hc0 : c = 0 := by simpa [Job.isToken] using hc
    subst hc0
    simp only [runJob]
    split
    · exact ⟨pos, h.mono (Nat.zero_le 1)⟩
    · exact leads_runRemaining h
  | adopt pos =>
    have hp : pos ≤ F := hj.1 pos rfl
    have hc1 : c ≤ 1 := by simpa [Job.isToken] using hc
    exact ⟨F, (leads_subscribe_plain h (.internal pos) (.settleRun pos)
      (fun p hp2 => by cases hp2; exact hp) rfl).mono hc1⟩
  | adoptResult pos =>
    have hp : pos ≤ F := hj.1 pos rfl
    have hc1 : c ≤ 1 := by simpa [Job.isToken] using hc
    exact ⟨F, (leads_subscribe_plain h (.teardown pos) (.settleResult pos)
      (fun p hp2 => by cases hp2; exact hp) rfl).mono hc1⟩
  | deferred pos e =>
    have hp : pos ≤ F := hj.1 pos rfl
    have hc1 : c ≤ 1 := by simpa [Job.isToken] using hc
    exact ⟨F, (leads_next h pos hp e).mono hc1⟩

theorem leads_step {F : Nat} {s0 s : State} (h : Leads F 1 s0 s) :
    ∃ F', Leads F' 1 s0 (step s) := by
  unfold step
  split
  · exact ⟨F, h⟩
  · next j q hq =>
    obtain ⟨hstab, hf, ht⟩ := h
    have hj : JobOk F j := hf.jobs j (by rw [hq]; exact List.mem_cons_self _ _)
    have h1 : Leads F (1 - if j.isToken then 1 else 0) s0 { s with queue := q } := by
      refine ⟨hstab, ⟨hf.pos, hf.fresh, ?_, hf.reactions⟩, ?_⟩
      · intro j' hj'
        exact hf.jobs j' (by rw [hq]; exact List.mem_cons_of_mem _ hj')
      · have hg : ({ s with queue := q } : State).getP (.cleanup F) = s.getP (.cleanup F) := rfl
        simp only [tokens, hg]
        simp only [tokens, hq, List.countP_cons] at ht
        cases hjt : j.isToken <;>
          simp only [hjt, Bool.false_eq_true, ↓reduceIte] at ht ⊢ <;> omega
    exact leads_runJob h1 j hj (by split <;> simp)

theorem leads_runJobs {s0 : State} (n : Nat) :
    ∀ {F : Nat} {s : State}, Leads F 1 s0 s → ∃ F', Leads F' 1 s0 (runJobs n s) := by
  induction n with
  | zero => intro F s h; exact ⟨F, h⟩
  | succ n ih =>
    intro F s h
    obtain ⟨F1, h1⟩ := leads_step h
    exact ih h1

theorem frontier_init (e : Executor) (he : e.stackPosition = 1)
    (h1 : e.internalPromise = controlledPromise) (h2 : e.teardownPromise = controlledPromise)
    (h3 : e.cleanupPromise = controlledPromise) (h4 : e.ownPromise = controlledPromise)
    (h5 : e.runPromise = controlledPromise) :
    Frontier 1 (State.init e) ∧ tokens 1 (State.init e) ≤ 0 := by
  have hg : ∀ r, (State.init e).getP r = controlledPromise := by
    intro r
    cases r <;> simp [State.init, State.getP, h1, h2, h3, h4, h5]
  refine ⟨⟨he, fun q _ => by rw [hg]; rfl, by simp [State.init], ?_⟩, ?_⟩
  · intro r x hx
    rw [hg] at hx
    simp [controlledPromise] at hx
  · have hq : (State.init e).queue = [] := rfl
    simp [tokens, hg, hq, controlledPromise]

/-- At every moment of a request the executors created so far are those up to some
position, with at most one call of `runRemaining()` pending for the last. -/
theorem frontier_runRoute (chain : List Middleware) (h : Handler) (req res n : Nat) :
    ∃ F, Frontier F (runRoute n chain h req res) ∧ tokens F (runRoute n chain h req res) ≤ 1 := by
  obtain ⟨hf, ht⟩ := frontier_init (Executor.new chain h req res none) rfl rfl rfl rfl rfl rfl
  have h1 := leads_run (leads_refl hf ht)
  have h2 := leads_subscribe_plain h1 (.run 1) .routeCont (fun p hp => by cases hp) rfl
  obtain ⟨F, h3⟩ := leads_runJobs n h2
  exact ⟨F, h3.2.1, h3.2.2⟩

/-- During a request a settled `internalPromise` is never settled again, nor replaced. -/
theorem internal_stable (chain : List Middleware) (h : Handler) (req res n m q : Nat)
    (hq : ((runRoute n chain h req res).nodes q).internalPromise.status ≠ .pending) :
    ((runRoute (n + m) chain h req res).nodes q).internalPromise.status =
      ((runRoute n chain h req res).nodes q).internalPromise.status := by
  obtain ⟨F, hf, ht⟩ := frontier_runRoute chain h req res n
  obtain ⟨F', h3⟩ := leads_runJobs m (leads_refl hf ht)
  have : runRoute (n + m) chain h req res = runJobs m (runRoute n chain h req res) := by
    unfold runRoute
    rw [runJobs_add]
  rw [this]
  exact h3.1 q hq


theorem call_settled (c : ControlledPromise) (hc : c.status ≠ .pending) (x : Settlement) :
    c.call x = (c, []) := by
  cases x <;> cases hs : c.status <;>
    simp_all [ControlledPromise.call, ControlledPromise.resolve, ControlledPromise.reject]

theorem call_pending (c : ControlledPromise) (hc : c.status = .pending) (x : Settlement) :
    (c.call x).1.status = x.status := by
  cases x <;>
    simp [ControlledPromise.call, ControlledPromise.resolve, ControlledPromise.reject, hc,
      Settlement.status]

theorem calls_settled (c : ControlledPromise) (hc : c.status ≠ .pending)
    (xs : List Settlement) : c.calls xs = c := by
  induction xs with
  | nil => rfl
  | cons x xs ih => simp [ControlledPromise.calls, call_settled c hc x, ih]

theorem settle_settled (pos : Nat) (s : State)
    (hs : (s.nodes pos).internalPromise.status ≠ .pending) (x : Settlement) :
    Executor.settle pos x s = s := by
  have h1 := call_settled _ hs .resolve
  cases x with
  | resolve =>
    have h1 := call_settled _ hs .resolve
    simp only [ControlledPromise.call] at h1
    simp [Executor.settle, Executor.succeed, State.resolve, State.getP, State.setP, h1,
      State.setNode, State.enqueue]
  | reject err =>
    have h1 := call_settled _ hs (.reject err)
    simp only [ControlledPromise.call] at h1
    simp [Executor.settle, Executor.fail, State.reject, State.getP, State.setP, h1,
      State.setNode, State.enqueue]

theorem settle_pending (pos : Nat) (s : State)
    (hs : (s.nodes pos).internalPromise.status = .pending) (x : Settlement) :
    ((Executor.settle pos x s).nodes pos).internalPromise.status = x.status := by
  cases x <;>
    simp [Executor.settle, Executor.succeed, Executor.fail, State.resolve, State.reject,
      State.getP, State.setP, State.setNode, State.enqueue, ControlledPromise.resolve,
      ControlledPromise.reject, hs, Settlement.status]

theorem settles_settled (pos : Nat) (xs : List Settlement) (s : State)
    (hs : (s.nodes pos).internalPromise.status ≠ .pending) : Executor.settles pos xs s = s := by
  induction xs with
  | nil => rfl
  | cons x xs ih => simp [Executor.settles, settle_settled pos s hs x, ih]

/-- C13: a call of `resolve` or `reject` settles a pending controlled promise; every later
call of either leaves the promise as it is and queues nothing. So it is with `succeed` and
`fail` of an executor: the first call gives `internalPromise` its outcome and the later
ones leave the whole state as it is. And in every request, once `internalPromise` of an
executor is settled it keeps that outcome at every later moment. -/
theorem C13_single_settlement (c : ControlledPromise) (first : Settlement)
    (later : List Settlement) (s : State) (pos : Nat) (chain : List Middleware) (h : Handler)
    (req res n m q : Nat) :
    (c.status = .pending →
      (c.call first).1.status = first.status ∧
      (∀ x, ((c.call first).1.call x) = ((c.call first).1, [])) ∧
      (c.calls (first :: later)).status = first.status) ∧
    ((s.nodes pos).internalPromise.status = .pending →
      ((Executor.settle pos first s).nodes pos).internalPromise.status = first.status ∧
      Executor.settles pos (first :: later) s = Executor.settle pos first s) ∧
    (((runRoute n chain h req res).nodes q).internalPromise.status ≠ .pending →
      ((runRoute (n + m) chain h req res).nodes q).internalPromise.status =
        ((runRoute n chain h req res).nodes q).internalPromise.status) := by
  have hfirst : ∀ x : Settlement, x.status ≠ .pending := by
    intro x; cases x <;> simp [Settlement.status]
  refine ⟨fun hc => ?_, fun hs => ?_, internal_stable chain h req res n m q⟩
  · have h1 := call_pending c hc first
    have h2 : (c.call first).1.status ≠ .pending := by rw [h1]; exact hfirst first
    refine ⟨h1, fun x => call_settled _ h2 x, ?_⟩
    simp only [ControlledPromise.calls]
    rw [calls_settled _ h2, h1]
  · have h1 := settle_pending pos s hs first
    refine ⟨h1, ?_⟩
    simp only [Executor.settles]
    exact settles_settled pos later _ (by rw [h1]; exact hfirst first)

/-- An instance of C13: a promise that is rejected and then resolved stays rejected, as
does an executor on which `fail` is called before `succeed`; and the executor of a
middleware that passed `"boom"` to its continuation is rejected with it after one job and
still after six. -/
theorem C13_single_settlement_witness :
    controlledPromise.status = .pending ∧
    (controlledPromise.calls [.reject (.str "boom"), .resolve]).status =
      .rejected (.str "boom") ∧
    ((State.init (Executor.new [] (.plain []) 0 0 none)).nodes 1).internalPromise.status =
      .pending ∧
    Executor.settles 1 [.reject (.str "boom"), .resolve]
        (State.init (Executor.new [] (.plain []) 0 0 none)) =
      Executor.settle 1 (.reject (.str "boom"))
        (State.init (Executor.new [] (.plain []) 0 0 none)) ∧
    ((runRoute 1 [⟨"mwA", 3, .plain [.next (.str "boom")]⟩] (.plain []) 0 0).nodes
      1).internalPromise.status ≠ .pending ∧
    ((runRoute (1 + 5) [⟨"mwA", 3, .plain [.next (.str "boom")]⟩] (.plain []) 0 0).nodes
      1).internalPromise.status = .rejected (.str "boom") :=
  ⟨rfl,
    ((C13_single_settlement controlledPromise (.reject (.str "boom")) [.resolve]
      (State.init (Executor.new [] (.plain []) 0 0 none)) 1
      [⟨"mwA", 3, .plain [.next (.str "boom")]⟩] (.plain []) 0 0 1 5 1).1 rfl).2.2,
    rfl,
    ((C13_single_settlement controlledPromise (.reject (.str "boom")) [.resolve]
      (State.init (Executor.new [] (.plain []) 0 0 none)) 1
      [⟨"mwA", 3, .plain [.next (.str "boom")]⟩] (.plain []) 0 0 1 5 1).2.1 rfl).2,
    by decide,
    ((C13_single_settlement controlledPromise (.reject (.str "boom")) [.resolve]
      (State.init (Executor.new [] (.plain []) 0 0 none)) 1
      [⟨"mwA", 3, .plain [.next (.str "boom")]⟩] (.plain []) 0 0 1 5 1).2.2 (by decide)).trans
      (by decide)⟩

/-! ## Request, response and position -/

section
variable {chain : List Middleware} {h : Handler} {req res : Nat}

theorem kept_emit {s : State} (hk : Kept chain h req res s) (ev : Event)
    (hev : ev.Genuine chain req res) : Kept chain h req res (s.emit ev) := by
  refine ⟨hk.nodes, fun e he => ?_⟩
  rcases List.mem_append.1 he with h1 | h1
  · exact hk.log e h1
  · simp only [List.mem_singleton] at h1; subst h1; exact hev

theorem kept_enqueue {s : State} (hk : Kept chain h req res s) (js : List Job) :
    Kept chain h req res (s.enqueue js) := ⟨hk.nodes, hk.log⟩

theorem kept_setNode {s : State} (hk : Kept chain h req res s) (pos : Nat) (e : Executor)
    (he : e.Carries chain h req res) : Kept chain h req res (s.setNode pos e) := by
  refine ⟨fun q => ?_, hk.log⟩
  simp only [State.setNode, Function.update_apply]
  split
  · exact he
  · exact hk.nodes q

theorem kept_setP {s : State} (hk : Kept chain h req res s) (r : PromiseRef)
    (c : ControlledPromise) : Kept chain h req res (s.setP r c) := by
  cases r with
  | internal p => exact kept_setNode hk p _ (hk.nodes p)
  | teardown p => exact kept_setNode hk p _ (hk.nodes p)
  | cleanup p => exact kept_setNode hk p _ (hk.nodes p)
  | own p => exact kept_setNode hk p _ (hk.nodes p)
  | run p => exact kept_setNode hk p _ (hk.nodes p)
  | handler => exact ⟨hk.nodes, hk.log⟩
  | route => exact ⟨hk.nodes, hk.log⟩

theorem kept_resolve {s : State} (hk : Kept chain h req res s) (r : PromiseRef) :
    Kept chain h req res (s.resolve r) := kept_enqueue (kept_setP hk r _) _

theorem kept_reject {s : State} (hk : Kept chain h req res s) (r : PromiseRef) (e : Value) :
    Kept chain h req res (s.reject r e) := kept_enqueue (kept_setP hk r _) _

theorem kept_subscribe {s : State} (hk : Kept chain h req res s) (r : PromiseRef)
    (k : Reaction) : Kept chain h req res (s.subscribe r k) := kept_enqueue (kept_setP hk r _) _

theorem kept_next {s : State} (hk : Kept chain h req res s) (pos : Nat) (e : Value) :
    Kept chain h req res (Executor.next pos e s).1 := by
  rw [next_fst]
  exact kept_resolve (kept_emit hk (.nextCalled pos (defaultNull e)) trivial) _

theorem kept_callSync (pos : Nat) (code : List SyncStmt) :
    ∀ s, Kept chain h req res s → Kept chain h req res (callSync pos code s).1 := by
  induction code with
  | nil => intro s hk; exact hk
  | cons st code ih =>
    intro s hk
    cases st with
    | log m => exact ih _ (kept_emit hk (.log m) trivial)
    | next e =>
      simp only [callSync]
      split
      · exact kept_next hk pos e
      · exact ih _ (kept_next hk pos e)
    | returnNext e =>
      simp only [callSync]
      split <;> exact kept_next hk pos e
    | throw v => exact hk
    | defer e => exact ih _ (kept_enqueue hk _)

theorem kept_suspend {s : State} (hk : Kept chain h req res s) (pos : Nat)
    (k : List AsyncStmt) (b : Bool) : Kept chain h req res (suspend pos k b s) :=
  kept_setNode hk pos _ (hk.nodes pos)

theorem kept_runAsync (pos : Nat) (code : List AsyncStmt) :
    ∀ s, Kept chain h req res s → Kept chain h req res (runAsync pos code s) := by
  induction code with
  | nil => intro s hk; exact kept_resolve hk _
  | cons st code ih =>
    intro s hk
    cases st with
    | log m => exact ih _ (kept_emit hk (.log m) trivial)
    | next e =>
      simp only [runAsync]
      split
      · exact kept_reject (kept_next hk pos e) _ _
      · exact ih _ (kept_next hk pos e)
    | awaitNext e =>
      simp only [runAsync]
      split
      · exact kept_reject (kept_next hk pos e) _ _
      · exact kept_subscribe (kept_suspend (kept_next hk pos e) _ _ _) _ _
    | tryAwaitNext e =>
      simp only [runAsync]
      split
      · exact ih _ (kept_emit (kept_next hk pos e) (.caught pos _) trivial)
      · exact kept_subscribe (kept_suspend (kept_next hk pos e) _ _ _) _ _
    | awaitTick => exact kept_enqueue (kept_suspend hk _ _ _) _
    | returnNext e =>
      simp only [runAsync]
      split
      · exact kept_reject (kept_next hk pos e) _ _
      · exact kept_enqueue (kept_next hk pos e) _
    | throw v => exact kept_reject hk _ _
    | defer e => exact ih _ (kept_enqueue hk _)

theorem kept_resumeAsync {s : State} (hk : Kept chain h req res s) (pos : Nat) (o : Settled) :
    Kept chain h req res (resumeAsync pos o s) := by
  unfold resumeAsync
  cases o with
  | fulfilled => exact kept_runAsync pos _ _ hk
  | rejected e =>
    simp only
    split
    · exact kept_runAsync pos _ _ (kept_emit hk (.caught pos e) trivial)
    · exact kept_reject hk _ _

theorem kept_callHandler (code : List PlainHandlerStmt) :
    ∀ s, Kept chain h req res s → Kept chain h req res (callHandler code s).1 := by
  induction code with
  | nil => intro s hk; exact hk
  | cons st code ih =>
    intro s hk
    cases st with
    | log m => exact ih _ (kept_emit hk (.log m) trivial)
    | throw v => exact hk

theorem kept_runHandler (code : List HandlerStmt) :
    ∀ s, Kept chain h req res s → Kept chain h req res (runHandler code s) := by
  induction code with
  | nil => intro s hk; exact kept_resolve hk _
  | cons st code ih =>
    intro s hk
    cases st with
    | log m => exact ih _ (kept_emit hk (.log m) trivial)
    | awaitTick => exact ⟨hk.nodes, hk.log⟩
    | throw v => exact kept_reject hk _ _

theorem kept_finish {s : State} (hk : Kept chain h req res s) (pos : Nat) (v : Value) :
    Kept chain h req res (Executor.finish pos v s) := by
  unfold Executor.finish
  split
  · split
    · exact kept_reject hk _ _
    · exact kept_resolve hk _
  · split
    · exact kept_reject hk _ _
    · exact kept_resolve hk _

theorem kept_afterCall {s : State} (hk : Kept chain h req res s) (pos : Nat) (r : Result) :
    Kept chain h req res (Executor.afterCall pos r s) := by
  unfold Executor.afterCall
  have h1 : Kept chain h req res
      (s.setNode pos { s.nodes pos with result := r, asyncMiddlewareFailed := false }) :=
    kept_setNode hk pos _ (hk.nodes pos)
  cases r with
  | undefined => exact kept_subscribe h1 _ _
  | ownPromise => exact kept_subscribe (kept_subscribe h1 _ _) _ _
  | teardown => exact kept_subscribe (kept_subscribe h1 _ _) _ _

/-- The method `run()` of an executor that stands at its own position. -/
theorem kept_run {s : State} (hk : Kept chain h req res s) (pos : Nat)
    (hpos : (s.nodes pos).stackPosition = pos) : Kept chain h req res (Executor.run pos s) := by
  unfold Executor.run
  have h1 : Kept chain h req res
      (s.setNode pos { s.nodes pos with cleanupPromise := controlledPromise }) :=
    kept_setNode hk pos _ (hk.nodes pos)
  have hn : (s.setNode pos { s.nodes pos with cleanupPromise := controlledPromise }).nodes pos =
      { s.nodes pos with cleanupPromise := controlledPromise } := by
    simp [State.setNode]
  simp only [hn]
  split
  · exact kept_enqueue (kept_reject h1 _ _) _
  · next fn hfn =>
    obtain ⟨hreq, hres, -, h1le, hcur, -⟩ := hk.nodes pos
    have hev : (Event.mwCalled pos fn.name (s.nodes pos).req (s.nodes pos).res).Genuine
        chain req res := by
      refine ⟨hreq, hres, by omega, fn, ?_, rfl⟩
      rw [hpos] at hcur
      rw [← hcur]
      exact hfn
    have h2 := kept_emit h1 _ hev
    split
    · next code hcode =>
      split
      · exact kept_enqueue (kept_reject (kept_callSync pos code _ h2) _ _) _
      · exact kept_afterCall (kept_callSync pos code _ h2) _ _
    · next code hcode => exact kept_afterCall (kept_runAsync pos code _ h2) _ _

theorem carries_new {e : Executor} (he : e.Carries chain h req res) :
    (Executor.new e.remaining e.apiRouteFn e.req e.res (some e.stackPosition)).Carries
      chain h req res := by
  obtain ⟨hreq, hres, hh, h1, hcur, hrem⟩ := he
  refine ⟨hreq, hres, hh, by simp [Executor.new], ?_, ?_⟩
  · simp [Executor.new, hrem, List.head?_drop]
  · simp [Executor.new, hrem, List.tail_drop, Nat.add_comm]

theorem kept_runRemaining {s : State} (hk : Kept chain h req res s) (pos : Nat) :
    Kept chain h req res (Executor.runRemaining pos s) := by
  unfold Executor.runRemaining
  simp only
  split
  · obtain ⟨hreq, hres, -, -, -, -⟩ := hk.nodes pos
    have h1 := kept_emit hk (.handlerCalled (s.nodes pos).req (s.nodes pos).res) ⟨hreq, hres⟩
    split
    · next code hcode =>
      split
      · exact kept_finish (kept_callHandler code _ h1) _ _
      · exact kept_enqueue (kept_callHandler code _ h1) _
    · next code hcode =>
      have h2 : Kept chain h req res
          ((s.emit (.handlerCalled (s.nodes pos).req (s.nodes pos).res)).setP .handler
            controlledPromise) := kept_setP h1 _ _
      exact kept_subscribe (kept_runHandler code _ h2) _ _
  · have h1 := kept_setNode hk
      (Executor.new (s.nodes pos).remaining (s.nodes pos).apiRouteFn (s.nodes pos).req
        (s.nodes pos).res (some (s.nodes pos).stackPosition)).stackPosition _
      (carries_new (hk.nodes pos))
    exact kept_subscribe (kept_run h1 _ (by simp [State.setNode])) _ _

theorem kept_runJob {s : State} (hk : Kept chain h req res s) (j : Job) :
    Kept chain h req res (runJob j s) := by
  cases j with
  | react r o =>
    cases r with
    | runCont pos => exact kept_enqueue (kept_enqueue hk _) _
    | mwResume pos => exact kept_resumeAsync hk pos o
    | asyncDone pos =>
      cases o with
      | fulfilled => exact kept_resolve hk _
      | rejected err =>
        exact kept_reject (kept_resolve (kept_setNode hk pos
          { s.nodes pos with asyncMiddlewareFailed := true } (hk.nodes pos)) _) _ _
    | settleRun pos => cases o <;> first | exact kept_resolve hk _ | exact kept_reject hk _ _
    | settleResult pos => cases o <;> first | exact kept_resolve hk _ | exact kept_reject hk _ _
    | runRemainingCont pos => cases o <;> exact kept_finish hk _ _
    | handlerResume => exact kept_runHandler _ _ hk
    | routeCont => cases o <;> first | exact kept_resolve hk _ | exact kept_reject hk _ _
  | checkFlag pos =>
    simp only [runJob]
    split
    · exact hk
    · exact kept_runRemaining hk pos
  | adopt pos => exact kept_subscribe hk _ _
  | adoptResult pos => exact kept_subscribe hk _ _
  | deferred pos e => exact kept_next hk pos e

theorem kept_step {s : State} (hk : Kept chain h req res s) : Kept chain h req res (step s) := by
  unfold step
  split
  · exact hk
  · next j q hq =>
    have h1 : Kept chain h req res { s with queue := q } := ⟨hk.nodes, hk.log⟩
    exact kept_runJob h1 j

theorem kept_runJobs (n : Nat) :
    ∀ {s : State}, Kept chain h req res s → Kept chain h req res (runJobs n s) := by
  induction n with
  | zero => intro s hk; exact hk
  | succ n ih => intro s hk; exact ih (kept_step hk)

end

/-- At every moment of a request every executor carries the request, the response and the
handler of the route and the part of the chain of its position, and every call among the
events is genuine. -/
theorem kept_runRoute (chain : List Middleware) (h : Handler) (req res n : Nat) :
    Kept chain h req res (runRoute n chain h req res) := by
  have h0 : Kept chain h req res (State.init (Executor.new chain h req res none)) := by
    refine ⟨fun q => ?_, by simp [State.init]⟩
    refine ⟨rfl, rfl, rfl, by simp [Executor.new, State.init], ?_, ?_⟩
    · cases chain <;> simp [Executor.new, State.init]
    · cases chain <;> simp [Executor.new, State.init]
  exact kept_runJobs n (kept_subscribe (kept_run h0 _ rfl) _ _)

section
variable {d : Nat}

theorem sim_setNode {s t : State} (h : Sim d s t) (p : Nat) (e : Executor) :
    Sim d (s.setNode p e) (t.setNode (p + d) (e.shift d)) := by
  refine ⟨fun q => ?_, h.queue, h.log, h.handlerPromise, h.handlerCode, h.routePromise⟩
  simp only [State.setNode, Function.update_apply, Nat.add_right_cancel_iff]
  split
  · rfl
  · exact h.nodes q

theorem sim_enqueue {s t : State} (h : Sim d s t) (js : List Job) :
    Sim d (s.enqueue js) (t.enqueue (js.map (Job.shift d))) :=
  ⟨h.nodes, by simp [State.enqueue, h.queue], h.log, h.handlerPromise, h.handlerCode,
    h.routePromise⟩

theorem sim_emit {s t : State} (h : Sim d s t) (ev : Event) :
    Sim d (s.emit ev) (t.emit (ev.shift d)) :=
  ⟨h.nodes, h.queue, by simp [State.emit, h.log], h.handlerPromise, h.handlerCode,
    h.routePromise⟩

theorem sim_getP {s t : State} (h : Sim d s t) (r : PromiseRef) :
    t.getP (r.shift d) = (s.getP r).shift d := by
  cases r <;> simp [State.getP, PromiseRef.shift, h.nodes, Executor.shift, h.handlerPromise,
    h.routePromise]

theorem sim_setP {s t : State} (h : Sim d s t) (r : PromiseRef) (c : ControlledPromise) :
    Sim d (s.setP r c) (t.setP (r.shift d) (c.shift d)) := by
  cases r with
  | internal p =>
    have := sim_setNode h p { s.nodes p with internalPromise := c }
    simpa [State.setP, PromiseRef.shift, h.nodes, Executor.shift] using this
  | teardown p =>
    have := sim_setNode h p { s.nodes p with teardownPromise := c }
    simpa [State.setP, PromiseRef.shift, h.nodes, Executor.shift] using this
  | cleanup p =>
    have := sim_setNode h p { s.nodes p with cleanupPromise := c }
    simpa [State.setP, PromiseRef.shift, h.nodes, Executor.shift] using this
  | own p =>
    have := sim_setNode h p { s.nodes p with ownPromise := c }
    simpa [State.setP, PromiseRef.shift, h.nodes, Executor.shift] using this
  | run p =>
    have := sim_setNode h p { s.nodes p with runPromise := c }
    simpa [State.setP, PromiseRef.shift, h.nodes, Executor.shift] using this
  | handler => exact ⟨h.nodes, h.queue, h.log, rfl, h.handlerCode, h.routePromise⟩
  | route => exact ⟨h.nodes, h.queue, h.log, h.handlerPromise, h.handlerCode, rfl⟩

theorem shift_resolve (c : ControlledPromise) :
    (c.shift d).resolve = (c.resolve.1.shift d, c.resolve.2.map (Job.shift d)) := by
  cases hs : c.status <;>
    simp [ControlledPromise.resolve, ControlledPromise.shift, hs, Job.shift, Function.comp_def]

theorem shift_reject (c : ControlledPromise) (e : Value) :
    (c.shift d).reject e = ((c.reject e).1.shift d, (c.reject e).2.map (Job.shift d)) := by
  cases hs : c.status <;>
    simp [ControlledPromise.reject, ControlledPromise.shift, hs, Job.shift, Function.comp_def]

theorem shift_subscribe (c : ControlledPromise) (k : Reaction) :
    (c.shift d).subscribe (k.shift d) =
      ((c.subscribe k).1.shift d, (c.subscribe k).2.map (Job.shift d)) := by
  cases hs : c.status <;>
    simp [ControlledPromise.subscribe, ControlledPromise.shift, hs, Job.shift]

theorem sim_resolve {s t : State} (h : Sim d s t) (r : PromiseRef) :
    Sim d (s.resolve r) (t.resolve (r.shift d)) := by
  unfold State.resolve
  rw [sim_getP h, shift_resolve]
  exact sim_enqueue (sim_setP h r _) _

theorem sim_reject {s t : State} (h : Sim d s t) (r : PromiseRef) (e : Value) :
    Sim d (s.reject r e) (t.reject (r.shift d) e) := by
  unfold State.reject
  rw [sim_getP h, shift_reject]
  exact sim_enqueue (sim_setP h r _) _

theorem sim_subscribe {s t : State} (h : Sim d s t) (r : PromiseRef) (k : Reaction) :
    Sim d (s.subscribe r k) (t.subscribe (r.shift d) (k.shift d)) := by
  unfold State.subscribe
  rw [sim_getP h, shift_subscribe]
  exact sim_enqueue (sim_setP h r _) _

theorem next_snd (pos : Nat) (e : Value) (s : State) :
    (Executor.next pos e s).2 = if (defaultNull e).truthy then some (defaultNull e) else none := by
  unfold Executor.next
  simp only
  split <;> rfl

theorem sim_next {s t : State} (h : Sim d s t) (p : Nat) (e : Value) :
    Sim d (Executor.next p e s).1 (Executor.next (p + d) e t).1 ∧
      (Executor.next (p + d) e t).2 = (Executor.next p e s).2 := by
  refine ⟨?_, by rw [next_snd, next_snd]⟩
  rw [next_fst, next_fst]
  exact sim_resolve (sim_emit h _) (.cleanup p)

theorem sim_callSync (p : Nat) (code : List SyncStmt) :
    ∀ (s t : State), Sim d s t →
      Sim d (callSync p code s).1 (callSync (p + d) code t).1 ∧
        (callSync (p + d) code t).2 = (callSync p code s).2 := by
  induction code with
  | nil => intro s t h; exact ⟨h, rfl⟩
  | cons st code ih =>
    intro s t h
    cases st with
    | log m => exact ih _ _ (sim_emit h (.log m))
    | next e =>
      obtain ⟨h1, h2⟩ := sim_next h p e
      simp only [callSync, h2]
      split
      · exact ⟨h1, rfl⟩
      · exact ih _ _ h1
    | returnNext e =>
      obtain ⟨h1, h2⟩ := sim_next h p e
      simp only [callSync, h2]
      split <;> exact ⟨h1, rfl⟩
    | throw v => exact ⟨h, rfl⟩
    | defer e => exact ih _ _ (sim_enqueue h [.deferred p e])

theorem sim_suspend {s t : State} (h : Sim d s t) (p : Nat) (k : List AsyncStmt) (b : Bool) :
    Sim d (suspend p k b s) (suspend (p + d) k b t) := by
  have := sim_setNode h p { s.nodes p with mwCode := k, mwInTry := b }
  simpa [suspend, h.nodes, Executor.shift] using this

theorem sim_runAsync (p : Nat) (code : List AsyncStmt) :
    ∀ (s t : State), Sim d s t → Sim d (runAsync p code s) (runAsync (p + d) code t) := by
  induction code with
  | nil => intro s t h; exact sim_resolve h (.own p)
  | cons st code ih =>
    intro s t h
    cases st with
    | log m => exact ih _ _ (sim_emit h (.log m))
    | next e =>
      obtain ⟨h1, h2⟩ := sim_next h p e
      simp only [runAsync, h2]
      split
      · exact sim_reject h1 (.own p) _
      · exact ih _ _ h1
    | awaitNext e =>
      obtain ⟨h1, h2⟩ := sim_next h p e
      simp only [runAsync, h2]
      split
      · exact sim_reject h1 (.own p) _
      · exact sim_subscribe (sim_suspend h1 p _ _) (.teardown p) (.mwResume p)
    | tryAwaitNext e =>
      obtain ⟨h1, h2⟩ := sim_next h p e
      simp only [runAsync, h2]
      split
      · exact ih _ _ (sim_emit h1 (.caught p _))
      · exact sim_subscribe (sim_suspend h1 p _ _) (.teardown p) (.mwResume p)
    | awaitTick => exact sim_enqueue (sim_suspend h p _ _) [.react (.mwResume p) .fulfilled]
    | returnNext e =>
      obtain ⟨h1, h2⟩ := sim_next h p e
      simp only [runAsync, h2]
      split
      · exact sim_reject h1 (.own p) _
      · exact sim_enqueue h1 [.adoptResult p]
    | throw v => exact sim_reject h (.own p) v
    | defer e => exact ih _ _ (sim_enqueue h [.deferred p e])

theorem sim_resumeAsync {s t : State} (h : Sim d s t) (p : Nat) (o : Settled) :
    Sim d (resumeAsync p o s) (resumeAsync (p + d) o t) := by
  unfold resumeAsync
  have hc : (t.nodes (p + d)).mwCode = (s.nodes p).mwCode := by rw [h.nodes]; rfl
  have hb : (t.nodes (p + d)).mwInTry = (s.nodes p).mwInTry := by rw [h.nodes]; rfl
  cases o with
  | fulfilled => simp only [hc]; exact sim_runAsync p _ _ _ h
  | rejected e =>
    simp only [hc, hb]
    split
    · exact sim_runAsync p _ _ _ (sim_emit h (.caught p e))
    · exact sim_reject h (.own p) e

theorem sim_callHandler (code : List PlainHandlerStmt) :
    ∀ (s t : State), Sim d s t →
      Sim d (callHandler code s).1 (callHandler code t).1 ∧
        (callHandler code t).2 = (callHandler code s).2 := by
  induction code with
  | nil => intro s t h; exact ⟨h, rfl⟩
  | cons st code ih =>
    intro s t h
    cases st with
    | log m => exact ih _ _ (sim_emit h (.log m))
    | throw v => exact ⟨h, rfl⟩

theorem sim_runHandler (code : List HandlerStmt) :
    ∀ (s t : State), Sim d s t → Sim d (runHandler code s) (runHandler code t) := by
  induction code with
  | nil => intro s t h; exact sim_resolve h .handler
  | cons st code ih =>
    intro s t h
    cases st with
    | log m => exact ih _ _ (sim_emit h (.log m))
    | awaitTick =>
      have h1 : Sim d { s with handlerCode := code } { t with handlerCode := code } :=
        ⟨h.nodes, h.queue, h.log, h.handlerPromise, rfl, h.routePromise⟩
      exact sim_enqueue h1 [.react .handlerResume .fulfilled]
    | throw v => exact sim_reject h .handler v

theorem sim_finish {s t : State} (h : Sim d s t) (p : Nat) (v : Value) :
    Sim d (Executor.finish p v s) (Executor.finish (p + d) v t) := by
  unfold Executor.finish
  have hr : (t.nodes (p + d)).result = (s.nodes p).result := by rw [h.nodes]; rfl
  rw [hr]
  split
  · split
    · exact sim_reject h (.teardown p) v
    · exact sim_resolve h (.teardown p)
  · split
    · exact sim_reject h (.internal p) v
    · exact sim_resolve h (.internal p)

theorem sim_afterCall {s t : State} (h : Sim d s t) (p : Nat) (r : Result) :
    Sim d (Executor.afterCall p r s) (Executor.afterCall (p + d) r t) := by
  unfold Executor.afterCall
  have h1 : Sim d (s.setNode p { s.nodes p with result := r, asyncMiddlewareFailed := false })
      (t.setNode (p + d)
        { t.nodes (p + d) with result := r, asyncMiddlewareFailed := false }) := by
    have := sim_setNode h p { s.nodes p with result := r, asyncMiddlewareFailed := false }
    simpa [h.nodes, Executor.shift] using this
  cases r with
  | undefined => exact sim_subscribe h1 (.cleanup p) (.runCont p)
  | ownPromise =>
    exact sim_subscribe (sim_subscribe h1 (.own p) (.asyncDone p)) (.cleanup p) (.runCont p)
  | teardown =>
    exact sim_subscribe (sim_subscribe h1 (.teardown p) (.asyncDone p)) (.cleanup p) (.runCont p)

theorem sim_returnInternal {s t : State} (h : Sim d s t) (p : Nat) :
    Sim d (Executor.returnInternal p s) (Executor.returnInternal (p + d) t) :=
  sim_enqueue h [.adopt p]

theorem run_eq (pos : Nat) (s : State) :
    Executor.run pos s =
      match (s.nodes pos).currentFn with
      | none =>
        Executor.returnInternal pos
          (Executor.fail pos typeErrorName (s.setP (.cleanup pos) controlledPromise))
      | some fn =>
        match fn.body with
        | .plain code =>
          match (callSync pos code ((s.setP (.cleanup pos) controlledPromise).emit
              (.mwCalled pos fn.name (s.nodes pos).req (s.nodes pos).res))).2 with
          | .thrown e =>
            Executor.returnInternal pos (Executor.fail pos e
              (callSync pos code ((s.setP (.cleanup pos) controlledPromise).emit
                (.mwCalled pos fn.name (s.nodes pos).req (s.nodes pos).res))).1)
          | .returned r =>
            Executor.afterCall pos r
              (callSync pos code ((s.setP (.cleanup pos) controlledPromise).emit
                (.mwCalled pos fn.name (s.nodes pos).req (s.nodes pos).res))).1
        | .async code =>
          Executor.afterCall pos .ownPromise
            (runAsync pos code ((s.setP (.cleanup pos) controlledPromise).emit
              (.mwCalled pos fn.name (s.nodes pos).req (s.nodes pos).res))) := by
  have hn : (s.setNode pos { s.nodes pos with cleanupPromise := controlledPromise }).nodes pos =
      { s.nodes pos with cleanupPromise := controlledPromise } := by simp [State.setNode]
  unfold Executor.run
  simp only [hn]
  rfl

theorem sim_run {s t : State} (h : Sim d s t) (p : Nat) :
    Sim d (Executor.run p s) (Executor.run (p + d) t) := by
  rw [run_eq, run_eq]
  have h1 : Sim d (s.setP (.cleanup p) controlledPromise)
      (t.setP (.cleanup (p + d)) controlledPromise) := sim_setP h (.cleanup p) controlledPromise
  have hcur : (t.nodes (p + d)).currentFn = (s.nodes p).currentFn := by rw [h.nodes]; rfl
  have hreq : (t.nodes (p + d)).req = (s.nodes p).req := by rw [h.nodes]; rfl
  have hres : (t.nodes (p + d)).res = (s.nodes p).res := by rw [h.nodes]; rfl
  rw [hcur, hreq, hres]
  split
  · exact sim_returnInternal (sim_reject h1 (.internal p) _) p
  · next fn hfn =>
    have h2 := sim_emit h1 (.mwCalled p fn.name (s.nodes p).req (s.nodes p).res)
    split
    · next code hcode =>
      obtain ⟨h3, h4⟩ := sim_callSync p code _ _ h2
      simp only [Event.shift] at h3 h4
      rw [h4]
      split
      · exact sim_returnInternal (sim_reject h3 (.internal p) _) p
      · exact sim_afterCall h3 p _
    · next code hcode => exact sim_afterCall (sim_runAsync p code _ _ h2) p _

theorem shift_new (ms : List Middleware) (h : Handler) (req res sp : Nat) :
    (Executor.new ms h req res (some sp)).shift d = Executor.new ms h req res (some (sp + d)) := by
  simp [Executor.new, Executor.shift, ControlledPromise.shift, controlledPromise, Nat.add_assoc]

theorem sim_runRemaining {s t : State} (h : Sim d s t) (p : Nat) :
    Sim d (Executor.runRemaining p s) (Executor.runRemaining (p + d) t) := by
  unfold Executor.runRemaining
  have hn := h.nodes p
  have hrem : (t.nodes (p + d)).remaining = (s.nodes p).remaining := by rw [hn]; rfl
  have hh : (t.nodes (p + d)).apiRouteFn = (s.nodes p).apiRouteFn := by rw [hn]; rfl
  have hreq : (t.nodes (p + d)).req = (s.nodes p).req := by rw [hn]; rfl
  have hres : (t.nodes (p + d)).res = (s.nodes p).res := by rw [hn]; rfl
  have hsp : (t.nodes (p + d)).stackPosition = (s.nodes p).stackPosition + d := by rw [hn]; rfl
  simp only [hrem, hh, hreq, hres, hsp]
  split
  · have h1 := sim_emit h (.handlerCalled (s.nodes p).req (s.nodes p).res)
    split
    · next code hcode =>
      obtain ⟨h3, h4⟩ := sim_callHandler code _ _ h1
      simp only [Event.shift] at h3 h4
      rw [h4]
      split
      · exact sim_finish h3 p _
      · exact sim_enqueue h3 [.react (.runRemainingCont p) .fulfilled]
    · next code hcode =>
      have h2 := sim_setP h1 .handler controlledPromise
      exact sim_subscribe (sim_runHandler code _ _ h2) .handler (.runRemainingCont p)
  · have hk : (Executor.new (s.nodes p).remaining (s.nodes p).apiRouteFn (s.nodes p).req
        (s.nodes p).res (some ((s.nodes p).stackPosition + d))).stackPosition =
        (Executor.new (s.nodes p).remaining (s.nodes p).apiRouteFn (s.nodes p).req
          (s.nodes p).res (some (s.nodes p).stackPosition)).stackPosition + d := by
      simp [Executor.new, Nat.add_assoc]
    rw [hk, ← shift_new]
    exact sim_subscribe (sim_run (sim_setNode h _ _) _) (.run _) (.runRemainingCont p)

theorem sim_runJob {s t : State} (h : Sim d s t) (j : Job) :
    Sim d (runJob j s) (runJob (j.shift d) t) := by
  cases j with
  | react r o =>
    cases r with
    | runCont p => exact sim_returnInternal (sim_enqueue h [.checkFlag p]) p
    | mwResume p => exact sim_resumeAsync h p o
    | asyncDone p =>
      cases o with
      | fulfilled => exact sim_resolve h (.internal p)
      | rejected err =>
        have h1 : Sim d (s.setNode p { s.nodes p with asyncMiddlewareFailed := true })
            (t.setNode (p + d) { t.nodes (p + d) with asyncMiddlewareFailed := true }) := by
          have := sim_setNode h p { s.nodes p with asyncMiddlewareFailed := true }
          simpa [h.nodes, Executor.shift] using this
        exact sim_reject (sim_resolve h1 (.cleanup p)) (.internal p) err
    | settleRun p =>
      cases o with
      | fulfilled => exact sim_resolve h (.run p)
      | rejected err => exact sim_reject h (.run p) err
    | settleResult p =>
      cases o with
      | fulfilled => exact sim_resolve h (.own p)
      | rejected err => exact sim_reject h (.own p) err
    | runRemainingCont p =>
      cases o with
      | fulfilled => exact sim_finish h p _
      | rejected err => exact sim_finish h p _
    | handlerResume =>
      have := sim_runHandler s.handlerCode s t h
      simpa [runJob, runReaction, Job.shift, Reaction.shift, h.handlerCode] using this
    | routeCont =>
      cases o with
      | fulfilled => exact sim_resolve h .route
      | rejected err => exact sim_reject h .route err
  | checkFlag p =>
    have hf : (t.nodes (p + d)).asyncMiddlewareFailed = (s.nodes p).asyncMiddlewareFailed := by
      rw [h.nodes]; rfl
    simp only [runJob, Job.shift, hf]
    split
    · exact h
    · exact sim_runRemaining h p
  | adopt p => exact sim_subscribe h (.internal p) (.settleRun p)
  | adoptResult p => exact sim_subscribe h (.teardown p) (.settleResult p)
  | deferred p e => exact (sim_next h p e).1

theorem sim_step {s t : State} (h : Sim d s t) : Sim d (step s) (step t) := by
  unfold step
  have hq := h.queue
  cases hs : s.queue with
  | nil =>
    rw [hs] at hq
    simp only [List.map_nil] at hq
    rw [hq]
    exact h
  | cons j q =>
    rw [hs] at hq
    simp only [List.map_cons] at hq
    rw [hq]
    have h1 : Sim d { s with queue := q } { t with queue := q.map (Job.shift d) } :=
      ⟨h.nodes, rfl, h.log, h.handlerPromise, h.handlerCode, h.routePromise⟩
    exact sim_runJob h1 j

theorem sim_runJobs (n : Nat) :
    ∀ {s t : State}, Sim d s t → Sim d (runJobs n s) (runJobs n t) := by
  induction n with
  | zero => intro s t h; exact h
  | succ n ih => intro s t h; exact ih (sim_step h)

end

/-- An executor started with `previousStackPosition` runs as the one started without it,
with every position moved on by that number. -/
theorem sim_start (prev : Option Nat) (chain : List Middleware) (h : Handler) (req res : Nat) :
    Sim (prev.getD 0) (makeMiddlewareExecutor chain h req res)
      (startExecutor prev chain h req res) := by
  have hroot : Executor.new chain h req res prev =
      (Executor.new chain h req res none).shift (prev.getD 0) := by
    simp [Executor.new, Executor.shift, ControlledPromise.shift, controlledPromise]
  have h0 : Sim (prev.getD 0) (State.init (Executor.new chain h req res none))
      (State.init (Executor.new chain h req res prev)) := by
    refine ⟨fun q => ?_, rfl, rfl, rfl, rfl, rfl⟩
    simp only [State.init]
    exact hroot
  have hsp : (Executor.new chain h req res prev).stackPosition = 1 + prev.getD 0 := rfl
  have hsp1 : (Executor.new chain h req res none).stackPosition = 1 := rfl
  unfold makeMiddlewareExecutor startExecutor
  simp only [hsp, hsp1]
  exact sim_subscribe (sim_run h0 1) (.run 1) .routeCont

/-- C16: at every moment of a request, every call of a middleware and of the handler among
the events passed the request and the response given to the route function, and a
middleware was called by the executor whose position, counted from 1, is the place of that
middleware in the chain; every executor holds that request and response, the handler, and
the middleware of its position. The position has no effect on order or outcome: an
executor started with any `previousStackPosition` produces the same events in the same
order, but for the positions in them, and settles the promise of the route in the same
way after the same number of jobs. -/
theorem C16_request_response_position (chain : List Middleware) (h : Handler)
    (req res n : Nat) (prev : Option Nat) :
    (∀ ev ∈ (runRoute n chain h req res).log, ev.Genuine chain req res) ∧
    (∀ q, ((runRoute n chain h req res).nodes q).Carries chain h req res) ∧
    startExecutor none chain h req res = makeMiddlewareExecutor chain h req res ∧
    (runJobs n (startExecutor prev chain h req res)).log =
      (runRoute n chain h req res).log.map (Event.shift (prev.getD 0)) ∧
    (runJobs n (startExecutor prev chain h req res)).routePromise.status =
      (runRoute n chain h req res).routePromise.status ∧
    (runJobs n (startExecutor prev chain h req res)).queue.length =
      (runRoute n chain h req res).queue.length := by
  have hk := kept_runRoute chain h req res n
  have hs : Sim (prev.getD 0) (runRoute n chain h req res)
      (runJobs n (startExecutor prev chain h req res)) := sim_runJobs n (sim_start prev chain h req res)
  refine ⟨hk.log, hk.nodes, rfl, hs.log, ?_, ?_⟩
  · rw [hs.routePromise]; rfl
  · rw [hs.queue, List.length_map]

end NextApiMiddleware
